import Mathlib

/-!
Verification of the Krakatau bytecode assembler core and the CFG
restructurer's constraint-tree checks.

The definitions below are a shallow embedding of
`Krakatau/assembler/assembler.py` and (for the constraint-tree checks)
`Krakatau/java/structuring.py`.  Python byte strings are modelled as
`List Nat` (each entry a byte value), fallible code returns
`Except PyErr`, and the mutable `PoolRef` / `PoolInfo` objects are
modelled by explicit state passing: a call that in Python mutates an
object here returns the updated value.

The `instructions` and `constant_pool` modules of the repository are not
part of the given sources; the few pieces of data the assembler needs
from them (the ordered opcode list, the no-argument and label-taking
opcode sets, and the interning constant pool) are modelled from the
specification and marked as such.
-/

set_option maxRecDepth 40000

namespace Krakatau

/-- Errors.  `assemblerError msg` models `AssemblerError` raised via
`error(msg)`; `exn kind` models any other uncaught Python exception
(`struct.error`, `KeyError`, `TypeError`, ...); `fuelOut` is an artifact
of the fuel-bounded embedding of the recursive pool resolution and never
corresponds to a Python behaviour other than non-termination. -/
inductive PyErr where
  | assemblerError (msg : String)
  | exn (kind : String)
  | fuelOut
deriving DecidableEq, Repr

/-- Result type of fallible embedded code. -/
abbrev Res (α : Type) := Except PyErr α

/-! ## struct.pack

The assembler packs operands with Python's `struct` module using the
big-endian format codes `B b h H i I`.  `struct.pack` checks the range
of every integer argument, requires exactly one argument per format
code, and requires each argument to be an integer. -/

/-- A big-endian struct format code as used by the assembler. -/
inductive FmtCode where
  | B | b | h | H | i | I
deriving DecidableEq, Repr

/-- Byte width of a format code. -/
def fmtSize : FmtCode → Nat
  | .B => 1 | .b => 1 | .h => 2 | .H => 2 | .i => 4 | .I => 4

/-- Smallest admissible value of a format code. -/
def fmtMin : FmtCode → Int
  | .B => 0 | .b => -128 | .h => -32768 | .H => 0
  | .i => -2147483648 | .I => 0

/-- Largest admissible value of a format code. -/
def fmtMax : FmtCode → Int
  | .B => 255 | .b => 127 | .h => 32767 | .H => 65535
  | .i => 2147483647 | .I => 4294967295

/-- One more than the largest value representable in a format code's
width (`256 ^ fmtSize c`). -/
def fmtMod : FmtCode → Int
  | .B => 256 | .b => 256 | .h => 65536 | .H => 65536
  | .i => 4294967296 | .I => 4294967296

/-- Big-endian bytes of `n % 256^w`, `w` bytes long. -/
def natToBytesBE : Nat → Nat → List Nat
  | 0, _ => []
  | w + 1, n => natToBytesBE w (n / 256) ++ [n % 256]

/-- Pack a single integer with one format code: range check, then
two's-complement big-endian bytes. -/
def packOne (c : FmtCode) (v : Int) : Option (List Nat) :=
  if fmtMin c ≤ v ∧ v ≤ fmtMax c then
    some (natToBytesBE (fmtSize c) ((v % fmtMod c).toNat))
  else none

/-- An argument handed to `struct.pack`.  The assembler's `wide` branch
passes a whole Python list as a single argument, which `struct.pack`
rejects; `.lst` models that value. -/
inductive PackVal where
  | i (v : Int)
  | str (s : String)
  | lst (vs : List Int)
deriving DecidableEq, Repr

/-- `struct.pack(fmt, *vals)`: fails unless the argument count matches
the format and every argument is an in-range integer. -/
def structPack : List FmtCode → List PackVal → Res (List Nat)
  | [], [] => .ok []
  | c :: cs, .i v :: vs =>
    match packOne c v with
    | some bs => (structPack cs vs).map (fun rest => bs ++ rest)
    | none => .error (.exn "struct.error")
  | _ :: _, _ :: _ => .error (.exn "struct.error")
  | _, _ => .error (.exn "struct.error")

/-! ## Instruction catalogue

`_format_ops` / `_op_structs` are built in `assembler.py` itself from
explicit opcode lists plus `instructions.instrs_noarg`; the
`instructions` module is not among the given sources. -/

/-- Modelled from the spec: `instructions.allinstructions`, the ordered
JVM opcode list; the emitted opcode byte is an opcode's index in it
(spec §4.4 step 2, with the concrete values fixed by spec §8 S1:
`ldc` = 0x12, `bipush` = 0x10, `goto` = 0xA7). -/
def allinstructions : List String :=
  ["nop", "aconst_null", "iconst_m1", "iconst_0", "iconst_1", "iconst_2",
   "iconst_3", "iconst_4", "iconst_5", "lconst_0", "lconst_1", "fconst_0",
   "fconst_1", "fconst_2", "dconst_0", "dconst_1", "bipush", "sipush",
   "ldc", "ldc_w", "ldc2_w", "iload", "lload", "fload", "dload", "aload",
   "iload_0", "iload_1", "iload_2", "iload_3", "lload_0", "lload_1",
   "lload_2", "lload_3", "fload_0", "fload_1", "fload_2", "fload_3",
   "dload_0", "dload_1", "dload_2", "dload_3", "aload_0", "aload_1",
   "aload_2", "aload_3", "iaload", "laload", "faload", "daload", "aaload",
   "baload", "caload", "saload", "istore", "lstore", "fstore", "dstore",
   "astore", "istore_0", "istore_1", "istore_2", "istore_3", "lstore_0",
   "lstore_1", "lstore_2", "lstore_3", "fstore_0", "fstore_1", "fstore_2",
   "fstore_3", "dstore_0", "dstore_1", "dstore_2", "dstore_3", "astore_0",
   "astore_1", "astore_2", "astore_3", "iastore", "lastore", "fastore",
   "dastore", "aastore", "bastore", "castore", "sastore", "pop", "pop2",
   "dup", "dup_x1", "dup_x2", "dup2", "dup2_x1", "dup2_x2", "swap",
   "iadd", "ladd", "fadd", "dadd", "isub", "lsub", "fsub", "dsub",
   "imul", "lmul", "fmul", "dmul", "idiv", "ldiv", "fdiv", "ddiv",
   "irem", "lrem", "frem", "drem", "ineg", "lneg", "fneg", "dneg",
   "ishl", "lshl", "ishr", "lshr", "iushr", "lushr", "iand", "land",
   "ior", "lor", "ixor", "lxor", "iinc", "i2l", "i2f", "i2d", "l2i",
   "l2f", "l2d", "f2i", "f2l", "f2d", "d2i", "d2l", "d2f", "i2b", "i2c",
   "i2s", "lcmp", "fcmpl", "fcmpg", "dcmpl", "dcmpg", "ifeq", "ifne",
   "iflt", "ifge", "ifgt", "ifle", "if_icmpeq", "if_icmpne", "if_icmplt",
   "if_icmpge", "if_icmpgt", "if_icmple", "if_acmpeq", "if_acmpne",
   "goto", "jsr", "ret", "tableswitch", "lookupswitch", "ireturn",
   "lreturn", "freturn", "dreturn", "areturn", "return", "getstatic",
   "putstatic", "getfield", "putfield", "invokevirtual", "invokespecial",
   "invokestatic", "invokeinterface", "invokedynamic", "new", "newarray",
   "anewarray", "arraylength", "athrow", "checkcast", "instanceof",
   "monitorenter", "monitorexit", "wide", "multianewarray", "ifnull",
   "ifnonnull", "goto_w", "jsr_w"]

/-- Modelled from the spec: `instructions.instrs_noarg`, the opcodes with
empty operand format (spec §4.3: fixed-layout format `""`). -/
def instrs_noarg : List String :=
  ["nop", "aconst_null", "iconst_m1", "iconst_0", "iconst_1", "iconst_2",
   "iconst_3", "iconst_4", "iconst_5", "lconst_0", "lconst_1", "fconst_0",
   "fconst_1", "fconst_2", "dconst_0", "dconst_1",
   "iload_0", "iload_1", "iload_2", "iload_3", "lload_0", "lload_1",
   "lload_2", "lload_3", "fload_0", "fload_1", "fload_2", "fload_3",
   "dload_0", "dload_1", "dload_2", "dload_3", "aload_0", "aload_1",
   "aload_2", "aload_3", "iaload", "laload", "faload", "daload", "aaload",
   "baload", "caload", "saload",
   "istore_0", "istore_1", "istore_2", "istore_3", "lstore_0", "lstore_1",
   "lstore_2", "lstore_3", "fstore_0", "fstore_1", "fstore_2", "fstore_3",
   "dstore_0", "dstore_1", "dstore_2", "dstore_3", "astore_0", "astore_1",
   "astore_2", "astore_3", "iastore", "lastore", "fastore", "dastore",
   "aastore", "bastore", "castore", "sastore", "pop", "pop2", "dup",
   "dup_x1", "dup_x2", "dup2", "dup2_x1", "dup2_x2", "swap",
   "iadd", "ladd", "fadd", "dadd", "isub", "lsub", "fsub", "dsub",
   "imul", "lmul", "fmul", "dmul", "idiv", "ldiv", "fdiv", "ddiv",
   "irem", "lrem", "frem", "drem", "ineg", "lneg", "fneg", "dneg",
   "ishl", "lshl", "ishr", "lshr", "iushr", "lushr", "iand", "land",
   "ior", "lor", "ixor", "lxor", "i2l", "i2f", "i2d", "l2i", "l2f",
   "l2d", "f2i", "f2l", "f2d", "d2i", "d2l", "d2f", "i2b", "i2c", "i2s",
   "lcmp", "fcmpl", "fcmpg", "dcmpl", "dcmpg", "ireturn", "lreturn",
   "freturn", "dreturn", "areturn", "return", "arraylength", "athrow",
   "monitorenter", "monitorexit"]

/-- Modelled from the spec: `instructions.instrs_lbl`, the opcodes whose
sole immediate operand is a code label to be replaced by a signed offset
(spec §4.3: "the table must know, per opcode, whether its sole immediate
operand is a code label"). -/
def instrs_lbl : List String :=
  ["ifeq", "ifne", "iflt", "ifge", "ifgt", "ifle", "if_icmpeq",
   "if_icmpne", "if_icmplt", "if_icmpge", "if_icmpgt", "if_icmple",
   "if_acmpeq", "if_acmpne", "goto", "jsr", "ifnull", "ifnonnull",
   "goto_w", "jsr_w"]

/-- `_format_ops['>B']` (lines 55 and 63 of assembler.py). -/
def fmtOpsB : List String :=
  ["iload", "lload", "fload", "dload", "aload", "istore", "lstore",
   "fstore", "dstore", "astore", "ret", "ldc", "newarray"]

/-- `_format_ops['>h']` (lines 56 and 61). -/
def fmtOpsh : List String :=
  ["ifeq", "ifne", "iflt", "ifge", "ifgt", "ifle", "if_icmpeq",
   "if_icmpne", "if_icmplt", "if_icmpge", "if_icmpgt", "if_icmple",
   "if_acmpeq", "if_acmpne", "goto", "jsr", "ifnull", "ifnonnull",
   "sipush"]

/-- `_format_ops['>H']` (line 57). -/
def fmtOpsH : List String :=
  ["ldc_w", "ldc2_w", "getstatic", "putstatic", "getfield", "putfield",
   "invokevirtual", "invokespecial", "invokestatic", "invokedynamic",
   "new", "anewarray", "checkcast", "instanceof"]

/-- `_format_ops['>b']` (line 59). -/
def fmtOpsb : List String := ["bipush"]

/-- `_format_ops['>Bb']` (line 60). -/
def fmtOpsBb : List String := ["iinc"]

/-- `_format_ops['>HB']` (line 62). -/
def fmtOpsHB : List String := ["invokeinterface", "multianewarray"]

/-- `_format_ops['>i']` (line 64). -/
def fmtOpsi : List String := ["goto_w", "jsr_w"]

/-- `_op_structs`: the struct format of a fixed-layout opcode, `none`
for opcodes not in the table (the format-keyed lists are disjoint, so
the order of the tests does not matter). -/
def fmtOf (op : String) : Option (List FmtCode) :=
  if op ∈ instrs_noarg then some []
  else if op ∈ fmtOpsB then some [.B]
  else if op ∈ fmtOpsh then some [.h]
  else if op ∈ fmtOpsH then some [.H]
  else if op ∈ fmtOpsb then some [.b]
  else if op ∈ fmtOpsBb then some [.B, .b]
  else if op ∈ fmtOpsHB then some [.H, .B]
  else if op ∈ fmtOpsi then some [.i]
  else none

/-- `getPadding(pos)`: `(3 - pos) % 4` with Python's nonnegative `%`. -/
def getPadding (pos : Nat) : Nat := (((3 : Int) - pos) % 4).toNat

/-! ## Constant pool

`PoolRef` objects carry a memoised `index`, an optional label, and an
argument tuple whose elements are further `PoolRef`s or raw strings /
integers.  Mutation of a ref (memoising `self.index`, replacing
resolved arguments) is modelled by returning the updated value, and
`PoolInfo.lbls` is updated in place of the Python object sharing. -/

/-- An element of a `PoolRef` argument tuple: a nested `PoolRef`
(`ref index lbl args`) or a raw string / integer. -/
inductive PVal where
  | ref (index : Option Nat) (lbl : Option String) (args : List PVal)
  | s (v : String)
  | n (v : Int)

/-- A raw (non-reference) pool value, used as interning key material. -/
inductive CVal where
  | s (v : String)
  | n (v : Int)
deriving DecidableEq, Repr

/-- Modelled from the spec: the `constant_pool.ConstPool` interface used
by the assembler (spec §3, §4.1): a deterministic interning map from
`(tag, args)` keys to indices, indices starting at 1 (index 0 is the
distinguished "absent" entry) and `Long`/`Double` entries reserving two
indices. -/
structure ConstPool where
  interned : List (List CVal × Nat)
  next : Nat
deriving DecidableEq

/-- The empty constant pool. -/
def ConstPool.empty : ConstPool := ⟨[], 1⟩

/-- Modelled from the spec: number of indices an interned item reserves
(spec §3: "Some tags (long, double) reserve two indices"). -/
def cpWidth (key : List CVal) : Nat :=
  match key with
  | .s "Long" :: _ => 2
  | .s "Double" :: _ => 2
  | _ => 1

/-- Look a key up among the interned items. -/
def cpLookup (cp : ConstPool) (key : List CVal) : Option Nat :=
  (cp.interned.find? (fun p => p.1 = key)).map (·.2)

/-- Modelled from the spec: `ConstPool.getItemRaw` — return the index of
an already-interned key, or intern it at the next free index. -/
def getItemRaw (cp : ConstPool) (key : List CVal) : Nat × ConstPool :=
  match cpLookup cp key with
  | some i => (i, cp)
  | none => (cp.next, ⟨cp.interned ++ [(key, cp.next)], cp.next + cpWidth key⟩)

/-- The `PoolInfo` state: the constant pool plus the label table
`lbls` mapping a label to the `PoolRef` bound to it. -/
structure PoolSt where
  pool : ConstPool
  lbls : List (String × PVal)

/-- Look up a label in `lbls` (Python `self.lbls[lbl]`). -/
def lblsLookup (l : List (String × PVal)) (k : String) : Option PVal :=
  (l.find? (fun p => p.1 = k)).map (·.2)

/-- Replace the ref bound to a label (models that the Python object in
`lbls` was mutated in place during resolution). -/
def lblsWrite (l : List (String × PVal)) (k : String) (v : PVal) :
    List (String × PVal) :=
  l.map (fun p => if p.1 = k then (k, v) else p)

/-- Convert fully resolved `PoolRef` arguments to interning key
material; a leftover unresolved ref cannot occur after the resolving
comprehension in `toIndex` and is mapped to an error. -/
def toKey : List PVal → Res (List CVal)
  | [] => .ok []
  | .s v :: rest => (toKey rest).map (fun r => .s v :: r)
  | .n v :: rest => (toKey rest).map (fun r => .n v :: r)
  | .ref _ _ _ :: _ => .error (.exn "TypeError")

/-- `PoolInfo.getItem(*args)`: requires at least the tag argument,
then interns `(type_, tuple(args))`. -/
def getItem (cp : ConstPool) (args : List PVal) : Res (Nat × ConstPool) :=
  match args with
  | [] => .error (.exn "TypeError")
  | _ :: _ => (toKey args).map (fun key => getItemRaw cp key)

/-- The recursive-pool-reference error message of `PoolInfo.getLabel`
(line 41): `'Recursive constant pool reference: ' + ', '.join(forbidden)`. -/
def recRefMsg (forbidden : List String) : String :=
  "Recursive constant pool reference: " ++ String.intercalate ", " forbidden

/-- Sequencing of fallible steps: propagate the exception, otherwise
continue (Python's ordinary left-to-right evaluation). -/
def rbind {α β : Type} (x : Res α) (f : α → Res β) : Res β :=
  match x with
  | .ok a => f a
  | .error e => .error e

/-- The resolving comprehension of line 30, parameterised by the
resolver applied to each sub-reference:
`[(x.toIndex(pool) if isinstance(x, PoolRef) else x) for x in self.args]`
— note the sub-`toIndex` calls use the default empty forbidden tuple,
already baked into `tix` by the caller. -/
def resolveArgsP (tix : PVal → PoolSt → Res (Nat × PVal × PoolSt)) :
    List PVal → PoolSt → Res (List PVal × PoolSt)
  | [], p => .ok ([], p)
  | .ref i l a :: rest, p =>
    rbind (tix (.ref i l a) p) fun irp =>
    rbind (resolveArgsP tix rest irp.2.2) fun rp =>
    .ok (.n irp.1 :: rp.1, rp.2)
  | .s v :: rest, p =>
    rbind (resolveArgsP tix rest p) fun rp =>
    .ok (.s v :: rp.1, rp.2)
  | .n v :: rest, p =>
    rbind (resolveArgsP tix rest p) fun rp =>
    .ok (.n v :: rp.1, rp.2)

/-- `PoolInfo.getLabel(lbl, forbidden)` (lines 39-43), parameterised by
the `toIndex` resolver for the ref the label is bound to: fail on
re-entry of a forbidden label, otherwise descend with the label
appended, and write the resolved ref back into the label table (the
Python object is mutated in place). -/
def getLabelAux (tix : PVal → PoolSt → List String → Res (Nat × PVal × PoolSt))
    (lbl : String) (p : PoolSt) (forbidden : List String) :
    Res (Nat × PoolSt) :=
  if lbl ∈ forbidden then .error (.assemblerError (recRefMsg forbidden))
  else
    match lblsLookup p.lbls lbl with
    | none => .error (.exn "KeyError")
    | some r =>
      rbind (tix r p (forbidden ++ [lbl])) fun irp =>
      .ok (irp.1, { irp.2.2 with
                    lbls := lblsWrite irp.2.2.lbls lbl irp.2.1 })

/-- `PoolRef.toIndex(pool, forbidden)` (lines 24-32), fuel-bounded (one
unit of fuel per recursive descent; the Python code has no bound and
simply does not terminate on the cycles the forbidden set fails to
catch).  Returns the index together with the updated ref (whose `index`
is now memoised) and the updated pool state.  A memoised ref answers
without consuming fuel.  Python's `if self.lbl:` is a truthiness test,
so an empty-string label falls through to the argument branch. -/
def toIndex : Nat → PVal → PoolSt → List String → Res (Nat × PVal × PoolSt)
  | _, .ref (some i) lbl args, p, _ => .ok (i, .ref (some i) lbl args, p)
  | fuel + 1, .ref none (some lbl) args, p, forbidden =>
    if lbl = "" then
      rbind (resolveArgsP (fun r q => toIndex fuel r q []) args p) fun ap =>
      rbind (getItem ap.2.pool ap.1) fun ic =>
      .ok (ic.1, .ref (some ic.1) (some lbl) ap.1, { ap.2 with pool := ic.2 })
    else
      rbind (getLabelAux (fun r q fo => toIndex fuel r q fo) lbl p
              forbidden) fun ip =>
      .ok (ip.1, .ref (some ip.1) (some lbl) args, ip.2)
  | fuel + 1, .ref none none args, p, _ =>
    rbind (resolveArgsP (fun r q => toIndex fuel r q []) args p) fun ap =>
    rbind (getItem ap.2.pool ap.1) fun ic =>
    .ok (ic.1, .ref (some ic.1) none ap.1, { ap.2 with pool := ic.2 })
  | 0, .ref none _ _, _, _ => .error .fuelOut
  | _, .s _, _, _ => .error (.exn "AttributeError")
  | _, .n _, _, _ => .error (.exn "AttributeError")

/-- `PoolInfo.getLabel` as a standalone entry point. -/
def getLabel (fuel : Nat) (lbl : String) (p : PoolSt)
    (forbidden : List String) : Res (Nat × PoolSt) :=
  getLabelAux (toIndex fuel) lbl p forbidden

/-! ## Instructions and the two passes -/

/-- An operand of a fixed-layout instruction as produced by the parser:
an integer literal, an unresolved pool reference, or a code label. -/
inductive Val where
  | vint (v : Int)
  | vref (r : PVal)
  | vlbl (s : String)

/-- A parsed instruction `instr = (op, operands...)`.  The constructors
mirror the operand shapes the two passes destructure: `fixed` covers
every opcode looked up in `_op_structs`; `wide` carries the
`(subop, args)` pair of the wide form; the switches carry the
`(param, jumps, default)` triple. -/
inductive Instr where
  | fixed (op : String) (args : List Val)
  | wide (sub : String) (args : List Int)
  | tswitch (param : Int) (jumps : List String) (default : String)
  | lswitch (param : Int) (jumps : List (Int × String)) (default : String)

/-- `getInstrLen(instr, pos)` (lines 75-87).  For the wide form the
source computes `2 * len(instr[1])` where `instr[1]` is the
`(subop, args)` pair, hence the constant `2 * 2`.  `none` models the
crash of the final branch on an operand that is not a
`(param, jumps, default)` triple (an opcode outside the table). -/
def getInstrLen (instr : Instr) (pos : Nat) : Option Nat :=
  match instr with
  | .fixed op _ => (fmtOf op).map (fun f => 1 + (f.map fmtSize).sum)
  | .wide _ _ => some (2 * 2)
  | .tswitch _ jumps _ => some (13 + getPadding pos + 4 * jumps.length)
  | .lswitch _ jumps _ => some (9 + getPadding pos + 8 * jumps.length)

/-- The label table built by the layout pass: a Python dict keyed by the
statement labels, including the key `None` once any statement lacks a
label. -/
abbrev LabelMap := List (Option String × Nat)

/-- Dict update `labels[k] = v`. -/
def lmUpsert (m : LabelMap) (k : Option String) (v : Nat) : LabelMap :=
  if (m.find? (fun p => p.1 = k)).isSome then
    m.map (fun p => if p.1 = k then (k, v) else p)
  else m ++ [(k, v)]

/-- Dict lookup `labels[k]`. -/
def lmLookup (m : LabelMap) (k : Option String) : Option Nat :=
  (m.find? (fun p => p.1 = k)).map (·.2)

/-- Dict membership `k in labels`. -/
def lmMem (m : LabelMap) (k : Option String) : Bool :=
  (m.find? (fun p => p.1 = k)).isSome

/-- Dict deletion `del labels[k]` (removes the entry; the caller handles
the `KeyError` of a missing key separately). -/
def lmDelete (m : LabelMap) (k : Option String) : LabelMap :=
  m.filter (fun p => p.1 ≠ k)

/-- Insertion sort step for strings. -/
def insertStr (s : String) : List String → List String
  | [] => [s]
  | t :: ts => if s ≤ t then s :: t :: ts else t :: insertStr s ts

/-- `sorted` over strings (insertion sort). -/
def sortStrs : List String → List String
  | [] => []
  | s :: ss => insertStr s (sortStrs ss)

/-- The string keys of a label map (the `None` key excluded upstream by
`del labels[None]`). -/
def stringKeys (m : LabelMap) : List String :=
  m.filterMap (fun p => p.1)

/-- The undefined-label message of `lbl2Off` (line 93), built after
`del labels[None]`:
`'Undefined label: {}\nDefined labels for current method are: {}'`. -/
def undefMsg (lbl : String) (m : LabelMap) : String :=
  "Undefined label: " ++ lbl ++
    "\nDefined labels for current method are: " ++
    String.intercalate ", " (sortStrs (stringKeys (lmDelete m none)))

/-- `lbl2Off(lbl)` (lines 90-94) for a string label: the offset of the
label relative to `pos`, or — when the label is unknown — `del
labels[None]` (a `KeyError` if no statement was unlabelled) followed by
the undefined-label `AssemblerError`. -/
def lbl2Off (labels : LabelMap) (pos : Nat) (lbl : String) : Res Int :=
  match lmLookup labels (some lbl) with
  | some off => .ok ((off : Int) - (pos : Int))
  | none =>
    if lmMem labels none then .error (.assemblerError (undefMsg lbl labels))
    else .error (.exn "KeyError")

/-- `lbl2Off` applied to a fixed-instruction operand: the source indexes
`labels` with whatever value sits in `instr[0]`; a non-string operand is
never a key of `labels`, so it takes the not-found path (with itself
formatted into the message). -/
def lbl2OffV (labels : LabelMap) (pos : Nat) (v : Val) : Res Int :=
  match v with
  | .vlbl s => lbl2Off labels pos s
  | .vint n =>
    if lmMem labels none then
      .error (.assemblerError (undefMsg (toString n) labels))
    else .error (.exn "KeyError")
  | .vref _ =>
    if lmMem labels none then
      .error (.assemblerError (undefMsg "<ref>" labels))
    else .error (.exn "KeyError")

/-- `chr(instructions.allinstructions.index(op))` (line 98): the opcode
byte; `ValueError` when the opcode is unknown (`.index` fails) and when
the index does not fit a byte (`chr` fails). -/
def opcodeByte (op : String) : Res Nat :=
  match allinstructions.indexOf? op with
  | none => .error (.exn "ValueError")
  | some i => if i < 256 then .ok i else .error (.exn "ValueError")

/-- The resolving comprehension of line 100 over instruction operands:
pool refs are replaced by their indices (with the default empty
forbidden tuple), other operands are kept. -/
def resolveOperands (fuel : Nat) : List Val → PoolSt → Res (List Val × PoolSt)
  | [], p => .ok ([], p)
  | .vref r :: rest, p =>
    match toIndex fuel r p [] with
    | .ok (i, _, p') =>
      match resolveOperands fuel rest p' with
      | .ok (rest', p'') => .ok (.vint i :: rest', p'')
      | .error e => .error e
    | .error e => .error e
  | v :: rest, p =>
    match resolveOperands fuel rest p with
    | .ok (rest', p') => .ok (v :: rest', p')
    | .error e => .error e

/-- `instr[0] = lbl2Off(instr[0])` (line 102): substitute the label
operand; an empty operand list is the source's `IndexError`. -/
def substLabelOperand (labels : LabelMap) (pos : Nat) :
    List Val → Res (List Val)
  | [] => .error (.exn "IndexError")
  | v :: rest => (lbl2OffV labels pos v).map (fun off => .vint off :: rest)

/-- Convert a resolved operand to a `struct.pack` argument; a label that
survived resolution is a string argument, which `pack` rejects. -/
def valToPack : Val → PackVal
  | .vint v => .i v
  | .vlbl s => .str s
  | .vref _ => .str "<ref>"

/-- Dict update for the lookupswitch comprehension
`{k: off for ...}`: replace the value of an existing key in place
(keeping its position, as a Python dict does), or append a new key. -/
def kvUpsert : List (Int × Int) → Int → Int → List (Int × Int)
  | [], k, v => [(k, v)]
  | p :: rest, k, v =>
    if p.1 = k then (k, v) :: rest else p :: kvUpsert rest k v

/-- Dict lookup on an integer-keyed association list. -/
def kvLookup : List (Int × Int) → Int → Option Int
  | [], _ => none
  | p :: rest, k => if p.1 = k then some p.2 else kvLookup rest k

/-- The value attached to the last occurrence of a key in a pair list. -/
def lastLookup : List (Int × Int) → Int → Option Int
  | [], _ => none
  | p :: rest, k =>
    match lastLookup rest k with
    | some v => some v
    | none => if p.1 = k then some p.2 else none

/-- Insertion sort step for key/value pairs, ordered by key. -/
def insertPair (x : Int × Int) : List (Int × Int) → List (Int × Int)
  | [] => [x]
  | y :: ys => if x.1 ≤ y.1 then x :: y :: ys else y :: insertPair x ys

/-- `sorted(jumps.items())` (line 124); the keys are distinct after the
dict comprehension, so ordering by key alone matches Python's tuple
order. -/
def sortPairs : List (Int × Int) → List (Int × Int)
  | [] => []
  | x :: xs => insertPair x (sortPairs xs)

/-- The emitted lookupswitch case table (lines 123-124): the dict
comprehension `{k: lbl2Off(lbl) for k, lbl in jumps}` (last occurrence
of a key wins) followed by `sorted(...)`. -/
def lookupJumpTable (resolved : List (Int × Int)) : List (Int × Int) :=
  sortPairs (resolved.foldl (fun acc p => kvUpsert acc p.1 p.2) [])

/-- Effectful map over a list, failing on the first error (the list
comprehensions and generator maps of the source). -/
def resMapM {α β : Type} (f : α → Res β) : List α → Res (List β)
  | [] => .ok []
  | x :: xs =>
    match f x with
    | .ok y => (resMapM f xs).map (fun ys => y :: ys)
    | .error e => .error e

/-- `assembleInstruction(instr, labels, pos, pool)` (lines 89-128),
producing the instruction's bytes and the updated pool state. -/
def assembleInstruction (fuel : Nat) (instr : Instr) (labels : LabelMap)
    (pos : Nat) (p : PoolSt) : Res (List Nat × PoolSt) :=
  match instr with
  | .fixed op args =>
    rbind (opcodeByte op) fun first =>
    rbind (resolveOperands fuel args p) fun rp =>
    rbind (if op ∈ instrs_lbl then substLabelOperand labels pos rp.1
           else .ok rp.1) fun args2 =>
    rbind (match fmtOf op with
           | some fmt => structPack fmt (args2.map valToPack)
           -- an opcode outside `_op_structs` falls into the switch
           -- branch, whose tuple unpacking of the operand crashes
           | none => .error (.exn "TypeError")) fun rest =>
    .ok (first :: rest, rp.2)
  | .wide sub args =>
    rbind (opcodeByte "wide") fun first =>
    rbind (opcodeByte sub) fun sfirst =>
    -- `struct.pack('>'+'H'*len(args), args)` (line 109): the whole
    -- list is passed as a single argument
    rbind (structPack (List.replicate args.length .H) [.lst args]) fun rest =>
    .ok (first :: sfirst :: rest, p)
  | .tswitch param jumps default =>
    rbind (opcodeByte "tableswitch") fun first =>
    rbind (lbl2Off labels pos default) fun d =>
    rbind (resMapM (lbl2Off labels pos) jumps) fun js =>
    -- `low, high = param, param + len(jumps) - 1`
    rbind (structPack [.i, .i, .i]
            [.i d, .i param, .i (param + jumps.length - 1)]) fun part1 =>
    rbind (resMapM (fun j => structPack [.i] [.i j]) js) fun parts =>
    .ok (first :: List.replicate (getPadding pos) 0 ++ part1 ++
          parts.flatten, p)
  | .lswitch _ jumps default =>
    rbind (opcodeByte "lookupswitch") fun first =>
    rbind (lbl2Off labels pos default) fun d =>
    rbind (resMapM (fun kl => (lbl2Off labels pos kl.2).map
             (fun off => (kl.1, off))) jumps) fun resolved =>
    rbind (structPack [.i, .i]
            [.i d, .i ((lookupJumpTable resolved).length : Int)]) fun part1 =>
    rbind (resMapM (fun kv => structPack [.i, .i] [.i kv.1, .i kv.2])
            (lookupJumpTable resolved)) fun parts =>
    .ok (first :: List.replicate (getPadding pos) 0 ++ part1 ++
          parts.flatten, p)

/-! ## The Code attribute -/

/-- A directive statement of a method body. -/
inductive Directive where
  | catchD (name : PVal) (fromLbl toLbl handlerLbl : String)
  | stackD (v : Int)
  | localsD (v : Int)

/-- A method-body statement: a directive, or an instruction line with an
optional label and an optional instruction. -/
inductive Stmt where
  | dir (d : Directive)
  | ins (lbl : Option String) (instr : Option Instr)

/-- The layout pass (lines 138-144): record every line's label at the
running offset, collect instruction start offsets, and advance by
`getInstrLen`. -/
def layoutPass : List (Option String × Option Instr) → Nat → LabelMap →
    List Nat → Res (LabelMap × List Nat × Nat)
  | [], pos, labels, offsets => .ok (labels, offsets, pos)
  | (lbl, instr) :: rest, pos, labels, offsets =>
    let labels := lmUpsert labels lbl pos
    match instr with
    | none => layoutPass rest pos labels offsets
    | some i =>
      match getInstrLen i pos with
      | none => .error (.exn "TypeError")
      | some n => layoutPass rest (pos + n) labels (offsets ++ [pos])

/-- The emit pass (lines 146-149): concatenate each instruction's bytes,
passing `len(code_bytes)` as the position. -/
def emitCode (fuel : Nat) : List (Option String × Option Instr) → LabelMap →
    List Nat → PoolSt → Res (List Nat × PoolSt)
  | [], _, code, p => .ok (code, p)
  | (_, none) :: rest, labels, code, p => emitCode fuel rest labels code p
  | (_, some i) :: rest, labels, code, p =>
    match assembleInstruction fuel i labels code.length p with
    | .ok (bs, p') => emitCode fuel rest labels (code ++ bs) p'
    | .error e => .error e

/-- `PoolInfo.Utf8(s)` (lines 48-49). -/
def poolUtf8 (p : PoolSt) (s : String) : Nat × PoolSt :=
  let r := getItemRaw p.pool [.s "Utf8", .s s]
  (r.1, { p with pool := r.2 })

/-- The Jasmin-compatibility hack of lines 156-158: under `jasmode`,
when the catch name's second argument is a `('Utf8', 'all')` ref, the
name's index is forced to 0. -/
def jasminHack (jasmode : Bool) (name : PVal) : Res PVal :=
  match name with
  | .ref idx lbl args =>
    if jasmode ∧ args.length ≠ 0 then
      match args[1]? with
      | none => .error (.exn "IndexError")
      | some (PVal.ref _ _ a2) =>
        match a2 with
        | [.s tag, .s v] =>
          if tag = "Utf8" ∧ v = "all" then .ok (.ref (some 0) lbl args)
          else .ok (.ref idx lbl args)
        | _ => .ok (.ref idx lbl args)
      | some _ => .error (.exn "AttributeError")
    else .ok (.ref idx lbl args)
  | _ => .error (.exn "AttributeError")

/-- The three label lookups of line 159 (`labels[start]`, `labels[end]`,
`labels[target]`); a missing label is a `KeyError`. -/
def lmLookup3 (labels : LabelMap) (s e t : String) : Res (Nat × Nat × Nat) :=
  match lmLookup labels (some s), lmLookup labels (some e),
        lmLookup labels (some t) with
  | some so, some eo, some ho => .ok (so, eo, ho)
  | _, _, _ => .error (.exn "KeyError")

/-- The directive loop (lines 151-164): collect the packed
exception-table entries in order and take the minimum of the stack /
locals limits. -/
def processDirectives (fuel : Nat) : List Directive → LabelMap → Bool →
    List (List Nat) → Int → Int → PoolSt →
    Res (List (List Nat) × Int × Int × PoolSt)
  | [], _, _, excepts, stack, locals, p => .ok (excepts, stack, locals, p)
  | .catchD name s e t :: rest, labels, jasmode, excepts, stack, locals, p =>
    rbind (jasminHack jasmode name) fun name2 =>
    rbind (lmLookup3 labels s e t) fun offs =>
    rbind (toIndex fuel name2 p []) fun irp =>
    rbind (structPack [.H, .H, .H, .H]
            [.i offs.1, .i offs.2.1, .i offs.2.2, .i irp.1]) fun entry =>
    processDirectives fuel rest labels jasmode (excepts ++ [entry])
      stack locals irp.2.2
  | .stackD v :: rest, labels, jasmode, excepts, stack, locals, p =>
    processDirectives fuel rest labels jasmode excepts (min stack v) locals p
  | .localsD v :: rest, labels, jasmode, excepts, stack, locals, p =>
    processDirectives fuel rest labels jasmode excepts stack (min locals v) p

/-- The optional line-number attribute (lines 167-170): one `(x, x)`
entry per instruction start offset. -/
def lineNumberAttr (offsets : List Nat) (p : PoolSt) :
    Res (List Nat × PoolSt) :=
  rbind (resMapM (fun x => structPack [.H, .H] [.i (x : Int), .i (x : Int)])
          offsets) fun lntable =>
  let r := poolUtf8 p "LineNumberTable"
  rbind (structPack [.H, .I, .H]
          [.i r.1, .i (2 + 4 * lntable.length : Int),
           .i (lntable.length : Int)]) fun head =>
  .ok (head ++ lntable.flatten, r.2)

/-- The directive statements of a method body (line 133). -/
def directivesOf (statements : List Stmt) : List Directive :=
  statements.filterMap (fun st => match st with | .dir d => some d | _ => none)

/-- The instruction lines of a method body (line 134). -/
def linesOf (statements : List Stmt) :
    List (Option String × Option Instr) :=
  statements.filterMap
    (fun st => match st with | .ins l i => some (l, i) | _ => none)

/-- `assembleCodeAttr(statements, pool, addLineNumbers, jasmode)`
(lines 130-179): `none` for an empty statement list, otherwise the
serialised Code attribute. -/
def assembleCodeAttr (fuel : Nat) (statements : List Stmt) (p : PoolSt)
    (addLineNumbers jasmode : Bool) : Res (Option (List Nat) × PoolSt) :=
  if statements.isEmpty then .ok (none, p)
  else
    let directives := directivesOf statements
    let lines := linesOf statements
    rbind (layoutPass lines 0 [] []) fun lo =>
    rbind (emitCode fuel lines lo.1 [] p) fun cp =>
    rbind (processDirectives fuel directives lo.1 jasmode [] 65535 65535
            cp.2) fun ex =>
    rbind (if addLineNumbers then
             rbind (lineNumberAttr lo.2.1 ex.2.2.2) fun r => .ok ([r.1], r.2)
           else .ok ([], ex.2.2.2)) fun ats =>
    let code := cp.1
    let excepts := ex.1
    let attributes := ats.1
    let r := poolUtf8 ats.2 "Code"
    let attr_len : Int := 12 + code.length + 8 * excepts.length +
      (attributes.map List.length).sum
    rbind (structPack [.H, .I, .H, .H, .I]
            [.i r.1, .i attr_len, .i ex.2.1, .i ex.2.2.1,
             .i (code.length : Int)]) fun head =>
    rbind (structPack [.H] [.i (excepts.length : Int)]) fun excCount =>
    rbind (structPack [.H] [.i (attributes.length : Int)]) fun attrCount =>
    .ok (some (head ++ code ++ excCount ++ excepts.flatten ++
          attrCount ++ attributes.flatten), r.2)

/-- Read a big-endian `u32` from the front of a byte list. -/
def readU32BE : List Nat → Option Nat
  | a :: b :: c :: d :: _ => some (((a * 256 + b) * 256 + c) * 256 + d)
  | _ => none

/-- The layout pass followed by the emit pass on a method's instruction
lines (lines 138-149 of assembler.py): the method's code bytes. -/
def codeBytesOf (fuel : Nat) (lines : List (Option String × Option Instr))
    (p : PoolSt) : Res (List Nat × PoolSt) :=
  match layoutPass lines 0 [] [] with
  | .error e => .error e
  | .ok (labels, _, _) => emitCode fuel lines labels [] p

/-! ## The restructurer's constraint-tree checks

From `Krakatau/java/structuring.py`.  CFG nodes are identified by
naturals; a `ScopeConstraint` and a `CompoundConstraint` carry lower and
upper bound node sets.  The tree is the `children` mapping produced by
`orderConstraints`, modelled as an association list from a parent
constraint to its child list. -/

/-- `ScopeConstraint(lbound, ubound)` (structuring.py lines 73-76). -/
structure SC where
  lb : Finset ℕ
  ub : Finset ℕ
deriving DecidableEq

/-- The bound data of a `CompoundConstraint` (lines 79-94): aggregated
`lbound` / `ubound` plus the per-scope bounds. -/
structure Con where
  tag : String
  lbound : Finset ℕ
  ubound : Finset ℕ
  scopes : List SC
deriving DecidableEq

/-- `itertools.combinations(xs, 2)` folded through a check: every
unordered pair of list elements passes `f`. -/
def pairwiseB {α : Type} (f : α → α → Bool) : List α → Bool
  | [] => true
  | x :: xs => xs.all (f x) && pairwiseB f xs

/-- `_checkNested(ctree_children)` (lines 981-995) as a boolean checker:
for every parent and child, the child's `lbound` is inside the parent's
`lbound` and its own `ubound`, exactly one parent scope meets the
child's `lbound`, the child's scopes have pairwise disjoint bounds, and
siblings have pairwise disjoint `lbound`s. -/
def checkNested (tree : List (Con × List Con)) : Bool :=
  tree.all fun kc =>
    (kc.2.all fun child =>
      decide (child.lbound ⊆ kc.1.lbound) &&
      decide (child.lbound ⊆ child.ubound) &&
      ((kc.1.scopes.filter
          (fun s => decide ((s.ub ∩ child.lbound).Nonempty))).length == 1) &&
      pairwiseB (fun c1 c2 =>
        decide (Disjoint c1.lb c2.lb) && decide (Disjoint c1.ub c2.ub))
        child.scopes) &&
    pairwiseB (fun c1 c2 => decide (Disjoint c1.lbound c2.lbound)) kc.2

/-- The node-set bound check run over the constraint list before the
tree is built (`orderConstraints`, lines 321-327) and again after the
try-merge pass (`mergeExceptions`, lines 640-646): every constraint's
bounds and scope bounds lie inside the node set. -/
def checkBounds (constraints : List Con) (nodeSet : Finset ℕ) : Bool :=
  constraints.all fun item =>
    decide (item.lbound ⊆ nodeSet) && decide (item.ubound ⊆ nodeSet) &&
    item.scopes.all (fun s =>
      decide (s.lb ⊆ nodeSet) && decide (s.ub ⊆ nodeSet))

/-! ## Supporting lemmas -/

theorem rbind_ok {α β : Type} {x : Res α} {f : α → Res β} {b : β} :
    rbind x f = .ok b ↔ ∃ a, x = .ok a ∧ f a = .ok b := by
  cases x <;> simp [rbind]

theorem natToBytesBE_length (w : Nat) : ∀ n, (natToBytesBE w n).length = w := by
  induction w with
  | zero => intro n; rfl
  | succ w ih => intro n; simp [natToBytesBE, ih]

theorem packOne_length {c : FmtCode} {v : Int} {bs : List Nat}
    (h : packOne c v = some bs) : bs.length = fmtSize c := by
  unfold packOne at h
  split at h
  · cases h; exact natToBytesBE_length _ _
  · cases h

theorem structPack_length {fmt : List FmtCode} {vals : List PackVal}
    {bs : List Nat} (h : structPack fmt vals = .ok bs) :
    bs.length = (fmt.map fmtSize).sum := by
  induction fmt generalizing vals bs with
  | nil =>
    cases vals with
    | nil => cases h; rfl
    | cons v vs => simp [structPack] at h
  | cons c cs ih =>
    cases vals with
    | nil => simp [structPack] at h
    | cons v vs =>
      cases v with
      | i x =>
        simp only [structPack] at h
        cases hp : packOne c x with
        | none => rw [hp] at h; cases h
        | some b =>
          rw [hp] at h
          cases hrec : structPack cs vs with
          | error e => rw [hrec] at h; cases h
          | ok rest =>
            rw [hrec] at h
            cases h
            simp [packOne_length hp, ih hrec, Nat.add_comm]
      | str s => simp [structPack] at h
      | lst vs2 => simp [structPack] at h

/-- The wide branch's `struct.pack('>'+'H'*len(args), args)` always
fails: the single list argument never matches the format. -/
theorem structPack_wide_error (n : Nat) (args : List Int) :
    structPack (List.replicate n FmtCode.H) [PackVal.lst args] =
      .error (.exn "struct.error") := by
  cases n with
  | zero => rfl
  | succ n => rfl

theorem resMapM_length {α β : Type} {f : α → Res β} {l : List α}
    {l' : List β} (h : resMapM f l = .ok l') : l'.length = l.length := by
  induction l generalizing l' with
  | nil => cases h; rfl
  | cons x xs ih =>
    simp only [resMapM] at h
    cases hf : f x with
    | error e => rw [hf] at h; cases h
    | ok y =>
      rw [hf] at h
      cases hrec : resMapM f xs with
      | error e => rw [hrec] at h; cases h
      | ok ys => rw [hrec] at h; cases h; simp [ih hrec]

theorem resMapM_flatten_length {α : Type} {f : α → Res (List Nat)}
    {l : List α} {parts : List (List Nat)} {k : Nat}
    (h : resMapM f l = .ok parts)
    (hf : ∀ x bs, f x = .ok bs → bs.length = k) :
    parts.flatten.length = k * l.length := by
  induction l generalizing parts with
  | nil => cases h; rfl
  | cons x xs ih =>
    simp only [resMapM] at h
    cases hfx : f x with
    | error e => rw [hfx] at h; cases h
    | ok y =>
      rw [hfx] at h
      cases hrec : resMapM f xs with
      | error e => rw [hrec] at h; cases h
      | ok ys =>
        rw [hrec] at h; cases h
        simp [hf x y hfx, ih hrec, Nat.mul_succ, Nat.add_comm]

theorem resMapM_fst {α β γ : Type} {f : α × β → Res (α × γ)} {l : List (α × β)}
    {l' : List (α × γ)} (hf : ∀ x y, f x = .ok y → y.1 = x.1)
    (h : resMapM f l = .ok l') : l'.map Prod.fst = l.map Prod.fst := by
  induction l generalizing l' with
  | nil => cases h; rfl
  | cons x xs ih =>
    simp only [resMapM] at h
    cases hfx : f x with
    | error e => rw [hfx] at h; cases h
    | ok y =>
      rw [hfx] at h
      cases hrec : resMapM f xs with
      | error e => rw [hrec] at h; cases h
      | ok ys => rw [hrec] at h; cases h; simp [hf x y hfx, ih hrec]

/-- The dict fold used by `lookupJumpTable`. -/
def kvFold (l : List (Int × Int)) (acc : List (Int × Int)) :
    List (Int × Int) :=
  l.foldl (fun a p => kvUpsert a p.1 p.2) acc

theorem lookupJumpTable_eq (resolved : List (Int × Int)) :
    lookupJumpTable resolved = sortPairs (kvFold resolved []) := rfl

theorem kvUpsert_keys (m : List (Int × Int)) (k v : Int) :
    (kvUpsert m k v).map Prod.fst =
      if k ∈ m.map Prod.fst then m.map Prod.fst
      else m.map Prod.fst ++ [k] := by
  induction m with
  | nil => simp [kvUpsert]
  | cons p rest ih =>
    by_cases hp : p.1 = k
    · simp [kvUpsert, hp]
    · have hk : ¬ k = p.1 := fun hk => hp hk.symm
      by_cases hm : k ∈ rest.map Prod.fst
      · simp [kvUpsert, hp, ih, hm, hk]
      · simp [kvUpsert, hp, ih, hm, hk]

theorem kvUpsert_length_le (m : List (Int × Int)) (k v : Int) :
    (kvUpsert m k v).length ≤ m.length + 1 := by
  induction m with
  | nil => simp [kvUpsert]
  | cons p rest ih =>
    by_cases hp : p.1 = k
    · simp [kvUpsert, hp]
    · simp only [kvUpsert, hp, if_false, List.length_cons]
      omega

theorem kvUpsert_length_of_not_mem {m : List (Int × Int)} {k : Int} (v : Int)
    (h : k ∉ m.map Prod.fst) :
    (kvUpsert m k v).length = m.length + 1 := by
  induction m with
  | nil => rfl
  | cons p rest ih =>
    simp only [List.map_cons, List.mem_cons] at h
    push_neg at h
    have hp : p.1 ≠ k := fun hp => h.1 hp.symm
    simp [kvUpsert, hp, ih h.2]

theorem kvUpsert_nodup {m : List (Int × Int)} (k v : Int)
    (h : (m.map Prod.fst).Nodup) : ((kvUpsert m k v).map Prod.fst).Nodup := by
  rw [kvUpsert_keys]
  split
  · exact h
  · next hmem =>
    simp only [List.nodup_append, List.nodup_cons, List.nodup_nil]
    refine ⟨h, by simp, ?_⟩
    intro a ha hb
    simp only [List.mem_singleton] at hb
    subst hb
    exact hmem ha

theorem kvLookup_upsert (m : List (Int × Int)) (k v k' : Int) :
    kvLookup (kvUpsert m k v) k' =
      if k' = k then some v else kvLookup m k' := by
  induction m with
  | nil =>
    by_cases hk : k' = k
    · simp [kvUpsert, kvLookup, hk]
    · have h2 : ¬ k = k' := fun h => hk h.symm
      simp [kvUpsert, kvLookup, hk, h2]
  | cons p rest ih =>
    by_cases hp : p.1 = k
    · by_cases hk : k' = k
      · simp [kvUpsert, kvLookup, hp, hk]
      · have h2 : ¬ k = k' := fun h => hk h.symm
        simp [kvUpsert, kvLookup, hp, hk, h2]
    · by_cases hpk : p.1 = k'
      · have hk : ¬ k' = k := fun hk => hp (hpk.trans hk)
        simp [kvUpsert, kvLookup, hp, hpk, hk]
      · simp [kvUpsert, kvLookup, hp, hpk, ih]

theorem kvFold_lookup (l : List (Int × Int)) :
    ∀ (acc : List (Int × Int)) (k : Int),
      kvLookup (kvFold l acc) k =
        match lastLookup l k with
        | some v => some v
        | none => kvLookup acc k := by
  induction l with
  | nil => intro acc k; simp [kvFold, lastLookup]
  | cons p rest ih =>
    intro acc k
    have : kvFold (p :: rest) acc = kvFold rest (kvUpsert acc p.1 p.2) := rfl
    rw [this, ih]
    simp only [lastLookup]
    cases lastLookup rest k with
    | some v => simp
    | none =>
      simp only [kvLookup_upsert]
      by_cases hk : k = p.1
      · simp [hk]
      · have : ¬ p.1 = k := fun h => hk h.symm
        simp [hk, this]

theorem kvFold_keys_nodup (l : List (Int × Int)) :
    ∀ acc, ((acc.map Prod.fst).Nodup) → ((kvFold l acc).map Prod.fst).Nodup := by
  induction l with
  | nil => intro acc h; exact h
  | cons p rest ih => intro acc h; exact ih _ (kvUpsert_nodup _ _ h)

theorem kvFold_length_le (l : List (Int × Int)) :
    ∀ acc, (kvFold l acc).length ≤ acc.length + l.length := by
  induction l with
  | nil => intro acc; simp [kvFold]
  | cons p rest ih =>
    intro acc
    have h1 := ih (kvUpsert acc p.1 p.2)
    have h2 := kvUpsert_length_le acc p.1 p.2
    have : kvFold (p :: rest) acc = kvFold rest (kvUpsert acc p.1 p.2) := rfl
    rw [this]
    simp only [List.length_cons]
    omega

theorem kvFold_keys_sub (l : List (Int × Int)) :
    ∀ acc k, k ∈ (kvFold l acc).map Prod.fst →
      k ∈ acc.map Prod.fst ∨ k ∈ l.map Prod.fst := by
  induction l with
  | nil => intro acc k h; exact Or.inl h
  | cons p rest ih =>
    intro acc k h
    have : kvFold (p :: rest) acc = kvFold rest (kvUpsert acc p.1 p.2) := rfl
    rw [this] at h
    rcases ih _ k h with h1 | h1
    · rw [kvUpsert_keys] at h1
      split at h1
      · exact Or.inl h1
      · rcases List.mem_append.mp h1 with h2 | h2
        · exact Or.inl h2
        · simp only [List.mem_singleton] at h2
          subst h2; exact Or.inr (by simp)
    · exact Or.inr (by simp [h1])

theorem kvFold_length_of_nodup (l : List (Int × Int)) :
    ∀ acc, ((acc.map Prod.fst ++ l.map Prod.fst).Nodup) →
      (kvFold l acc).length = acc.length + l.length := by
  induction l with
  | nil => intro acc _; simp [kvFold]
  | cons p rest ih =>
    intro acc h
    simp only [List.map_cons, List.nodup_append, List.nodup_cons] at h
    obtain ⟨hacc, ⟨hp, hrest⟩, hdisj⟩ := h
    have hpacc : p.1 ∉ acc.map Prod.fst := by
      intro hmem
      exact hdisj hmem (by simp)
    have hkeys : (kvUpsert acc p.1 p.2).map Prod.fst =
        acc.map Prod.fst ++ [p.1] := by
      rw [kvUpsert_keys]; simp [hpacc]
    have : kvFold (p :: rest) acc = kvFold rest (kvUpsert acc p.1 p.2) := rfl
    rw [this, ih]
    · rw [kvUpsert_length_of_not_mem _ hpacc]
      simp [Nat.add_assoc, Nat.add_comm 1 rest.length]
    · rw [hkeys]
      simp only [List.nodup_append, List.nodup_cons]
      refine ⟨⟨hacc, by simp, ?_⟩, hrest, ?_⟩
      · intro a ha hb
        simp only [List.mem_singleton] at hb
        subst hb
        exact hpacc ha
      · intro a ha hb
        rcases List.mem_append.mp ha with h1 | h1
        · exact hdisj h1 (by simp [hb])
        · simp only [List.mem_singleton] at h1
          subst h1
          exact hp hb

theorem mem_iff_kvLookup {m : List (Int × Int)}
    (h : (m.map Prod.fst).Nodup) (k v : Int) :
    (k, v) ∈ m ↔ kvLookup m k = some v := by
  induction m with
  | nil => simp [kvLookup]
  | cons p rest ih =>
    simp only [List.map_cons, List.nodup_cons] at h
    constructor
    · intro hmem
      rcases List.mem_cons.mp hmem with h1 | h1
      · subst h1; simp [kvLookup]
      · have hp : p.1 ≠ k := by
          intro hpk
          exact h.1 (hpk ▸ (List.mem_map.mpr ⟨(k, v), h1, rfl⟩))
        simp [kvLookup, hp, (ih h.2).mp h1]
    · intro hl
      simp only [kvLookup] at hl
      split at hl
      · next hp =>
        cases hl
        exact List.mem_cons.mpr (Or.inl (by cases p; simp_all))
      · exact List.mem_cons.mpr (Or.inr ((ih h.2).mpr hl))

theorem insertPair_perm (x : Int × Int) (l : List (Int × Int)) :
    (insertPair x l).Perm (x :: l) := by
  induction l with
  | nil => simp [insertPair]
  | cons y ys ih =>
    simp only [insertPair]
    split
    · exact List.Perm.refl _
    · exact (ih.cons y).trans (List.Perm.swap x y ys)

theorem sortPairs_perm (l : List (Int × Int)) : (sortPairs l).Perm l := by
  induction l with
  | nil => simp [sortPairs]
  | cons x xs ih => exact (insertPair_perm x (sortPairs xs)).trans (ih.cons x)

theorem mem_insertPair {a x : Int × Int} {l : List (Int × Int)} :
    a ∈ insertPair x l ↔ a = x ∨ a ∈ l := by
  rw [(insertPair_perm x l).mem_iff]; simp

theorem insertPair_pairwise {x : Int × Int} {l : List (Int × Int)}
    (h : l.Pairwise (fun a b => a.1 ≤ b.1)) :
    (insertPair x l).Pairwise (fun a b => a.1 ≤ b.1) := by
  induction l with
  | nil => simp [insertPair]
  | cons y ys ih =>
    simp only [List.pairwise_cons] at h
    simp only [insertPair]
    split
    · next hxy =>
      refine List.pairwise_cons.mpr ⟨?_, List.pairwise_cons.mpr h⟩
      intro b hb
      rcases List.mem_cons.mp hb with h1 | h1
      · exact h1 ▸ hxy
      · exact le_trans hxy (h.1 b h1)
    · next hxy =>
      have hyx : y.1 ≤ x.1 := le_of_not_le hxy
      refine List.pairwise_cons.mpr ⟨?_, ih h.2⟩
      intro b hb
      rcases mem_insertPair.mp hb with h1 | h1
      · exact h1 ▸ hyx
      · exact h.1 b h1

theorem sortPairs_pairwise (l : List (Int × Int)) :
    (sortPairs l).Pairwise (fun a b => a.1 ≤ b.1) := by
  induction l with
  | nil => simp [sortPairs]
  | cons x xs ih => exact insertPair_pairwise ih

theorem pairwiseB_eq_true {α : Type} {f : α → α → Bool} {l : List α} :
    pairwiseB f l = true ↔ l.Pairwise (fun a b => f a b = true) := by
  induction l with
  | nil => simp [pairwiseB]
  | cons x xs ih =>
    simp [pairwiseB, List.all_eq_true, ih, List.pairwise_cons]

/-! ## The claims -/

/-- C3: for every tableswitch or lookupswitch emitted at offset `pos`,
the 4-byte default-offset field starts at `pos + 1 + getPadding pos`
(one opcode byte plus the padding zeros), which is a multiple of 4 for
every nonnegative `pos`. -/
theorem claim_C3 (pos : Nat) : (pos + 1 + getPadding pos) % 4 = 0 := by
  unfold getPadding
  omega

/-- C5: whenever the restructurer's tree checks pass — `_checkNested`
on the constraint tree together with the node-set bound checks run over
the constraint list in `orderConstraints` and `mergeExceptions` — the
checked tree has pairwise-disjoint sibling `lbound`s, every child's
`lbound` inside its parent's `lbound` and inside its own `ubound`, and
every checked constraint's `lbound` and `ubound` inside the node set. -/
theorem claim_C5 (tree : List (Con × List Con)) (constraints : List Con)
    (ns : Finset ℕ) (hN : checkNested tree = true)
    (hB : checkBounds constraints ns = true) :
    (∀ kc ∈ tree,
      (kc.2.Pairwise fun c1 c2 => Disjoint c1.lbound c2.lbound) ∧
      ∀ c ∈ kc.2, c.lbound ⊆ kc.1.lbound ∧ c.lbound ⊆ c.ubound) ∧
    (∀ c ∈ constraints, c.lbound ⊆ ns ∧ c.ubound ⊆ ns) := by
  constructor
  · intro kc hkc
    unfold checkNested at hN
    rw [List.all_eq_true] at hN
    have h := hN kc hkc
    rw [Bool.and_eq_true] at h
    constructor
    · have hp := pairwiseB_eq_true.mp h.2
      exact hp.imp (fun hab => of_decide_eq_true hab)
    · intro c hc
      have h2 := (List.all_eq_true.mp h.1) c hc
      simp only [Bool.and_eq_true, decide_eq_true_eq] at h2
      exact ⟨h2.1.1.1, h2.1.1.2⟩
  · intro c hc
    unfold checkBounds at hB
    rw [List.all_eq_true] at hB
    have h := hB c hc
    simp only [Bool.and_eq_true, decide_eq_true_eq] at h
    exact ⟨h.1.1, h.1.2⟩

/-- A two-node constraint tree used to instantiate `claim_C5`. -/
def conParent : Con :=
  ⟨"scope", {0, 1}, {0, 1}, [⟨{0, 1}, {0, 1}⟩]⟩

/-- The single child constraint of the witness tree. -/
def conChild : Con :=
  ⟨"while", {0}, {0, 1}, [⟨{0}, {0, 1}⟩]⟩

/-- Witness: `claim_C5` applied to a concrete checked tree. -/
theorem claim_C5_witness :
    conChild.lbound ⊆ ({0, 1} : Finset ℕ) ∧
    conChild.ubound ⊆ ({0, 1} : Finset ℕ) :=
  (claim_C5 [(conParent, [conChild])] [conParent, conChild] {0, 1}
    (by decide) (by decide)).2 conChild (by decide)

/-- C9: the lookupswitch case table built by the emit pass
(`lookupJumpTable`, the dict comprehension plus `sorted` of lines
123-124 whose entries are then packed into the instruction) has strictly
increasing keys — hence exactly one entry per distinct key — each entry
carries the resolved target of the last listed occurrence of its key,
and the table is never longer than the listed case list; on the
duplicate-keyed list `[(1, 7), (1, 8)]` it is strictly shorter and keeps
the last target. -/
theorem claim_C9 :
    (∀ resolved : List (Int × Int),
      ((lookupJumpTable resolved).Pairwise fun a b => a.1 < b.1) ∧
      (∀ k v, (k, v) ∈ lookupJumpTable resolved ↔
        lastLookup resolved k = some v) ∧
      (lookupJumpTable resolved).length ≤ resolved.length) ∧
    lookupJumpTable [(1, 7), (1, 8)] = [(1, 8)] := by
  constructor
  · intro resolved
    have hnodup : ((kvFold resolved []).map Prod.fst).Nodup :=
      kvFold_keys_nodup resolved [] (by simp)
    have hperm : (sortPairs (kvFold resolved [])).Perm (kvFold resolved []) :=
      sortPairs_perm _
    have hnodup2 : ((lookupJumpTable resolved).map Prod.fst).Nodup := by
      rw [lookupJumpTable_eq]
      exact ((hperm.map Prod.fst).nodup_iff).mpr hnodup
    refine ⟨?_, ?_, ?_⟩
    · have hle := sortPairs_pairwise (kvFold resolved [])
      have hne : (sortPairs (kvFold resolved [])).Pairwise
          (fun a b => a.1 ≠ b.1) := by
        have h2 := hnodup2
        rw [lookupJumpTable_eq] at h2
        rw [List.Nodup, List.pairwise_map] at h2
        exact h2
      rw [lookupJumpTable_eq]
      exact (hle.and hne).imp (fun hab => lt_of_le_of_ne hab.1 hab.2)
    · intro k v
      rw [lookupJumpTable_eq, (sortPairs_perm _).mem_iff,
        mem_iff_kvLookup hnodup, kvFold_lookup]
      cases lastLookup resolved k <;> simp [kvLookup]
    · rw [lookupJumpTable_eq, (sortPairs_perm _).length_eq]
      have h2 := kvFold_length_le resolved []
      simpa using h2
  · rfl

/-- The side condition under which the two passes can agree on a
lookupswitch: no listed case key is repeated. -/
def lswitchKeysNodup : Instr → Prop
  | .lswitch _ jumps _ => (jumps.map Prod.fst).Nodup
  | _ => True

theorem assembleInstruction_length {fuel : Nat} {instr : Instr}
    {labels : LabelMap} {pos : Nat} {p : PoolSt} {bs : List Nat} {p' : PoolSt}
    (h : assembleInstruction fuel instr labels pos p = .ok (bs, p'))
    (hnd : lswitchKeysNodup instr) :
    some bs.length = getInstrLen instr pos := by
  cases instr with
  | fixed op args =>
    simp only [assembleInstruction] at h
    obtain ⟨first, hop, h⟩ := rbind_ok.mp h
    obtain ⟨rp, hro, h⟩ := rbind_ok.mp h
    obtain ⟨args2, hsub, h⟩ := rbind_ok.mp h
    obtain ⟨rest, hpack, h⟩ := rbind_ok.mp h
    cases h
    cases hfmt : fmtOf op with
    | none => rw [hfmt] at hpack; cases hpack
    | some fmt =>
      rw [hfmt] at hpack
      have hl : rest.length = (fmt.map fmtSize).sum := structPack_length hpack
      simp [getInstrLen, hfmt, hl, Nat.add_comm]
  | wide sub args =>
    simp only [assembleInstruction] at h
    obtain ⟨first, hop, h⟩ := rbind_ok.mp h
    obtain ⟨sfirst, hs, h⟩ := rbind_ok.mp h
    obtain ⟨rest, hpack, h⟩ := rbind_ok.mp h
    rw [structPack_wide_error] at hpack
    cases hpack
  | tswitch param jumps default =>
    simp only [assembleInstruction] at h
    obtain ⟨first, hop, h⟩ := rbind_ok.mp h
    obtain ⟨d, hd, h⟩ := rbind_ok.mp h
    obtain ⟨js, hjs, h⟩ := rbind_ok.mp h
    obtain ⟨part1, hp1, h⟩ := rbind_ok.mp h
    obtain ⟨parts, hp2, h⟩ := rbind_ok.mp h
    cases h
    have h1 : part1.length = 12 := structPack_length hp1
    have h2 : parts.flatten.length = 4 * js.length :=
      resMapM_flatten_length hp2 (fun j b hb => structPack_length hb)
    have h3 : js.length = jumps.length := resMapM_length hjs
    simp [getInstrLen, h1, h2, h3]
    omega
  | lswitch param jumps default =>
    simp only [assembleInstruction] at h
    obtain ⟨first, hop, h⟩ := rbind_ok.mp h
    obtain ⟨d, hd, h⟩ := rbind_ok.mp h
    obtain ⟨resolved, hres, h⟩ := rbind_ok.mp h
    obtain ⟨part1, hp1, h⟩ := rbind_ok.mp h
    obtain ⟨parts, hp2, h⟩ := rbind_ok.mp h
    cases h
    have h1 : part1.length = 8 := structPack_length hp1
    have h2 : parts.flatten.length = 8 * (lookupJumpTable resolved).length :=
      resMapM_flatten_length hp2 (fun kv b hb => structPack_length hb)
    have hfst : resolved.map Prod.fst = jumps.map Prod.fst := by
      refine resMapM_fst ?_ hres
      intro x y hxy
      cases hlo : lbl2Off labels pos x.2 with
      | error e => rw [hlo] at hxy; cases hxy
      | ok o => rw [hlo] at hxy; cases hxy; rfl
    have hndr : (resolved.map Prod.fst).Nodup := by
      rw [hfst]; exact hnd
    have hlen : (lookupJumpTable resolved).length = resolved.length := by
      rw [lookupJumpTable_eq, (sortPairs_perm _).length_eq]
      have := kvFold_length_of_nodup resolved [] (by simpa using hndr)
      simpa using this
    have h3 : resolved.length = jumps.length := resMapM_length hres
    simp [getInstrLen, h1, h2, hlen, h3]
    omega

/-- The empty assembler pool state. -/
def emptyPoolSt : PoolSt := ⟨ConstPool.empty, []⟩

/-- A label table containing the label `L` (and an unlabelled line). -/
def c1labels : LabelMap := [(some "L", 0), (none, 0)]

/-- A lookupswitch listing the case key 1 twice. -/
def c1instr : Instr := .lswitch 0 [(1, "L"), (1, "L")] "L"

/-- The bytes the emit pass produces for `c1instr` at `pos = 3`:
opcode, no padding, default offset −3, case count 1, one case entry. -/
def c1bytes : List Nat :=
  [171, 255, 255, 255, 253, 0, 0, 0, 1, 0, 0, 0, 1, 255, 255, 255, 253]

/-- C1: the evaluation at the failing input — a lookupswitch with a
repeated case key — shows the emit pass producing 17 bytes where the
layout pass (`getInstrLen`) computed 25, because the emit pass
deduplicates case keys and the layout pass counts the listed cases;
whenever emission succeeds and the lookupswitch case keys are distinct,
the emitted byte count does equal `getInstrLen` at the same `pos`, for
every fixed-layout opcode, the wide form and both switches at every
alignment. -/
theorem claim_C1 :
    (assembleInstruction 20 c1instr c1labels 3 emptyPoolSt =
        .ok (c1bytes, emptyPoolSt) ∧
      c1bytes.length = 17 ∧ getInstrLen c1instr 3 = some 25) ∧
    (∀ (fuel : Nat) (instr : Instr) (labels : LabelMap) (pos : Nat)
        (p : PoolSt) (bs : List Nat) (p' : PoolSt),
      assembleInstruction fuel instr labels pos p = .ok (bs, p') →
      lswitchKeysNodup instr →
      some bs.length = getInstrLen instr pos) :=
  ⟨⟨rfl, rfl, rfl⟩,
   fun _ _ _ _ _ _ _ h hnd => assembleInstruction_length h hnd⟩

/-- A tableswitch with one case emitted at `pos = 1` (the spec's S2
example: two padding bytes, 19 bytes in all). -/
def c1wInstr : Instr := .tswitch 5 ["T"] "T"

/-- The 19 bytes emitted for `c1wInstr` at `pos = 1`. -/
def c1wBytes : List Nat :=
  [170, 0, 0, 255, 255, 255, 255, 0, 0, 0, 5, 0, 0, 0, 5, 255, 255, 255, 255]

/-- Witness: the length-agreement part of `claim_C1` applied to a
concrete tableswitch whose emission succeeds. -/
theorem claim_C1_witness :
    some (c1wBytes.length) = getInstrLen c1wInstr 1 :=
  claim_C1.2 20 c1wInstr [(some "T", 0)] 1 emptyPoolSt c1wBytes emptyPoolSt
    rfl trivial

/-- The pool of the S1 example: `s1` is a label bound to a `Utf8 "x"`
reference whose key is interned at index 3. -/
def c2pool : PoolSt :=
  { pool := { interned := [([CVal.s "Utf8", CVal.s "x"], 3)], next := 4 },
    lbls := [("s1", .ref none none [.s "Utf8", .s "x"])] }

/-- The method body `L0: ldc [s1]; bipush 5; goto L0` of the S1
example. -/
def c2lines : List (Option String × Option Instr) :=
  [(some "L0", some (.fixed "ldc" [.vref (.ref none (some "s1") [])])),
   (none, some (.fixed "bipush" [.vint 5])),
   (none, some (.fixed "goto" [.vlbl "L0"]))]

/-- The code bytes the assembler emits for the S1 example. -/
def c2emitted : Res (List Nat) :=
  (codeBytesOf 20 c2lines c2pool).map (fun r => r.1)

/-- C2 counterexample: the emitted bytes are
`12 03 10 05 A7 FF FC` — the goto at offset 4 jumping to offset 0 gets
the signed offset −4 — not the claimed `12 03 10 05 A7 FF FB`
(offset −5). -/
theorem claim_C2_counterexample :
    c2emitted = .ok [18, 3, 16, 5, 167, 255, 252] ∧
    ([18, 3, 16, 5, 167, 255, 252] : List Nat) ≠
      [18, 3, 16, 5, 167, 255, 251] :=
  ⟨rfl, by decide⟩

/-- C2 as amended: for the method `L0: ldc [s1]; bipush 5; goto L0`
with `s1` resolving to pool index 3, the emitted code bytes are exactly
`12 03 10 05 A7 FF FC`, the goto operand being the 2-byte signed offset
−4 (the jump offset is relative to the goto opcode at offset 4). -/
theorem claim_C2 : c2emitted = .ok [18, 3, 16, 5, 167, 255, 252] := rfl

/-- The label table of the cycle example: `a` and `b` each bound to a
labelled reference naming the other. -/
def cyclePool : PoolSt :=
  { pool := ConstPool.empty,
    lbls := [("a", .ref none (some "b") []), ("b", .ref none (some "a") [])] }

/-- C6: resolving label `a` in a pool where `a → b → a` fails with the
recursive-pool-reference error whose message names both `a` and `b`;
in general resolution fails with that error, built from the forbidden
collection (to which each recursive descent appended its label),
exactly when a label already in the forbidden collection is
re-entered. -/
theorem claim_C6 :
    (getLabel 9 "a" cyclePool [] =
      .error (.assemblerError "Recursive constant pool reference: a, b")) ∧
    (∀ (fuel : Nat) (l : String) (p : PoolSt) (forbidden : List String),
      l ∈ forbidden →
      getLabel fuel l p forbidden =
        .error (.assemblerError (recRefMsg forbidden))) := by
  constructor
  · rfl
  · intro fuel l p forbidden hmem
    unfold getLabel getLabelAux
    simp [hmem]

/-- Witness: the re-entry part of `claim_C6` at a concrete label and
forbidden collection. -/
theorem claim_C6_witness :
    ("x" ∈ (["x"] : List String)) ∧
    getLabel 5 "x" emptyPoolSt ["x"] =
      .error (.assemblerError (recRefMsg ["x"])) :=
  ⟨by decide, claim_C6.2 5 "x" emptyPoolSt ["x"] (by decide)⟩

/-- A method whose every statement is labelled, jumping to an undefined
label. -/
def c7lines : List (Option String × Option Instr) :=
  [(some "L0", some (.fixed "goto" [.vlbl "L1"]))]

/-- The same method with one unlabelled (empty) statement added. -/
def c7lines2 : List (Option String × Option Instr) :=
  [(some "L0", some (.fixed "goto" [.vlbl "L1"])), (none, none)]

/-- C7: at the failing input — a method whose every statement carries a
label — the undefined target makes `del labels[None]` raise an uncaught
`KeyError` instead of the undefined-label error; when some statement is
unlabelled (so `None` is a key of the label table), an undefined jump
target fails with the undefined-label `AssemblerError` naming both the
offending label and the sorted defined labels, and the method's
emission returns an error rather than code bytes. -/
theorem claim_C7 :
    (codeBytesOf 9 c7lines emptyPoolSt = .error (.exn "KeyError")) ∧
    (codeBytesOf 9 c7lines2 emptyPoolSt =
      .error (.assemblerError
        "Undefined label: L1\nDefined labels for current method are: L0")) ∧
    (∀ (labels : LabelMap) (pos : Nat) (lbl : String),
      lmLookup labels (some lbl) = none → lmMem labels none = true →
      lbl2Off labels pos lbl =
        .error (.assemblerError (undefMsg lbl labels))) := by
  refine ⟨rfl, rfl, ?_⟩
  intro labels pos lbl h1 h2
  unfold lbl2Off
  rw [h1, h2]
  simp

/-- Witness: the undefined-label part of `claim_C7` at the concrete
label table built for `c7lines2`. -/
theorem claim_C7_witness :
    lbl2Off [(some "L0", 0), (none, 3)] 3 "L1" =
      .error (.assemblerError
        (undefMsg "L1" [(some "L0", 0), (none, 3)])) :=
  claim_C7.2.2 [(some "L0", 0), (none, 3)] 3 "L1" rfl rfl

/-- Any successful `toIndex` hands back the ref with the returned index
memoised in its `index` field. -/
theorem toIndex_ok_shape {fuel : Nat} {r : PVal} {p : PoolSt}
    {forb : List String} {i : Nat} {r' : PVal} {p' : PoolSt}
    (h : toIndex fuel r p forb = .ok (i, r', p')) :
    ∃ lbl args, r' = .ref (some i) lbl args := by
  cases r with
  | s v => simp [toIndex] at h
  | n v => simp [toIndex] at h
  | ref idx lbl args =>
    cases idx with
    | some j =>
      simp only [toIndex] at h
      cases h
      exact ⟨lbl, args, rfl⟩
    | none =>
      cases fuel with
      | zero => simp [toIndex] at h
      | succ f =>
        cases lbl with
        | none =>
          simp only [toIndex] at h
          obtain ⟨ap, _, h⟩ := rbind_ok.mp h
          obtain ⟨ic, _, h⟩ := rbind_ok.mp h
          cases h
          exact ⟨none, ap.1, rfl⟩
        | some l =>
          simp only [toIndex] at h
          split at h
          · obtain ⟨ap, _, h⟩ := rbind_ok.mp h
            obtain ⟨ic, _, h⟩ := rbind_ok.mp h
            cases h
            exact ⟨some l, ap.1, rfl⟩
          · obtain ⟨ip, _, h⟩ := rbind_ok.mp h
            cases h
            exact ⟨some l, args, rfl⟩

/-- C8: once `toIndex` has returned an index, the returned ref is
memoised — every later `toIndex` call on it returns the same index (and
changes nothing), whatever pool state and forbidden collection it is
given. -/
theorem claim_C8 :
    ∀ (fuel : Nat) (r : PVal) (p : PoolSt) (forb : List String) (i : Nat)
      (r' : PVal) (p' : PoolSt),
      toIndex fuel r p forb = .ok (i, r', p') →
      ∀ (fuel2 : Nat) (p2 : PoolSt) (forb2 : List String),
        toIndex fuel2 r' p2 forb2 = .ok (i, r', p2) := by
  intro fuel r p forb i r' p' h fuel2 p2 forb2
  obtain ⟨lbl, args, rfl⟩ := toIndex_ok_shape h
  simp [toIndex]

/-- Witness: `claim_C8` applied to a structural `Utf8 "hi"` ref resolved
against the empty pool (index 1), then re-resolved under a different
pool state and forbidden collection. -/
theorem claim_C8_witness :
    toIndex 0 (.ref (some 1) none [.s "Utf8", .s "hi"]) cyclePool ["q"] =
      .ok (1, .ref (some 1) none [.s "Utf8", .s "hi"], cyclePool) :=
  claim_C8 9 (.ref none none [.s "Utf8", .s "hi"]) emptyPoolSt [] 1
    (.ref (some 1) none [.s "Utf8", .s "hi"])
    ⟨⟨[([.s "Utf8", .s "hi"], 1)], 2⟩, []⟩ rfl 0 cyclePool ["q"]

theorem structPack_cons_ok {c : FmtCode} {cs : List FmtCode} {v : Int}
    {vs : List PackVal} {bs : List Nat}
    (h : structPack (c :: cs) (.i v :: vs) = .ok bs) :
    ∃ b rest, packOne c v = some b ∧ structPack cs vs = .ok rest ∧
      bs = b ++ rest := by
  simp only [structPack] at h
  cases hp : packOne c v with
  | none => rw [hp] at h; cases h
  | some b =>
    rw [hp] at h
    cases hr : structPack cs vs with
    | error e => rw [hr] at h; cases h
    | ok rest =>
      rw [hr] at h
      simp only [Except.map] at h
      cases h
      exact ⟨b, rest, rfl, rfl, rfl⟩

theorem packOne_inv {c : FmtCode} {v : Int} {b : List Nat}
    (h : packOne c v = some b) :
    b = natToBytesBE (fmtSize c) ((v % fmtMod c).toNat) ∧
      fmtMin c ≤ v ∧ v ≤ fmtMax c := by
  unfold packOne at h
  split at h
  · cases h; next hr => exact ⟨rfl, hr⟩
  · cases h

theorem readU32BE_natToBytesBE (m : Nat) (rest : List Nat) :
    readU32BE (natToBytesBE 4 m ++ rest) = some (m % 4294967296) := by
  simp only [natToBytesBE, List.nil_append, List.append_assoc,
    List.singleton_append, List.cons_append, readU32BE, Option.some.injEq]
  omega

theorem flatten_length_const {l : List (List Nat)} {k : Nat}
    (h : ∀ e ∈ l, e.length = k) : l.flatten.length = k * l.length := by
  induction l with
  | nil => simp
  | cons x xs ih =>
    simp only [List.flatten_cons, List.length_append, List.length_cons]
    rw [h x (by simp), ih (fun e he => h e (by simp [he]))]
    ring

theorem flatten_length_sum (l : List (List Nat)) :
    l.flatten.length = (l.map List.length).sum := by
  induction l with
  | nil => simp
  | cons x xs ih => simp [ih]

theorem processDirectives_entries {fuel : Nat} {ds : List Directive}
    {labels : LabelMap} {jas : Bool} :
    ∀ {exc : List (List Nat)} {st lc : Int} {p : PoolSt}
      {out : List (List Nat) × Int × Int × PoolSt},
      processDirectives fuel ds labels jas exc st lc p = .ok out →
      (∀ e ∈ exc, e.length = 8) →
      ∀ e ∈ out.1, e.length = 8 := by
  induction ds with
  | nil =>
    intro exc st lc p out h hexc
    simp only [processDirectives] at h
    cases h
    exact hexc
  | cons d rest ih =>
    intro exc st lc p out h hexc
    cases d with
    | catchD name s e t =>
      simp only [processDirectives] at h
      obtain ⟨name2, _, h⟩ := rbind_ok.mp h
      obtain ⟨offs, _, h⟩ := rbind_ok.mp h
      obtain ⟨irp, _, h⟩ := rbind_ok.mp h
      obtain ⟨entry, hentry, h⟩ := rbind_ok.mp h
      refine ih h ?_
      intro e2 he2
      rcases List.mem_append.mp he2 with h1 | h1
      · exact hexc e2 h1
      · simp only [List.mem_singleton] at h1
        subst h1
        exact structPack_length hentry
    | stackD v =>
      simp only [processDirectives] at h
      exact ih h hexc
    | localsD v =>
      simp only [processDirectives] at h
      exact ih h hexc

/-- C10: whenever `assembleCodeAttr` returns attribute bytes, the u32
attribute-length field at byte offsets 2-5 equals the number of bytes
following the 6-byte attribute header, and that number is
`12 + len(code) + 8 * len(excepts) + sum(map(len, attributes))` for the
code bytes, exception entries and sub-attributes the passes produced
from the same inputs. -/
theorem claim_C10 :
    ∀ (fuel : Nat) (statements : List Stmt) (p : PoolSt)
      (addLineNumbers jasmode : Bool) (bs : List Nat) (p' : PoolSt),
      assembleCodeAttr fuel statements p addLineNumbers jasmode =
        .ok (some bs, p') →
      ∃ (lo : LabelMap × List Nat × Nat) (cp : List Nat × PoolSt)
        (ex : List (List Nat) × Int × Int × PoolSt)
        (ats : List (List Nat) × PoolSt),
        layoutPass (linesOf statements) 0 [] [] = .ok lo ∧
        emitCode fuel (linesOf statements) lo.1 [] p = .ok cp ∧
        processDirectives fuel (directivesOf statements) lo.1 jasmode []
          65535 65535 cp.2 = .ok ex ∧
        readU32BE (bs.drop 2) =
          some (12 + cp.1.length + 8 * ex.1.length +
            (ats.1.map List.length).sum) ∧
        (bs.drop 6).length =
          12 + cp.1.length + 8 * ex.1.length +
            (ats.1.map List.length).sum := by
  intro fuel statements p addLineNumbers jasmode bs p' h
  unfold assembleCodeAttr at h
  split at h
  · simp at h
  · obtain ⟨lo, hlo, h⟩ := rbind_ok.mp h
    obtain ⟨cp, hcp, h⟩ := rbind_ok.mp h
    obtain ⟨ex, hex, h⟩ := rbind_ok.mp h
    obtain ⟨ats, hats, h⟩ := rbind_ok.mp h
    obtain ⟨head, hhead, h⟩ := rbind_ok.mp h
    obtain ⟨excCount, hexcCount, h⟩ := rbind_ok.mp h
    obtain ⟨attrCount, hattrCount, h⟩ := rbind_ok.mp h
    cases h
    obtain ⟨b1, r1, hb1, hhead, hr1⟩ := structPack_cons_ok hhead
    obtain ⟨b2, r2, hb2, hhead, hr2⟩ := structPack_cons_ok hhead
    obtain ⟨b3, r3, hb3, hhead, hr3⟩ := structPack_cons_ok hhead
    obtain ⟨b4, r4, hb4, hhead, hr4⟩ := structPack_cons_ok hhead
    obtain ⟨b5, r5, hb5, hhead, hr5⟩ := structPack_cons_ok hhead
    cases hhead
    have hb1l : b1.length = 2 := by
      rw [(packOne_inv hb1).1]; exact natToBytesBE_length _ _
    have hb3l : b3.length = 2 := by
      rw [(packOne_inv hb3).1]; exact natToBytesBE_length _ _
    have hb4l : b4.length = 2 := by
      rw [(packOne_inv hb4).1]; exact natToBytesBE_length _ _
    have hb5l : b5.length = 4 := by
      rw [(packOne_inv hb5).1]; exact natToBytesBE_length _ _
    have hexcl : excCount.length = 2 := structPack_length hexcCount
    have hattrl : attrCount.length = 2 := structPack_length hattrCount
    have hflat8 : ex.1.flatten.length = 8 * ex.1.length :=
      flatten_length_const
        (processDirectives_entries hex (by intro e he; cases he))
    have hflatA : ats.1.flatten.length = (ats.1.map List.length).sum :=
      flatten_length_sum ats.1
    obtain ⟨hb2bytes, hb2lo, hb2hi⟩ := packOne_inv hb2
    have hN : (12 + (cp.1.length : Int) + 8 * (ex.1.length : Int) +
        ((ats.1.map List.length).sum : Int)) =
        ((12 + cp.1.length + 8 * ex.1.length +
          (ats.1.map List.length).sum : Nat) : Int) := by
      omega
    have hhi : ((12 + cp.1.length + 8 * ex.1.length +
        (ats.1.map List.length).sum : Nat) : Int) ≤ 4294967295 := by
      rw [← hN]
      simpa only [fmtMax] using hb2hi
    have hlt : 12 + cp.1.length + 8 * ex.1.length +
        (ats.1.map List.length).sum < 4294967296 := by
      omega
    have hb2' : b2 = natToBytesBE 4 (12 + cp.1.length + 8 * ex.1.length +
        (ats.1.map List.length).sum) := by
      rw [hb2bytes, hN]
      congr 1
      simp only [fmtSize, fmtMod]
      omega
    subst hr1 hr2 hr3 hr4 hr5
    refine ⟨lo, cp, ex, ats, hlo, hcp, hex, ?_, ?_⟩
    · -- the u32 field read back
      rw [hb2']
      have hdrop : ∀ l2 : List Nat, (b1 ++ l2).drop 2 = l2 := by
        intro l2; rw [← hb1l]; exact List.drop_left _ _
      simp only [List.append_assoc, List.nil_append]
      rw [hdrop, readU32BE_natToBytesBE]
      congr 1
      omega
    · -- the byte count after the 6-byte header
      rw [hb2']
      have hb2l : (natToBytesBE 4 (12 + cp.1.length + 8 * ex.1.length +
          (ats.1.map List.length).sum)).length = 4 := natToBytesBE_length _ _
      simp [List.length_drop, List.length_append, hb1l, hb2l, hb3l, hb4l,
        hb5l, hexcl, hattrl, hflat8, hflatA]
      omega

/-- A small method with a catch directive, stack and locals limits, and
line numbers enabled, used to instantiate `claim_C10`. -/
def c10stmts : List Stmt :=
  [.ins (some "S") (some (.fixed "nop" [])),
   .ins none (some (.fixed "bipush" [.vint 7])),
   .ins (some "E") (some (.fixed "return" [])),
   .dir (.catchD (.ref none none
     [.s "Class", .ref none none [.s "Utf8", .s "java/lang/Exception"]])
     "S" "E" "E"),
   .dir (.stackD 3), .dir (.localsD 2)]

/-- The Code attribute bytes assembled for `c10stmts`. -/
def c10bytes : List Nat :=
  match assembleCodeAttr 20 c10stmts emptyPoolSt true false with
  | .ok (some bs, _) => bs
  | _ => []

/-- The pool state after assembling `c10stmts`. -/
def c10pool : PoolSt :=
  match assembleCodeAttr 20 c10stmts emptyPoolSt true false with
  | .ok (_, q) => q
  | _ => emptyPoolSt

/-- Witness: `claim_C10` applied to the concrete method `c10stmts`. -/
theorem claim_C10_witness :
    ∃ (lo : LabelMap × List Nat × Nat) (cp : List Nat × PoolSt)
      (ex : List (List Nat) × Int × Int × PoolSt)
      (ats : List (List Nat) × PoolSt),
      layoutPass (linesOf c10stmts) 0 [] [] = .ok lo ∧
      emitCode 20 (linesOf c10stmts) lo.1 [] emptyPoolSt = .ok cp ∧
      processDirectives 20 (directivesOf c10stmts) lo.1 false []
        65535 65535 cp.2 = .ok ex ∧
      readU32BE (c10bytes.drop 2) =
        some (12 + cp.1.length + 8 * ex.1.length +
          (ats.1.map List.length).sum) ∧
      (c10bytes.drop 6).length =
        12 + cp.1.length + 8 * ex.1.length +
          (ats.1.map List.length).sum :=
  claim_C10 20 c10stmts emptyPoolSt true false c10bytes c10pool rfl



/-! Stage 1: executable embedding of structureLoops. -/

/-- A CFG as the loop canonicaliser sees it: a node list, an edge set
(predecessor/successor lists are the two projections), and a fresh-id
allocator for clones. -/
structure LGraph where
  nodes : List Nat
  edges : List (Nat × Nat)
  nextId : Nat
deriving DecidableEq, Repr

/-- `n.successors`. -/
def succOf (g : LGraph) (n : Nat) : List Nat :=
  (g.edges.filter (fun e => e.1 = n)).map (·.2)

/-- `n.predecessors`. -/
def predOf (g : LGraph) (n : Nat) : List Nat :=
  (g.edges.filter (fun e => e.2 = n)).map (·.1)

/-- Append the elements of `new` not already present, keeping order. -/
def dedupAppend (cur new : List Nat) : List Nat :=
  cur ++ (new.filter (fun n => ¬ n ∈ cur)).dedup

/-- One breadth step of a worklist closure. -/
def expandOnce (next : Nat → List Nat) (cur : List Nat) : List Nat :=
  dedupAppend cur (cur.flatMap next)

/-- `k`-fold closure of `start` under `next`. -/
def closureK (next : Nat → List Nat) : Nat → List Nat → List Nat
  | 0, cur => cur
  | k + 1, cur => closureK next k (expandOnce next cur)

/-- Mutual-reachability test within the todo sublist, following
predecessor edges restricted to `todo` (the edge function
`structureLoops` passes to `tarjanSCC`). -/
def stepIn (g : LGraph) (todo : List Nat) (n : Nat) : List Nat :=
  (predOf g n).filter (fun x => x ∈ todo)

def reachesIn (g : LGraph) (todo : List Nat) (a b : Nat) : Bool :=
  b ∈ closureK (stepIn g todo) todo.length [a]

/-- The strongly-connected class of `n` within the todo sublist. -/
def sccClassIn (g : LGraph) (todo : List Nat) (n : Nat) : List Nat :=
  todo.filter (fun m => reachesIn g todo n m ∧ reachesIn g todo m n)

/-- Modelled from the spec: `graph_util.tarjanSCC(todo, edge_fn)` — the
strongly connected components of the subgraph induced on `todo`,
enumerated deterministically in `todo` order (the spec leaves the order
arbitrary but deterministic). -/
def sccsOfAux (g : LGraph) (todo : List Nat) :
    List Nat → List Nat → List (List Nat)
  | [], _ => []
  | n :: rest, done =>
    if n ∈ done then sccsOfAux g todo rest done
    else sccClassIn g todo n ::
      sccsOfAux g todo rest (done ++ sccClassIn g todo n)

def sccsOf (g : LGraph) (todo : List Nat) : List (List Nat) :=
  sccsOfAux g todo todo []

/-- `entries = [n for n in scc if not scc_set.issuperset(n.predecessors)]`. -/
def entriesOf (g : LGraph) (scc : List Nat) : List Nat :=
  scc.filter (fun n => ¬ (predOf g n).all (fun q => q ∈ scc))

/-- The region reachable from the non-head entries inside the SCC while
avoiding the head (`graph_util.topologicalSort(entries, ...)`, modelled
from the spec as the set of reached nodes). -/
def regionOf (g : LGraph) (sccSet : List Nat) (head : Nat)
    (entries : List Nat) : List Nat :=
  closureK (fun n => (succOf g n).filter
    (fun x => x ∈ sccSet ∧ x ≠ head)) sccSet.length entries

/-- Modelled from the spec: `graphproxy.duplicateNodes(reachable,
scc_set)` — clone the region with fresh ids; a clone's successors point
at clones for region targets and at the originals otherwise; the
predecessors outside the SCC that formerly entered a (non-head) entry
now enter its clone. -/
def duplicateNodes (g : LGraph) (region : List Nat) (sccSet : List Nat)
    (entries : List Nat) : LGraph × List Nat :=
  let cl : Nat → Nat := fun n =>
    if n ∈ region then g.nextId + region.indexOf n else n
  let newNodes := (List.range region.length).map (g.nextId + ·)
  let redirected := g.edges.map (fun e =>
    if e.2 ∈ entries ∧ ¬ e.1 ∈ sccSet then (e.1, cl e.2) else e)
  let cloneEdges := (g.edges.filter (fun e => e.1 ∈ region)).map
    (fun e => (cl e.1, if e.2 ∈ region then cl e.2 else e.2))
  (⟨g.nodes ++ newNodes, redirected ++ cloneEdges,
    g.nextId + region.length⟩, newNodes)

/-- The body of the `for scc in sccs` loop (lines 129-149): canonicalise
one SCC, returning the updated graph, the additions to `newtodo` and the
loop head; `none` models the `entries.pop()` crash on an entryless SCC. -/
def processSCC (g : LGraph) (scc : List Nat) :
    Option (LGraph × List Nat × Nat) :=
  let entries := entriesOf g scc
  match entries.getLast? with
  | none => none
  | some head =>
    let rest := entries.dropLast
    if rest.isEmpty then
      some (g, scc.erase head, head)
    else
      let region := regionOf g scc head rest
      let r := duplicateNodes g region scc rest
      some (r.1, r.2 ++ scc.erase head, head)

/-- One iteration of the `while todo` loop: fold `processSCC` over the
SCCs of size ≥ 2. -/
def loopIter (g : LGraph) : List (List Nat) → List Nat → List Nat →
    Option (LGraph × List Nat × List Nat)
  | [], newtodo, heads => some (g, newtodo, heads)
  | scc :: rest, newtodo, heads =>
    if scc.length ≤ 1 then loopIter g rest newtodo heads
    else
      match processSCC g scc with
      | none => none
      | some (g', add, head) =>
        loopIter g' rest (newtodo ++ add) (heads ++ [head])

/-- `structureLoops` (lines 121-151), fuel-bounded: repeat until the
todo list is empty, returning the final graph and the loop heads. -/
def structureLoopsF : Nat → LGraph → List Nat → List Nat →
    Option (LGraph × List Nat)
  | _, g, [], heads => some (g, heads)
  | 0, _, _ :: _, _ => none
  | fuel + 1, g, todo, heads =>
    match loopIter g (sccsOf g todo) [] heads with
    | none => none
    | some (g', newtodo, heads') => structureLoopsF fuel g' newtodo heads'

/-- Run the pass from the full node list. -/
def structureLoops (fuel : Nat) (g : LGraph) : Option (LGraph × List Nat) :=
  structureLoopsF fuel g g.nodes []

/-! Property checker: every SCC of size ≥ 2 has exactly one entry. -/

def entryCount (g : LGraph) (scc : List Nat) : Nat :=
  (entriesOf g scc).length

def singleEntryProp (g : LGraph) : Bool :=
  (sccsOf g g.nodes).all (fun scc =>
    scc.length ≤ 1 || entryCount g scc == 1)

/-! ## Mathematical reachability and SCCs -/

/-- One directed step along an edge. -/
def Step (g : LGraph) (a b : Nat) : Prop := (a, b) ∈ g.edges

/-- Reachability along edges. -/
def Reaches (g : LGraph) : Nat → Nat → Prop := Relation.ReflTransGen (Step g)

/-- The strongly connected component of `a`: everything mutually
reachable with it. -/
def SccCl (g : LGraph) (a : Nat) : Set Nat :=
  {b | Reaches g a b ∧ Reaches g b a}

/-- An entry of a node set: a member with a predecessor outside it. -/
def IsEntry (g : LGraph) (C : Set Nat) (e : Nat) : Prop :=
  e ∈ C ∧ ∃ q, (q, e) ∈ g.edges ∧ q ∉ C

/-- A step restricted to the `todo` sublist. -/
def StepIn (g : LGraph) (todo : List Nat) (a b : Nat) : Prop :=
  (a, b) ∈ g.edges ∧ a ∈ todo ∧ b ∈ todo

/-- Reachability inside the `todo`-induced subgraph. -/
def ReachesIn (g : LGraph) (todo : List Nat) : Nat → Nat → Prop :=
  Relation.ReflTransGen (StepIn g todo)

/-! ## Worklist closure: soundness and completeness -/

/-- The step relation generated by a successor-list function. -/
def NextRel (next : Nat → List Nat) (a b : Nat) : Prop := b ∈ next a

theorem mem_dedupAppend {cur new : List Nat} {x : Nat} :
    x ∈ dedupAppend cur new ↔ x ∈ cur ∨ x ∈ new := by
  simp only [dedupAppend, List.mem_append, List.mem_dedup, List.mem_filter,
    decide_eq_true_eq]
  constructor
  · rintro (h | ⟨h, _⟩)
    · exact Or.inl h
    · exact Or.inr h
  · rintro (h | h)
    · exact Or.inl h
    · by_cases hc : x ∈ cur
      · exact Or.inl hc
      · exact Or.inr ⟨h, hc⟩

theorem dedupAppend_nodup {cur new : List Nat} (h : cur.Nodup) :
    (dedupAppend cur new).Nodup := by
  refine List.Nodup.append h (List.nodup_dedup _) ?_
  intro a ha hb
  rw [List.mem_dedup, List.mem_filter] at hb
  exact absurd ha (by simpa using hb.2)

theorem subset_expandOnce (next : Nat → List Nat) (cur : List Nat) :
    cur ⊆ expandOnce next cur := by
  intro x hx
  exact mem_dedupAppend.mpr (Or.inl hx)

theorem expandOnce_nodup {next : Nat → List Nat} {cur : List Nat}
    (h : cur.Nodup) : (expandOnce next cur).Nodup := dedupAppend_nodup h

theorem mem_expandOnce {next : Nat → List Nat} {cur : List Nat} {x : Nat} :
    x ∈ expandOnce next cur ↔ x ∈ cur ∨ ∃ a ∈ cur, x ∈ next a := by
  simp only [expandOnce, mem_dedupAppend, List.mem_flatMap]

/-- Everything in the closure is reachable from the start. -/
theorem closureK_sound {next : Nat → List Nat} :
    ∀ {k : Nat} {cur : List Nat} {b : Nat}, b ∈ closureK next k cur →
      ∃ a ∈ cur, Relation.ReflTransGen (NextRel next) a b := by
  intro k
  induction k with
  | zero => intro cur b hb; exact ⟨b, hb, .refl⟩
  | succ k ih =>
    intro cur b hb
    obtain ⟨a, ha, hr⟩ := ih hb
    rcases mem_expandOnce.mp ha with h | ⟨c, hc, hn⟩
    · exact ⟨a, h, hr⟩
    · exact ⟨c, hc, .trans (.single hn) hr⟩

theorem subset_closureK (next : Nat → List Nat) :
    ∀ (k : Nat) (cur : List Nat), cur ⊆ closureK next k cur := by
  intro k
  induction k with
  | zero => intro cur; exact fun x h => h
  | succ k ih =>
    intro cur
    exact fun x h => ih (expandOnce next cur) (subset_expandOnce next cur h)

/-- A worklist closed under `next` absorbs reachability. -/
theorem closed_absorbs {next : Nat → List Nat} {cur : List Nat}
    (hclosed : ∀ x ∈ cur, ∀ y ∈ next x, y ∈ cur) {a b : Nat}
    (ha : a ∈ cur) (h : Relation.ReflTransGen (NextRel next) a b) :
    b ∈ cur := by
  induction h with
  | refl => exact ha
  | tail _ hstep ih => exact hclosed _ ih _ hstep

theorem length_le_of_nodup_subset {l l' : List Nat} (hn : l.Nodup)
    (hs : l ⊆ l') : l.length ≤ l'.length := by
  classical
  calc l.length = l.toFinset.card := (List.toFinset_card_of_nodup hn).symm
    _ ≤ l'.toFinset.card := Finset.card_le_card (by
        intro x hx
        rw [List.mem_toFinset] at hx ⊢
        exact hs hx)
    _ ≤ l'.length := l'.toFinset_card_le

/-- Completeness of the fuelled closure: with the universe's length as
fuel, every reachable node is collected. -/
theorem closureK_complete_aux {next : Nat → List Nat} {univ : List Nat}
    (hu : univ.Nodup) (hnext : ∀ x, ∀ y ∈ next x, y ∈ univ) :
    ∀ (k : Nat) (cur : List Nat), cur.Nodup → cur ⊆ univ →
      univ.length ≤ k + cur.length →
      ∀ {a b : Nat}, a ∈ cur → Relation.ReflTransGen (NextRel next) a b →
        b ∈ closureK next k cur := by
  intro k
  induction k with
  | zero =>
    intro cur hcn hcs hlen a b ha hr
    have hsets : ∀ x ∈ univ, x ∈ cur := by
      by_contra hcon
      push_neg at hcon
      obtain ⟨x, hx, hxc⟩ := hcon
      have h1 : (x :: cur).Nodup := List.nodup_cons.mpr ⟨hxc, hcn⟩
      have h2 : (x :: cur) ⊆ univ := by
        intro y hy
        rcases List.mem_cons.mp hy with rfl | hy
        · exact hx
        · exact hcs hy
      have := length_le_of_nodup_subset h1 h2
      simp only [List.length_cons] at this
      omega
    have hclosed : ∀ x ∈ cur, ∀ y ∈ next x, y ∈ cur :=
      fun x _ y hy => hsets y (hnext x y hy)
    exact closed_absorbs hclosed ha hr
  | succ k ih =>
    intro cur hcn hcs hlen a b ha hr
    by_cases hclosed : ∀ x ∈ cur, ∀ y ∈ next x, y ∈ cur
    · have hb : b ∈ cur := closed_absorbs hclosed ha hr
      exact subset_closureK next _ _ hb
    · push_neg at hclosed
      obtain ⟨x, hx, y, hy, hyc⟩ := hclosed
      have hymem : y ∈ expandOnce next cur :=
        mem_expandOnce.mpr (Or.inr ⟨x, hx, hy⟩)
      have hgrow : cur.length + 1 ≤ (expandOnce next cur).length := by
        have h1 : (y :: cur).Nodup := List.nodup_cons.mpr ⟨hyc, hcn⟩
        have h2 : (y :: cur) ⊆ expandOnce next cur := by
          intro z hz
          rcases List.mem_cons.mp hz with rfl | hz
          · exact hymem
          · exact subset_expandOnce next cur hz
        have := length_le_of_nodup_subset h1 h2
        simpa using this
      have hsub : expandOnce next cur ⊆ univ := by
        intro z hz
        rcases mem_expandOnce.mp hz with hz | ⟨c, _, hz⟩
        · exact hcs hz
        · exact hnext c z hz
      exact ih (expandOnce next cur) (expandOnce_nodup hcn) hsub
        (by omega) (subset_expandOnce next cur ha) hr

theorem closureK_complete {next : Nat → List Nat} {univ : List Nat}
    (hu : univ.Nodup) (hnext : ∀ x, ∀ y ∈ next x, y ∈ univ)
    {start : List Nat} (hsn : start.Nodup) (hss : start ⊆ univ)
    {a b : Nat} (ha : a ∈ start)
    (hr : Relation.ReflTransGen (NextRel next) a b) :
    b ∈ closureK next univ.length start :=
  closureK_complete_aux hu hnext univ.length start hsn hss
    (by omega) ha hr

/-! ## Bridging the executable functions to the relations -/

theorem mem_predOf {g : LGraph} {n q : Nat} :
    q ∈ predOf g n ↔ (q, n) ∈ g.edges := by
  simp only [predOf, List.mem_map, List.mem_filter, decide_eq_true_eq]
  constructor
  · rintro ⟨e, ⟨he, h2⟩, h1⟩
    cases e
    simp only at h1 h2
    subst h1 h2
    exact he
  · intro h
    exact ⟨(q, n), ⟨h, rfl⟩, rfl⟩

theorem mem_succOf {g : LGraph} {n v : Nat} :
    v ∈ succOf g n ↔ (n, v) ∈ g.edges := by
  simp only [succOf, List.mem_map, List.mem_filter, decide_eq_true_eq]
  constructor
  · rintro ⟨e, ⟨he, h1⟩, h2⟩
    cases e
    simp only at h1 h2
    subst h1 h2
    exact he
  · intro h
    exact ⟨(n, v), ⟨h, rfl⟩, rfl⟩

theorem mem_stepIn {g : LGraph} {todo : List Nat} {a b : Nat} :
    b ∈ stepIn g todo a ↔ (b, a) ∈ g.edges ∧ b ∈ todo := by
  simp only [stepIn, List.mem_filter, mem_predOf, decide_eq_true_eq]

theorem rtg_stepIn_reaches {g : LGraph} {todo : List Nat} {a b : Nat}
    (h : Relation.ReflTransGen (NextRel (stepIn g todo)) a b)
    (ha : a ∈ todo) : b ∈ todo ∧ ReachesIn g todo b a := by
  induction h with
  | refl => exact ⟨ha, .refl⟩
  | tail _ hstep ih =>
    rw [NextRel, mem_stepIn] at hstep
    refine ⟨hstep.2, ?_⟩
    exact Relation.ReflTransGen.head ⟨hstep.1, hstep.2, ih.1⟩ ih.2

theorem reaches_rtg_stepIn {g : LGraph} {todo : List Nat} {a b : Nat}
    (h : ReachesIn g todo b a) :
    Relation.ReflTransGen (NextRel (stepIn g todo)) a b := by
  induction h using Relation.ReflTransGen.head_induction_on with
  | refl => exact .refl
  | head hstep _ ih =>
    exact ih.tail (mem_stepIn.mpr ⟨hstep.1, hstep.2.1⟩)

/-- The executable mutual-reachability test agrees with `ReachesIn`. -/
theorem reachesIn_iff {g : LGraph} {todo : List Nat} {a b : Nat}
    (ha : a ∈ todo) (hnd : todo.Nodup) :
    reachesIn g todo a b = true ↔ ReachesIn g todo b a := by
  constructor
  · intro h
    rw [reachesIn, decide_eq_true_eq] at h
    obtain ⟨a', ha', hr⟩ := closureK_sound h
    rw [List.mem_singleton] at ha'
    subst ha'
    exact (rtg_stepIn_reaches hr ha).2
  · intro h
    rw [reachesIn, decide_eq_true_eq]
    refine closureK_complete hnd ?_ (by simp) ?_ (List.mem_singleton.mpr rfl)
      (reaches_rtg_stepIn h)
    · intro x y hy
      exact (mem_stepIn.mp hy).2
    · intro x hx
      rw [List.mem_singleton] at hx
      subst hx
      exact ha

/-- Membership in the executable todo-class. -/
theorem mem_sccClassIn {g : LGraph} {todo : List Nat} {n m : Nat}
    (hn : n ∈ todo) (hnd : todo.Nodup) :
    m ∈ sccClassIn g todo n ↔
      m ∈ todo ∧ ReachesIn g todo n m ∧ ReachesIn g todo m n := by
  simp only [sccClassIn, List.mem_filter, Bool.and_eq_true,
    decide_eq_true_eq]
  constructor
  · rintro ⟨hm, h1, h2⟩
    exact ⟨hm, (reachesIn_iff hm hnd).mp h2, (reachesIn_iff hn hnd).mp h1⟩
  · rintro ⟨hm, h1, h2⟩
    exact ⟨hm, (reachesIn_iff hn hnd).mpr h2, (reachesIn_iff hm hnd).mpr h1⟩

/-- A step of the region closure: a successor edge staying inside the
SCC and avoiding the head. -/
def RegionStep (g : LGraph) (scc : List Nat) (head : Nat) (u v : Nat) :
    Prop :=
  (u, v) ∈ g.edges ∧ v ∈ scc ∧ v ≠ head

theorem regionStep_iff {g : LGraph} {scc : List Nat} {head u v : Nat} :
    NextRel (fun n => (succOf g n).filter
      (fun x => x ∈ scc ∧ x ≠ head)) u v ↔ RegionStep g scc head u v := by
  simp only [NextRel, List.mem_filter, mem_succOf, decide_eq_true_eq,
    RegionStep]

/-- Membership in the executable region. -/
theorem mem_regionOf {g : LGraph} {scc : List Nat} {head : Nat}
    {rest : List Nat} {u : Nat} (hnd : scc.Nodup) (hr : rest ⊆ scc)
    (hrn : rest.Nodup) :
    u ∈ regionOf g scc head rest ↔
      ∃ e ∈ rest, Relation.ReflTransGen (RegionStep g scc head) e u := by
  constructor
  · intro h
    obtain ⟨e, he, hrtg⟩ := closureK_sound h
    refine ⟨e, he, ?_⟩
    exact hrtg.mono (fun x y hxy => regionStep_iff.mp hxy)
  · rintro ⟨e, he, hrtg⟩
    refine closureK_complete hnd ?_ hrn hr he
      (hrtg.mono (fun x y hxy => regionStep_iff.mpr hxy))
    intro x y hy
    rw [List.mem_filter] at hy
    simpa using (by simpa using hy.2 : y ∈ scc ∧ y ≠ head).1

/-! ## Entries, SCC enumeration, paths inside a class -/

theorem mem_entriesOf {g : LGraph} {scc : List Nat} {e : Nat} :
    e ∈ entriesOf g scc ↔ e ∈ scc ∧ ∃ q, (q, e) ∈ g.edges ∧ q ∉ scc := by
  simp only [entriesOf, List.mem_filter, List.all_eq_true,
    decide_eq_true_eq]
  constructor
  · rintro ⟨he, hq⟩
    push_neg at hq
    obtain ⟨q, hq1, hq2⟩ := hq
    exact ⟨he, q, mem_predOf.mp hq1, hq2⟩
  · rintro ⟨he, q, hq1, hq2⟩
    refine ⟨he, ?_⟩
    push_neg
    exact ⟨q, mem_predOf.mpr hq1, hq2⟩

theorem entriesOf_nodup {g : LGraph} {scc : List Nat} (h : scc.Nodup) :
    (entriesOf g scc).Nodup := List.Nodup.filter _ h

theorem entriesOf_subset {g : LGraph} {scc : List Nat} :
    entriesOf g scc ⊆ scc := fun _ hx => List.mem_of_mem_filter hx

/-- The popped head is not among the remaining entries. -/
theorem getLast_not_mem_dropLast {l : List Nat} (h : l.Nodup) {x : Nat}
    (hx : l.getLast? = some x) : x ∉ l.dropLast := by
  intro hmem
  rcases l.eq_nil_or_concat with rfl | ⟨ys, y, rfl⟩
  · cases hx
  · rw [List.concat_eq_append] at h hx hmem
    rw [List.getLast?_concat] at hx
    cases hx
    rw [List.dropLast_concat] at hmem
    rw [List.nodup_append] at h
    exact h.2.2 hmem (by simp)

theorem dropLast_subset' {l : List Nat} : l.dropLast ⊆ l := by
  intro x hx
  exact List.dropLast_subset l hx

theorem getLast?_mem {l : List Nat} {x : Nat} (hx : l.getLast? = some x) :
    x ∈ l := by
  rcases l.eq_nil_or_concat with rfl | ⟨ys, y, rfl⟩
  · cases hx
  · rw [List.concat_eq_append] at hx ⊢
    rw [List.getLast?_concat] at hx
    cases hx
    simp

/-- Closure stays inside any set containing the start and closed under
the step targets. -/
theorem closureK_subset {next : Nat → List Nat} {U : Nat → Prop}
    (hnext : ∀ x y, y ∈ next x → U y) :
    ∀ (k : Nat) (cur : List Nat), (∀ x ∈ cur, U x) →
      ∀ x ∈ closureK next k cur, U x := by
  intro k
  induction k with
  | zero => intro cur hc x hx; exact hc x hx
  | succ k ih =>
    intro cur hc x hx
    refine ih (expandOnce next cur) ?_ x hx
    intro y hy
    rcases mem_expandOnce.mp hy with hy | ⟨a, _, hy⟩
    · exact hc y hy
    · exact hnext a y hy

theorem closureK_nodup {next : Nat → List Nat} :
    ∀ (k : Nat) {cur : List Nat}, cur.Nodup → (closureK next k cur).Nodup := by
  intro k
  induction k with
  | zero => intro cur h; exact h
  | succ k ih => intro cur h; exact ih (expandOnce_nodup h)

/-- The region is inside the SCC and avoids the head. -/
theorem regionOf_subset {g : LGraph} {scc : List Nat} {head : Nat}
    {rest : List Nat} (hr : ∀ x ∈ rest, x ∈ scc ∧ x ≠ head) :
    ∀ x ∈ regionOf g scc head rest, x ∈ scc ∧ x ≠ head := by
  refine closureK_subset ?_ _ _ hr
  intro x y hy
  rw [List.mem_filter] at hy
  simpa using hy.2

/-- The region is closed under region steps. -/
theorem regionOf_closed {g : LGraph} {scc : List Nat} {head : Nat}
    {rest : List Nat} (hnd : scc.Nodup) (hrs : rest ⊆ scc)
    (hrn : rest.Nodup) {u z : Nat} (hu : u ∈ regionOf g scc head rest)
    (hstep : RegionStep g scc head u z) : z ∈ regionOf g scc head rest := by
  obtain ⟨e, he, hrtg⟩ := (mem_regionOf hnd hrs hrn).mp hu
  exact (mem_regionOf hnd hrs hrn).mpr ⟨e, he, hrtg.tail hstep⟩

/-- A path between two mutually reachable nodes can be chosen with
every step inside their strongly connected class. -/
theorem rtg_stay_in_class {r : Nat → Nat → Prop} {a b : Nat}
    (hab : Relation.ReflTransGen r a b) :
    Relation.ReflTransGen r b a →
    Relation.ReflTransGen (fun x y => r x y ∧
      (Relation.ReflTransGen r a x ∧ Relation.ReflTransGen r x a) ∧
      (Relation.ReflTransGen r a y ∧ Relation.ReflTransGen r y a)) a b := by
  induction hab with
  | refl => intro _; exact .refl
  | tail h1 h2 ih =>
    rename_i c d
    intro hda
    have hca : Relation.ReflTransGen r c a := .trans (.single h2) hda
    exact (ih hca).tail ⟨h2, ⟨h1, hca⟩, ⟨h1.tail h2, hda⟩⟩

/-! ### sccsOf: coverage and characterisation -/

theorem sccClassIn_nodup {g : LGraph} {todo : List Nat} {n : Nat}
    (h : todo.Nodup) : (sccClassIn g todo n).Nodup := List.Nodup.filter _ h

theorem sccClassIn_subset {g : LGraph} {todo : List Nat} {n : Nat} :
    sccClassIn g todo n ⊆ todo := fun _ hx => List.mem_of_mem_filter hx

theorem self_mem_sccClassIn {g : LGraph} {todo : List Nat} {n : Nat}
    (hn : n ∈ todo) (hnd : todo.Nodup) : n ∈ sccClassIn g todo n :=
  (mem_sccClassIn hn hnd).mpr ⟨hn, .refl, .refl⟩

/-- Members of a todo-class determine the same todo-class. -/
theorem sccClassIn_eq_of_mem {g : LGraph} {todo : List Nat} {n m : Nat}
    (hn : n ∈ todo) (hnd : todo.Nodup) (hm : m ∈ sccClassIn g todo n) :
    ∀ x, x ∈ sccClassIn g todo m ↔ x ∈ sccClassIn g todo n := by
  obtain ⟨hmt, hnm, hmn⟩ := (mem_sccClassIn hn hnd).mp hm
  intro x
  rw [mem_sccClassIn hmt hnd, mem_sccClassIn hn hnd]
  constructor
  · rintro ⟨hx, h1, h2⟩
    exact ⟨hx, hnm.trans h1, h2.trans hmn⟩
  · rintro ⟨hx, h1, h2⟩
    exact ⟨hx, hmn.trans h1, h2.trans hnm⟩

theorem sccsOfAux_mem {g : LGraph} {todo : List Nat} :
    ∀ {cand done : List Nat} {S : List Nat},
      S ∈ sccsOfAux g todo cand done →
      ∃ n ∈ cand, S = sccClassIn g todo n := by
  intro cand
  induction cand with
  | nil => intro done S h; cases h
  | cons n rest ih =>
    intro done S h
    simp only [sccsOfAux] at h
    split at h
    · obtain ⟨m, hm, hS⟩ := ih h
      exact ⟨m, by simp [hm], hS⟩
    · rcases List.mem_cons.mp h with rfl | h2
      · exact ⟨n, by simp, rfl⟩
      · obtain ⟨m, hm, hS⟩ := ih h2
        exact ⟨m, by simp [hm], hS⟩

/-- Every todo node appears in one of the enumerated SCCs. -/
theorem sccsOfAux_covers {g : LGraph} {todo : List Nat} (hnd : todo.Nodup) :
    ∀ {cand done : List Nat} {t : Nat}, (∀ x ∈ cand, x ∈ todo) → t ∈ cand →
      t ∈ done ∨ ∃ S ∈ sccsOfAux g todo cand done, t ∈ S := by
  intro cand
  induction cand with
  | nil => intro done t _ h; cases h
  | cons n rest ih =>
    intro done t hsub h
    have hsub' : ∀ x ∈ rest, x ∈ todo := fun x hx => hsub x (by simp [hx])
    rcases List.mem_cons.mp h with rfl | h2
    · simp only [sccsOfAux]
      split
      · next hdone => exact Or.inl hdone
      · exact Or.inr ⟨sccClassIn g todo t, by simp,
          self_mem_sccClassIn (hsub t (by simp)) hnd⟩
    · simp only [sccsOfAux]
      split
      · exact ih hsub' h2
      · rcases @ih (done ++ sccClassIn g todo n) t hsub' h2 with
          hd | ⟨S, hS, htS⟩
        · rcases List.mem_append.mp hd with hd | hd
          · exact Or.inl hd
          · exact Or.inr ⟨sccClassIn g todo n, by simp, hd⟩
        · exact Or.inr ⟨S, by simp [hS], htS⟩

/-! ## The cloning surgery -/

/-- Graph sanity: every edge endpoint is a node and every node is below
the fresh-id allocator. -/
def WFg (g : LGraph) : Prop :=
  (∀ e ∈ g.edges, e.1 ∈ g.nodes ∧ e.2 ∈ g.nodes) ∧
  (∀ n ∈ g.nodes, n < g.nextId)

/-- An original node (as opposed to a freshly allocated clone). -/
def Orig (g : LGraph) (x : Nat) : Prop := x < g.nextId

/-- The clone map used by `duplicateNodes`. -/
def clFn (g : LGraph) (R : List Nat) (n : Nat) : Nat :=
  if n ∈ R then g.nextId + R.indexOf n else n

/-- The inverse of the clone map: send a clone back to its original. -/
def phiFn (g : LGraph) (R : List Nat) (x : Nat) : Nat :=
  if h : g.nextId ≤ x ∧ x - g.nextId < R.length then
    R.get ⟨x - g.nextId, h.2⟩ else x

theorem duplicateNodes_eq (g : LGraph) (R S E : List Nat) :
    duplicateNodes g R S E =
      (⟨g.nodes ++ (List.range R.length).map (g.nextId + ·),
        g.edges.map (fun e =>
          if e.2 ∈ E ∧ ¬ e.1 ∈ S then (e.1, clFn g R e.2) else e) ++
          (g.edges.filter (fun e => e.1 ∈ R)).map
            (fun e => (clFn g R e.1, if e.2 ∈ R then clFn g R e.2 else e.2)),
        g.nextId + R.length⟩,
       (List.range R.length).map (g.nextId + ·)) := rfl

theorem clFn_of_mem {g : LGraph} {R : List Nat} {u : Nat} (hu : u ∈ R) :
    clFn g R u = g.nextId + R.indexOf u := if_pos hu

theorem clFn_of_not_mem {g : LGraph} {R : List Nat} {u : Nat}
    (hu : u ∉ R) : clFn g R u = u := if_neg hu

theorem clFn_ge {g : LGraph} {R : List Nat} {u : Nat} (hu : u ∈ R) :
    g.nextId ≤ clFn g R u := by
  rw [clFn_of_mem hu]; omega

theorem clFn_lt {g : LGraph} {R : List Nat} {u : Nat} (hu : u ∈ R) :
    clFn g R u < g.nextId + R.length := by
  rw [clFn_of_mem hu]
  have := List.indexOf_lt_length.mpr hu
  omega

theorem clFn_inj {g : LGraph} {R : List Nat} {u v : Nat} (hu : u ∈ R)
    (hv : v ∈ R) (h : clFn g R u = clFn g R v) : u = v := by
  rw [clFn_of_mem hu, clFn_of_mem hv] at h
  have h' : R.indexOf u = R.indexOf v := by omega
  have h1 := List.indexOf_get (List.indexOf_lt_length.mpr hu)
  have h2 := List.indexOf_get (List.indexOf_lt_length.mpr hv)
  rw [← h1, ← h2]
  congr 1
  exact Fin.ext h'

theorem mem_newNodes {g : LGraph} {R : List Nat} {x : Nat} :
    x ∈ (List.range R.length).map (g.nextId + ·) ↔
      g.nextId ≤ x ∧ x < g.nextId + R.length := by
  simp only [List.mem_map, List.mem_range]
  constructor
  · rintro ⟨i, hi, rfl⟩; omega
  · rintro ⟨h1, h2⟩; exact ⟨x - g.nextId, by omega, by omega⟩

theorem newNodes_nodup {g : LGraph} {R : List Nat} :
    ((List.range R.length).map (g.nextId + ·)).Nodup := by
  refine List.Nodup.map ?_ (List.nodup_range _)
  intro a b h
  simp only at h
  omega

theorem clFn_mem_newNodes {g : LGraph} {R : List Nat} {u : Nat}
    (hu : u ∈ R) :
    clFn g R u ∈ (List.range R.length).map (g.nextId + ·) :=
  mem_newNodes.mpr ⟨clFn_ge hu, clFn_lt hu⟩

theorem exists_clFn_eq {g : LGraph} {R : List Nat} (hnd : R.Nodup) {x : Nat}
    (h1 : g.nextId ≤ x) (h2 : x < g.nextId + R.length) :
    ∃ u ∈ R, clFn g R u = x := by
  have hi : x - g.nextId < R.length := by omega
  refine ⟨R.get ⟨x - g.nextId, hi⟩, R.get_mem _ hi, ?_⟩
  rw [clFn_of_mem (R.get_mem _ hi)]
  have hlt := List.indexOf_lt_length.mpr (R.get_mem _ hi)
  have hget := List.indexOf_get hlt
  have heq : (⟨R.indexOf (R.get ⟨x - g.nextId, hi⟩), hlt⟩ : Fin R.length) =
      ⟨x - g.nextId, hi⟩ := by
    apply List.nodup_iff_injective_get.mp hnd
    rw [hget]
  have hval := congrArg Fin.val heq
  simp only at hval
  omega

theorem phiFn_clFn {g : LGraph} {R : List Nat} {u : Nat} (hu : u ∈ R) :
    phiFn g R (clFn g R u) = u := by
  rw [clFn_of_mem hu, phiFn]
  have hlt := List.indexOf_lt_length.mpr hu
  rw [dif_pos ⟨Nat.le_add_right _ _, by simpa using hlt⟩]
  have : g.nextId + R.indexOf u - g.nextId = R.indexOf u := by omega
  simp only [this]
  exact List.indexOf_get hlt

theorem phiFn_orig {g : LGraph} {R : List Nat} {x : Nat}
    (hx : Orig g x) : phiFn g R x = x := by
  rw [phiFn, dif_neg]
  rw [Orig] at hx
  omega

theorem edge_orig {g : LGraph} (hWF : WFg g) {a b : Nat}
    (h : (a, b) ∈ g.edges) : a < g.nextId ∧ b < g.nextId := by
  obtain ⟨h1, h2⟩ := hWF.1 (a, b) h
  exact ⟨hWF.2 _ h1, hWF.2 _ h2⟩

/-- Exact description of the edges after the cloning surgery. -/
theorem mem_edges_dup {g : LGraph} {R S E : List Nat} {x y : Nat} :
    (x, y) ∈ (duplicateNodes g R S E).1.edges ↔
      (∃ a b, (a, b) ∈ g.edges ∧ b ∈ E ∧ a ∉ S ∧ x = a ∧ y = clFn g R b) ∨
      (∃ a b, (a, b) ∈ g.edges ∧ ¬ (b ∈ E ∧ a ∉ S) ∧ x = a ∧ y = b) ∨
      (∃ a b, (a, b) ∈ g.edges ∧ a ∈ R ∧ b ∈ R ∧
        x = clFn g R a ∧ y = clFn g R b) ∨
      (∃ a b, (a, b) ∈ g.edges ∧ a ∈ R ∧ b ∉ R ∧ x = clFn g R a ∧ y = b) := by
  rw [duplicateNodes_eq]
  simp only [List.mem_append, List.mem_map, List.mem_filter,
    decide_eq_true_eq]
  constructor
  · rintro (⟨⟨a, b⟩, he, hab⟩ | ⟨⟨a, b⟩, ⟨he, haR⟩, hab⟩)
    · simp only at hab
      by_cases hc : b ∈ E ∧ ¬ a ∈ S
      · rw [if_pos hc] at hab
        injection hab with h1 h2
        exact Or.inl ⟨a, b, he, hc.1, hc.2, h1.symm, h2.symm⟩
      · rw [if_neg hc] at hab
        injection hab with h1 h2
        exact Or.inr (Or.inl ⟨a, b, he, hc, h1.symm, h2.symm⟩)
    · simp only at haR hab
      by_cases hb : b ∈ R
      · rw [if_pos hb] at hab
        injection hab with h1 h2
        exact Or.inr (Or.inr (Or.inl ⟨a, b, he, haR, hb, h1.symm, h2.symm⟩))
      · rw [if_neg hb] at hab
        injection hab with h1 h2
        exact Or.inr (Or.inr (Or.inr ⟨a, b, he, haR, hb, h1.symm, h2.symm⟩))
  · rintro (⟨a, b, he, hbE, haS, rfl, rfl⟩ | ⟨a, b, he, hc, rfl, rfl⟩ |
      ⟨a, b, he, haR, hbR, rfl, rfl⟩ | ⟨a, b, he, haR, hbR, rfl, rfl⟩)
    · refine Or.inl ⟨(x, b), he, ?_⟩
      simp only
      rw [if_pos ⟨hbE, haS⟩]
    · refine Or.inl ⟨(x, y), he, ?_⟩
      simp only
      rw [if_neg hc]
    · refine Or.inr ⟨(a, b), ⟨he, by simpa using haR⟩, ?_⟩
      simp only
      rw [if_pos hbR]
    · refine Or.inr ⟨(a, y), ⟨he, by simpa using haR⟩, ?_⟩
      simp only
      rw [if_neg hbR]

theorem step_keep {g : LGraph} {R S E : List Nat} {x y : Nat}
    (he : (x, y) ∈ g.edges) (h : ¬ (y ∈ E ∧ x ∉ S)) :
    (x, y) ∈ (duplicateNodes g R S E).1.edges :=
  mem_edges_dup.mpr (Or.inr (Or.inl ⟨x, y, he, h, rfl, rfl⟩))

theorem step_redirect {g : LGraph} {R S E : List Nat} {q e : Nat}
    (he : (q, e) ∈ g.edges) (h1 : e ∈ E) (h2 : q ∉ S) :
    (q, clFn g R e) ∈ (duplicateNodes g R S E).1.edges :=
  mem_edges_dup.mpr (Or.inl ⟨q, e, he, h1, h2, rfl, rfl⟩)

theorem step_cloneInt {g : LGraph} {R S E : List Nat} {u v : Nat}
    (he : (u, v) ∈ g.edges) (h1 : u ∈ R) (h2 : v ∈ R) :
    (clFn g R u, clFn g R v) ∈ (duplicateNodes g R S E).1.edges :=
  mem_edges_dup.mpr (Or.inr (Or.inr (Or.inl ⟨u, v, he, h1, h2, rfl, rfl⟩)))

theorem step_cloneExit {g : LGraph} {R S E : List Nat} {u v : Nat}
    (he : (u, v) ∈ g.edges) (h1 : u ∈ R) (h2 : v ∉ R) :
    (clFn g R u, v) ∈ (duplicateNodes g R S E).1.edges :=
  mem_edges_dup.mpr (Or.inr (Or.inr (Or.inr ⟨u, v, he, h1, h2, rfl, rfl⟩)))

/-- Inversion for an edge of the surgered graph whose target is an
original node: it is a kept original edge or a clone exit. -/
theorem dup_edge_orig_tgt {g : LGraph} {R S E : List Nat}
    (hWF : WFg g) (hER : ∀ e ∈ E, e ∈ R) {p y : Nat}
    (h : (p, y) ∈ (duplicateNodes g R S E).1.edges) (hy : y < g.nextId) :
    ((p, y) ∈ g.edges ∧ ¬ (y ∈ E ∧ p ∉ S)) ∨
    (∃ w, p = clFn g R w ∧ w ∈ R ∧ y ∉ R ∧ (w, y) ∈ g.edges) := by
  rcases mem_edges_dup.mp h with
    ⟨a, b, he, hbE, _, rfl, rfl⟩ | ⟨a, b, he, hc, rfl, rfl⟩ |
    ⟨a, b, he, _, hbR, rfl, rfl⟩ | ⟨a, b, he, haR, hbR, rfl, rfl⟩
  · exact absurd hy (by have := @clFn_ge g R b (hER b hbE); omega)
  · exact Or.inl ⟨he, hc⟩
  · exact absurd hy (by have := @clFn_ge g R b hbR; omega)
  · exact Or.inr ⟨a, rfl, haR, hbR, he⟩

/-- Inversion for an edge of the surgered graph whose target is a
clone: it is a redirected entry edge or an internal clone edge. -/
theorem dup_edge_clone_tgt {g : LGraph} {R S E : List Nat}
    (hWF : WFg g) {p y : Nat}
    (h : (p, y) ∈ (duplicateNodes g R S E).1.edges) (hy : g.nextId ≤ y) :
    (∃ e, p ∉ S ∧ e ∈ E ∧ y = clFn g R e ∧ (p, e) ∈ g.edges ∧
      p < g.nextId) ∨
    (∃ w u, p = clFn g R w ∧ w ∈ R ∧ u ∈ R ∧ y = clFn g R u ∧
      (w, u) ∈ g.edges) := by
  rcases mem_edges_dup.mp h with
    ⟨a, b, he, hbE, haS, rfl, rfl⟩ | ⟨a, b, he, _, rfl, rfl⟩ |
    ⟨a, b, he, haR, hbR, rfl, rfl⟩ | ⟨a, b, he, haR, hbR, rfl, rfl⟩
  · exact Or.inl ⟨b, haS, hbE, rfl, he, (edge_orig hWF he).1⟩
  · exact absurd hy (by have := (edge_orig hWF he).2; omega)
  · exact Or.inr ⟨a, b, rfl, haR, hbR, rfl, he⟩
  · exact absurd hy (by have := (edge_orig hWF he).2; omega)

/-- The map sending clones to their originals is a graph homomorphism
from the surgered graph back to the original graph. -/
theorem phi_edge {g : LGraph} {R S E : List Nat}
    (hWF : WFg g) (hRb : ∀ u ∈ R, u < g.nextId) (hER : ∀ e ∈ E, e ∈ R)
    {x y : Nat} (h : (x, y) ∈ (duplicateNodes g R S E).1.edges) :
    (phiFn g R x, phiFn g R y) ∈ g.edges := by
  rcases mem_edges_dup.mp h with
    ⟨a, b, he, hbE, _, rfl, rfl⟩ | ⟨a, b, he, _, rfl, rfl⟩ |
    ⟨a, b, he, haR, hbR, rfl, rfl⟩ | ⟨a, b, he, haR, hbR, rfl, rfl⟩
  · rw [phiFn_orig (edge_orig hWF he).1, phiFn_clFn (hER b hbE)]
    exact he
  · rw [phiFn_orig (edge_orig hWF he).1, phiFn_orig (edge_orig hWF he).2]
    exact he
  · rw [phiFn_clFn haR, phiFn_clFn hbR]
    exact he
  · rw [phiFn_clFn haR, phiFn_orig (edge_orig hWF he).2]
    exact he

theorem phi_reaches {g : LGraph} {R S E : List Nat}
    (hWF : WFg g) (hRb : ∀ u ∈ R, u < g.nextId) (hER : ∀ e ∈ E, e ∈ R)
    {x y : Nat} (h : Reaches (duplicateNodes g R S E).1 x y) :
    Reaches g (phiFn g R x) (phiFn g R y) := by
  induction h with
  | refl => exact .refl
  | tail _ hstep ih => exact ih.tail (phi_edge hWF hRb hER hstep)

/-- A step whose endpoints both lie in the carrier list `A`. -/
def StepW (g : LGraph) (A : List Nat) (a b : Nat) : Prop :=
  (a, b) ∈ g.edges ∧ a ∈ A ∧ b ∈ A

/-- Paths inside the SCC survive the surgery: their edges have sources
in the SCC and are never redirected. -/
theorem reaches_dup_of_stepW {g : LGraph} {R S E : List Nat} {x y : Nat}
    (h : Relation.ReflTransGen (StepW g S) x y) :
    Reaches (duplicateNodes g R S E).1 x y := by
  induction h with
  | refl => exact .refl
  | tail _ hstep ih =>
    exact ih.tail (step_keep hstep.1 (fun hc => hc.2 hstep.2.1))

/-- A todo-restricted path between members of a whole todo-class stays
inside the class. -/
theorem stepW_of_reachesIn {g : LGraph} {todo S : List Nat} {x y : Nat}
    (hcls : ∀ n ∈ S, ∀ z, z ∈ sccClassIn g todo n ↔ z ∈ S)
    (hnd : todo.Nodup) (hS_todo : ∀ z ∈ S, z ∈ todo)
    (hxS : x ∈ S) (hyS : y ∈ S)
    (hxy : ReachesIn g todo x y) (hyx : ReachesIn g todo y x) :
    Relation.ReflTransGen (StepW g S) x y := by
  have h := rtg_stay_in_class hxy hyx
  refine h.mono ?_
  rintro a b ⟨⟨hedge, haT, hbT⟩, ⟨hxa, hax⟩, ⟨hxb, hbx⟩⟩
  have haS : a ∈ S := (hcls x hxS a).mp
    ((mem_sccClassIn (hS_todo x hxS) hnd).mpr ⟨haT, hxa, hax⟩)
  have hbS : b ∈ S := (hcls x hxS b).mp
    ((mem_sccClassIn (hS_todo x hxS) hnd).mpr ⟨hbT, hxb, hbx⟩)
  exact ⟨hedge, haS, hbS⟩

theorem head_not_mem_region {R S : List Nat} {head : Nat}
    (hRsub : ∀ v ∈ R, v ∈ S ∧ v ≠ head) : head ∉ R :=
  fun h => (hRsub head h).2 rfl

/-- From any clone there is a path to the loop head, mirroring a
within-SCC path of its original. -/
theorem clone_reaches_head {g : LGraph} {R S E : List Nat} {head : Nat}
    (hRsub : ∀ v ∈ R, v ∈ S ∧ v ≠ head)
    (hclosed : ∀ u ∈ R, ∀ z, RegionStep g S head u z → z ∈ R)
    {u : Nat} (hu : u ∈ R)
    (hpath : Relation.ReflTransGen (StepW g S) u head) :
    Reaches (duplicateNodes g R S E).1 (clFn g R u) head := by
  induction hpath using Relation.ReflTransGen.head_induction_on with
  | refl => exact absurd hu (head_not_mem_region hRsub)
  | head hstep htail ih =>
    rename_i a c
    obtain ⟨hedge, haS, hcS⟩ := hstep
    by_cases hch : c = head
    · subst hch
      exact Relation.ReflTransGen.single
        (step_cloneExit hedge hu (head_not_mem_region hRsub))
    · have hcR : c ∈ R := hclosed a hu c ⟨hedge, hcS, hch⟩
      exact Relation.ReflTransGen.head (step_cloneInt hedge hu hcR) (ih hcR)

/-- What was reachable before the surgery stays reachable after it:
redirected edges are bypassed through the clone region and the head. -/
theorem reaches_dup_orig {g : LGraph} {todo S E R : List Nat} {head : Nat}
    (hnd : todo.Nodup) (hS_todo : ∀ z ∈ S, z ∈ todo)
    (hcls : ∀ n ∈ S, ∀ z, z ∈ sccClassIn g todo n ↔ z ∈ S)
    (hRsub : ∀ v ∈ R, v ∈ S ∧ v ≠ head)
    (hclosed : ∀ u ∈ R, ∀ z, RegionStep g S head u z → z ∈ R)
    (hER : ∀ e ∈ E, e ∈ R) (hhead : head ∈ S)
    {x y : Nat} (h : Reaches g x y) :
    Reaches (duplicateNodes g R S E).1 x y := by
  induction h with
  | refl => exact .refl
  | tail hxa hstep ih =>
    rename_i a b
    by_cases hc : b ∈ E ∧ a ∉ S
    · obtain ⟨hbE, haS⟩ := hc
      have hbR : b ∈ R := hER b hbE
      have hbS : b ∈ S := (hRsub b hbR).1
      have hbcls : b ∈ sccClassIn g todo head := (hcls head hhead b).mpr hbS
      obtain ⟨hbT, h1, h2⟩ :=
        (mem_sccClassIn (hS_todo head hhead) hnd).mp hbcls
      have hW1 : Relation.ReflTransGen (StepW g S) b head :=
        stepW_of_reachesIn hcls hnd hS_todo hbS hhead h2 h1
      have hW2 : Relation.ReflTransGen (StepW g S) head b :=
        stepW_of_reachesIn hcls hnd hS_todo hhead hbS h1 h2
      refine ih.trans ?_
      refine Relation.ReflTransGen.trans
        (Relation.ReflTransGen.single (step_redirect hstep hbE haS)) ?_
      exact Relation.ReflTransGen.trans
        (clone_reaches_head hRsub hclosed hbR hW1)
        (reaches_dup_of_stepW hW2)
    · exact ih.tail (step_keep hstep hc)

theorem rtg_region_mem {g : LGraph} {S R : List Nat} {head : Nat}
    (hclosed : ∀ u ∈ R, ∀ z, RegionStep g S head u z → z ∈ R)
    {e u : Nat} (he : e ∈ R)
    (hrtg : Relation.ReflTransGen (RegionStep g S head) e u) : u ∈ R := by
  induction hrtg with
  | refl => exact he
  | tail h1 hstep ih => exact hclosed _ ih _ hstep

/-- Clone edges mirror region paths. -/
theorem clone_reaches_clone {g : LGraph} {R S E : List Nat} {head : Nat}
    (hclosed : ∀ u ∈ R, ∀ z, RegionStep g S head u z → z ∈ R)
    {e u : Nat} (he : e ∈ R)
    (hrtg : Relation.ReflTransGen (RegionStep g S head) e u) :
    Reaches (duplicateNodes g R S E).1 (clFn g R e) (clFn g R u) := by
  induction hrtg with
  | refl => exact .refl
  | tail h1 hstep ih =>
    rename_i a b
    have haR : a ∈ R := rtg_region_mem hclosed he h1
    have hbR : b ∈ R := hclosed a haR b hstep
    exact ih.tail (step_cloneInt hstep.1 haR hbR)

/-- A post-surgery path from an original to a clone crosses a
redirected entry edge. -/
theorem reach_clone_inversion {g : LGraph} {R S E : List Nat}
    (hWF : WFg g)
    {x y : Nat} (h : Reaches (duplicateNodes g R S E).1 x y)
    (hy : g.nextId ≤ y) : x < g.nextId →
    ∃ q e, q < g.nextId ∧ q ∉ S ∧ e ∈ E ∧ (q, e) ∈ g.edges ∧
      Reaches (duplicateNodes g R S E).1 x q ∧
      Reaches (duplicateNodes g R S E).1 (clFn g R e) y := by
  induction h using Relation.ReflTransGen.head_induction_on with
  | refl => intro hx; omega
  | head hstep htail ih =>
    rename_i a c
    intro ha
    by_cases hc : c < g.nextId
    · obtain ⟨q, e, hq1, hq2, he1, he2, hr1, hr2⟩ := ih hc
      exact ⟨q, e, hq1, hq2, he1, he2,
        Relation.ReflTransGen.head hstep hr1, hr2⟩
    · rcases dup_edge_clone_tgt hWF hstep (by omega) with
        ⟨e, haS, heE, hceq, hedge, _⟩ | ⟨w, u, haeq, hwR, _, _, _⟩
      · exact ⟨a, e, ha, haS, heE, hedge, .refl, hceq ▸ htail⟩
      · exact absurd ha (by have := @clFn_ge g R w hwR; omega)

/-! ## The single-entry invariant -/

/-- `e` is the one and only entry of the component `C`. -/
def UniqueEntry (g : LGraph) (C : Set Nat) (e : Nat) : Prop :=
  IsEntry g C e ∧ ∀ x, IsEntry g C x → x = e

/-- Mid-iteration invariant of the `for scc in sccs` fold: `todo` is the
iteration's work list, `newAcc` the accumulated next work list, `rem`
the SCCs still to process.  Every nontrivial component either already
has a unique entry that will never be re-listed, or consists of fresh
clones queued for the next iteration, or coincides with a pending SCC. -/
def MID (g : LGraph) (todo newAcc : List Nat)
    (rem : List (List Nat)) : Prop :=
  WFg g ∧
  (∀ x ∈ todo, x ∈ g.nodes) ∧
  todo.Nodup ∧
  newAcc.Nodup ∧
  (∀ x ∈ newAcc, x ∈ g.nodes) ∧
  (∀ T ∈ rem, (∀ x ∈ T, x ∈ todo) ∧ T.Nodup ∧
    (∀ x ∈ newAcc, x ∉ T) ∧
    (∀ n ∈ T, ∀ x, x ∈ sccClassIn g todo n ↔ x ∈ T)) ∧
  List.Pairwise (fun T U => ∀ x ∈ T, x ∉ U) rem ∧
  (∀ a, (SccCl g a).Nontrivial →
    (∃ e, UniqueEntry g (SccCl g a) e ∧ e ∉ newAcc ∧ ∀ T ∈ rem, e ∉ T) ∨
    (∀ x ∈ SccCl g a, x ∈ newAcc) ∨
    (∃ T ∈ rem, ∀ x, x ∈ SccCl g a ↔ x ∈ T))

/-- A member of a component is the base point or an edge endpoint,
hence below the allocator. -/
theorem mem_sccCl_orig {g : LGraph} (hWF : WFg g) {a z : Nat}
    (h : z ∈ SccCl g a) : z = a ∨ z < g.nextId := by
  obtain ⟨h1, _⟩ := h
  rcases Relation.ReflTransGen.cases_tail h1 with h | ⟨c, _, hc⟩
  · exact Or.inl h
  · exact Or.inr (edge_orig hWF hc).2

theorem WFg_dup {g : LGraph} {R S E : List Nat}
    (hWF : WFg g) (hER : ∀ e ∈ E, e ∈ R) :
    WFg (duplicateNodes g R S E).1 := by
  constructor
  · rintro ⟨x, y⟩ h
    rcases mem_edges_dup.mp h with
      ⟨a, b, he, hbE, _, rfl, rfl⟩ | ⟨a, b, he, _, rfl, rfl⟩ |
      ⟨a, b, he, haR, hbR, rfl, rfl⟩ | ⟨a, b, he, haR, hbR, rfl, rfl⟩
    · refine ⟨?_, ?_⟩
      · rw [duplicateNodes_eq]
        exact List.mem_append.mpr (Or.inl (hWF.1 _ he).1)
      · rw [duplicateNodes_eq]
        exact List.mem_append.mpr (Or.inr (clFn_mem_newNodes (hER b hbE)))
    · refine ⟨?_, ?_⟩
      · rw [duplicateNodes_eq]
        exact List.mem_append.mpr (Or.inl (hWF.1 _ he).1)
      · rw [duplicateNodes_eq]
        exact List.mem_append.mpr (Or.inl (hWF.1 _ he).2)
    · refine ⟨?_, ?_⟩
      · rw [duplicateNodes_eq]
        exact List.mem_append.mpr (Or.inr (clFn_mem_newNodes haR))
      · rw [duplicateNodes_eq]
        exact List.mem_append.mpr (Or.inr (clFn_mem_newNodes hbR))
    · refine ⟨?_, ?_⟩
      · rw [duplicateNodes_eq]
        exact List.mem_append.mpr (Or.inr (clFn_mem_newNodes haR))
      · rw [duplicateNodes_eq]
        exact List.mem_append.mpr (Or.inl (hWF.1 _ he).2)
  · intro n hn
    rw [duplicateNodes_eq] at hn
    rcases List.mem_append.mp hn with hn | hn
    · have := hWF.2 n hn
      show n < g.nextId + R.length
      omega
    · have := mem_newNodes.mp hn
      show n < g.nextId + R.length
      omega

/-- Steps of the surgered graph between two original work-list nodes
were already steps of the original graph. -/
theorem stepIn_dup {g : LGraph} {R S E todo : List Nat}
    (hWF : WFg g) (hER : ∀ e ∈ E, e ∈ R)
    (htodo_lt : ∀ x ∈ todo, x < g.nextId) {a b : Nat}
    (h : StepIn (duplicateNodes g R S E).1 todo a b) :
    StepIn g todo a b := by
  obtain ⟨hedge, haT, hbT⟩ := h
  rcases dup_edge_orig_tgt hWF hER hedge (htodo_lt b hbT) with
    ⟨he, _⟩ | ⟨w, rfl, hwR, _, _⟩
  · exact ⟨he, haT, hbT⟩
  · exact absurd (htodo_lt _ haT) (by have := @clFn_ge g R w hwR; omega)

/-- A pending SCC disjoint from the processed one keeps exactly its
todo-class through the surgery. -/
theorem sccClassIn_dup_pending {g : LGraph} {todo S E R T : List Nat}
    (hWF : WFg g) (htodo_lt : ∀ x ∈ todo, x < g.nextId) (hnd : todo.Nodup)
    (hER : ∀ e ∈ E, e ∈ R) (hRS : ∀ v ∈ R, v ∈ S)
    (hTS : ∀ x ∈ T, x ∉ S) (hT_todo : ∀ x ∈ T, x ∈ todo)
    (hTcls : ∀ n ∈ T, ∀ x, x ∈ sccClassIn g todo n ↔ x ∈ T)
    {n : Nat} (hn : n ∈ T) :
    ∀ x, x ∈ sccClassIn (duplicateNodes g R S E).1 todo n ↔ x ∈ T := by
  intro x
  have hnT := hT_todo n hn
  constructor
  · intro hx
    obtain ⟨hxT, h1, h2⟩ := (mem_sccClassIn hnT hnd).mp hx
    have h1' : ReachesIn g todo n x :=
      h1.mono (fun a b hab => stepIn_dup hWF hER htodo_lt hab)
    have h2' : ReachesIn g todo x n :=
      h2.mono (fun a b hab => stepIn_dup hWF hER htodo_lt hab)
    exact (hTcls n hn x).mp ((mem_sccClassIn hnT hnd).mpr ⟨hxT, h1', h2'⟩)
  · intro hxT
    obtain ⟨hxtodo, h1, h2⟩ :=
      (mem_sccClassIn hnT hnd).mp ((hTcls n hn x).mpr hxT)
    refine (mem_sccClassIn hnT hnd).mpr ⟨hxtodo, ?_, ?_⟩
    · refine (rtg_stay_in_class h1 h2).mono ?_
      rintro a b ⟨⟨hedge, haT, hbT⟩, ⟨hna, han⟩, ⟨hnb, hbn⟩⟩
      have hbTT : b ∈ T := (hTcls n hn b).mp
        ((mem_sccClassIn hnT hnd).mpr ⟨hbT, hnb, hbn⟩)
      refine ⟨step_keep hedge ?_, haT, hbT⟩
      rintro ⟨hbE, _⟩
      exact hTS b hbTT (hRS _ (hER b hbE))
    · refine (rtg_stay_in_class h2 h1).mono ?_
      rintro a b ⟨⟨hedge, haT, hbT⟩, ⟨hxa, hax⟩, ⟨hxb, hbx⟩⟩
      have hbTc : b ∈ sccClassIn g todo x :=
        (mem_sccClassIn hxtodo hnd).mpr ⟨hbT, hxb, hbx⟩
      have hxcls := sccClassIn_eq_of_mem hnT hnd ((hTcls n hn x).mpr hxT)
      have hbTT : b ∈ T := (hTcls n hn b).mp ((hxcls b).mp hbTc)
      refine ⟨step_keep hedge ?_, haT, hbT⟩
      rintro ⟨hbE, _⟩
      exact hTS b hbTT (hRS _ (hER b hbE))

/-- Components of original nodes are untouched as sets of originals. -/
theorem sccCl_dup_orig {g : LGraph} {todo S E R : List Nat} {head : Nat}
    (hWF : WFg g) (hnd : todo.Nodup) (hS_todo : ∀ z ∈ S, z ∈ todo)
    (hcls : ∀ n ∈ S, ∀ z, z ∈ sccClassIn g todo n ↔ z ∈ S)
    (hRsub : ∀ v ∈ R, v ∈ S ∧ v ≠ head)
    (hclosed : ∀ u ∈ R, ∀ z, RegionStep g S head u z → z ∈ R)
    (hER : ∀ e ∈ E, e ∈ R) (hhead : head ∈ S)
    (hRb : ∀ u ∈ R, u < g.nextId)
    {a z : Nat} (ha : a < g.nextId) (hz : z < g.nextId) :
    z ∈ SccCl (duplicateNodes g R S E).1 a ↔ z ∈ SccCl g a := by
  constructor
  · rintro ⟨h1, h2⟩
    have h1' := phi_reaches hWF hRb hER h1
    have h2' := phi_reaches hWF hRb hER h2
    rw [phiFn_orig ha, phiFn_orig hz] at h1'
    rw [phiFn_orig hz, phiFn_orig ha] at h2'
    exact ⟨h1', h2'⟩
  · rintro ⟨h1, h2⟩
    exact ⟨reaches_dup_orig hnd hS_todo hcls hRsub hclosed hER hhead h1,
      reaches_dup_orig hnd hS_todo hcls hRsub hclosed hER hhead h2⟩

theorem mem_of_getLast? {l : List Nat} {x y : Nat}
    (h : l.getLast? = some x) : y ∈ l ↔ y ∈ l.dropLast ∨ y = x := by
  rcases l.eq_nil_or_concat with rfl | ⟨ys, w, rfl⟩
  · cases h
  · rw [List.concat_eq_append] at h ⊢
    rw [List.getLast?_concat] at h
    cases h
    rw [List.dropLast_concat]
    simp

theorem eq_singleton_of_dropLast_empty {l : List Nat} {x : Nat}
    (h : l.getLast? = some x) (he : l.dropLast.isEmpty = true) :
    l = [x] := by
  rcases l.eq_nil_or_concat with rfl | ⟨ys, w, rfl⟩
  · cases h
  · rw [List.concat_eq_append] at h he ⊢
    rw [List.getLast?_concat] at h
    cases h
    rw [List.dropLast_concat] at he
    rw [List.isEmpty_iff] at he
    rw [he]
    rfl

/-! ## Case A: the processed SCC is a whole component -/

/-- When the processed SCC is exactly a component, the surgery keeps
that component exactly: its nodes stay mutually connected, and no
clone joins, since a return path would pass an outside node. -/
theorem caseA_class {g : LGraph} {todo S E R : List Nat} {head : Nat}
    (hWF : WFg g) (hnd : todo.Nodup) (htodo_lt : ∀ x ∈ todo, x < g.nextId)
    (hS_todo : ∀ z ∈ S, z ∈ todo)
    (hcls : ∀ n ∈ S, ∀ z, z ∈ sccClassIn g todo n ↔ z ∈ S)
    (hRsub : ∀ v ∈ R, v ∈ S ∧ v ≠ head)
    (hclosed : ∀ u ∈ R, ∀ z, RegionStep g S head u z → z ∈ R)
    (hER : ∀ e ∈ E, e ∈ R) (hhead : head ∈ S)
    (hRb : ∀ u ∈ R, u < g.nextId)
    (hSglob : ∀ n ∈ S, ∀ x, x ∈ SccCl g n ↔ x ∈ S)
    {n : Nat} (hn : n ∈ S) :
    ∀ x, x ∈ SccCl (duplicateNodes g R S E).1 n ↔ x ∈ S := by
  intro x
  have hn_lt : n < g.nextId := htodo_lt n (hS_todo n hn)
  constructor
  · intro hx
    by_cases hxo : x < g.nextId
    · exact (hSglob n hn x).mp
        ((sccCl_dup_orig hWF hnd hS_todo hcls hRsub hclosed hER hhead hRb
          hn_lt hxo).mp hx)
    · obtain ⟨h1, h2⟩ := hx
      obtain ⟨q, e, hq_lt, hqS, heE, hedge, hr1, hr2⟩ :=
        reach_clone_inversion hWF h1 (by omega) hn_lt
      have hqn : Reaches (duplicateNodes g R S E).1 q n :=
        .trans (.single (step_redirect hedge heE hqS)) (hr2.trans h2)
      have hq_cls : q ∈ SccCl (duplicateNodes g R S E).1 n := ⟨hr1, hqn⟩
      have hq_g : q ∈ SccCl g n :=
        (sccCl_dup_orig hWF hnd hS_todo hcls hRsub hclosed hER hhead hRb
          hn_lt hq_lt).mp hq_cls
      exact absurd ((hSglob n hn q).mp hq_g) hqS
  · intro hxS
    have hx_lt := htodo_lt x (hS_todo x hxS)
    exact (sccCl_dup_orig hWF hnd hS_todo hcls hRsub hclosed hER hhead hRb
      hn_lt hx_lt).mpr ((hSglob n hn x).mpr hxS)

/-- Case A: after the surgery the component has the head as its one and
only entry. -/
theorem caseA_unique {g : LGraph} {todo S E R : List Nat} {head : Nat}
    (hWF : WFg g) (hnd : todo.Nodup) (htodo_lt : ∀ x ∈ todo, x < g.nextId)
    (hS_todo : ∀ z ∈ S, z ∈ todo)
    (hcls : ∀ n ∈ S, ∀ z, z ∈ sccClassIn g todo n ↔ z ∈ S)
    (hRsub : ∀ v ∈ R, v ∈ S ∧ v ≠ head)
    (hclosed : ∀ u ∈ R, ∀ z, RegionStep g S head u z → z ∈ R)
    (hER : ∀ e ∈ E, e ∈ R) (hhead : head ∈ S)
    (hRb : ∀ u ∈ R, u < g.nextId)
    (hSglob : ∀ n ∈ S, ∀ x, x ∈ SccCl g n ↔ x ∈ S)
    (hEnt : ∀ y, y ∈ entriesOf g S ↔ y ∈ E ∨ y = head)
    (hq0 : ∃ q, (q, head) ∈ g.edges ∧ q ∉ S)
    {n : Nat} (hn : n ∈ S) :
    UniqueEntry (duplicateNodes g R S E).1
      (SccCl (duplicateNodes g R S E).1 n) head := by
  have hclsdup := caseA_class hWF hnd htodo_lt hS_todo hcls hRsub hclosed
    hER hhead hRb hSglob hn
  constructor
  · refine ⟨(hclsdup head).mpr hhead, ?_⟩
    obtain ⟨q0, he0, hq0S⟩ := hq0
    refine ⟨q0, step_keep he0 ?_, fun hq => hq0S ((hclsdup q0).mp hq)⟩
    rintro ⟨hhr, _⟩
    exact head_not_mem_region hRsub (hER head hhr)
  · rintro e' ⟨he'c, p, hedge, hpc⟩
    have he'S : e' ∈ S := (hclsdup e').mp he'c
    have he'lt : e' < g.nextId := htodo_lt e' (hS_todo e' he'S)
    rcases dup_edge_orig_tgt hWF hER hedge he'lt with
      ⟨hpe, hcond⟩ | ⟨w, rfl, hwR, he'R, hwe⟩
    · have hpS : p ∉ S := fun h => hpc ((hclsdup p).mpr h)
      have he'rest : e' ∉ E := fun h => hcond ⟨h, hpS⟩
      have hent : e' ∈ entriesOf g S := mem_entriesOf.mpr ⟨he'S, p, hpe, hpS⟩
      rcases (hEnt e').mp hent with h | h
      · exact absurd h he'rest
      · exact h
    · by_contra hne
      exact he'R (hclosed w hwR e' ⟨hwe, he'S, hne⟩)

/-! ## Case B: the processed SCC sits inside a larger component -/

/-- Any outside predecessor of an SCC node lands in the enclosing
component, since the component's single entry is not in the SCC. -/
theorem outside_pred_in_C {g : LGraph} {S : List Nat} {eC : Nat}
    (hUE : UniqueEntry g (SccCl g eC) eC) (heCS : eC ∉ S)
    (hSC : ∀ x ∈ S, x ∈ SccCl g eC) {q e : Nat}
    (hedge : (q, e) ∈ g.edges) (heS : e ∈ S) (hqS : q ∉ S) :
    q ∈ SccCl g eC := by
  by_contra hqC
  have : e = eC := hUE.2 e ⟨hSC e heS, q, hedge, hqC⟩
  exact heCS (this ▸ heS)

/-- Case B: every clone is mutually connected with the component's
entry after the surgery. -/
theorem caseB_clone_mutual {g : LGraph} {todo S E R : List Nat}
    {head eC : Nat}
    (hWF : WFg g) (hnd : todo.Nodup) (hS_todo : ∀ z ∈ S, z ∈ todo)
    (hcls : ∀ n ∈ S, ∀ z, z ∈ sccClassIn g todo n ↔ z ∈ S)
    (hRsub : ∀ v ∈ R, v ∈ S ∧ v ≠ head)
    (hclosed : ∀ u ∈ R, ∀ z, RegionStep g S head u z → z ∈ R)
    (hER : ∀ e ∈ E, e ∈ R) (hhead : head ∈ S)
    (hSnd : S.Nodup) (hEnd : E.Nodup) (hEsub : ∀ e ∈ E, e ∈ S)
    (hRdef : R = regionOf g S head E)
    (hUE : UniqueEntry g (SccCl g eC) eC) (heCS : eC ∉ S)
    (hSC : ∀ x ∈ S, x ∈ SccCl g eC)
    (hrest_entries : ∀ e ∈ E, ∃ q, (q, e) ∈ g.edges ∧ q ∉ S)
    {u : Nat} (hu : u ∈ R) :
    clFn g R u ∈ SccCl (duplicateNodes g R S E).1 eC := by
  have huS : u ∈ S := (hRsub u hu).1
  constructor
  · -- entry reaches the clone, through a redirected entry edge
    obtain ⟨e, heE, hrtg⟩ := (mem_regionOf hSnd hEsub hEnd).mp (hRdef ▸ hu)
    obtain ⟨q, hqe, hqS⟩ := hrest_entries e heE
    have hqC : q ∈ SccCl g eC := outside_pred_in_C hUE heCS hSC hqe
      (hEsub e heE) hqS
    have h1 : Reaches (duplicateNodes g R S E).1 eC q :=
      reaches_dup_orig hnd hS_todo hcls hRsub hclosed hER hhead hqC.1
    refine h1.trans (Relation.ReflTransGen.head
      (step_redirect hqe heE hqS) ?_)
    exact hRdef ▸ clone_reaches_clone hclosed (hRdef ▸ hER e heE) hrtg
  · -- the clone reaches the head, which reaches the entry
    have hucls : u ∈ sccClassIn g todo head := (hcls head hhead u).mpr huS
    obtain ⟨_, h1, h2⟩ := (mem_sccClassIn (hS_todo head hhead) hnd).mp hucls
    have hW : Relation.ReflTransGen (StepW g S) u head :=
      stepW_of_reachesIn hcls hnd hS_todo huS hhead h2 h1
    refine (clone_reaches_head hRsub hclosed hu hW).trans ?_
    exact reaches_dup_orig hnd hS_todo hcls hRsub hclosed hER hhead
      (hSC head hhead).2

/-- Case B: the surgered component of the entry is the old component
together with all clones. -/
theorem caseB_class {g : LGraph} {todo S E R : List Nat} {head eC : Nat}
    (hWF : WFg g) (hnd : todo.Nodup) (htodo_lt : ∀ x ∈ todo, x < g.nextId)
    (hS_todo : ∀ z ∈ S, z ∈ todo)
    (hcls : ∀ n ∈ S, ∀ z, z ∈ sccClassIn g todo n ↔ z ∈ S)
    (hRsub : ∀ v ∈ R, v ∈ S ∧ v ≠ head)
    (hclosed : ∀ u ∈ R, ∀ z, RegionStep g S head u z → z ∈ R)
    (hER : ∀ e ∈ E, e ∈ R) (hhead : head ∈ S)
    (hRb : ∀ u ∈ R, u < g.nextId) (hRnd : R.Nodup)
    (hSnd : S.Nodup) (hEnd : E.Nodup) (hEsub : ∀ e ∈ E, e ∈ S)
    (hRdef : R = regionOf g S head E)
    (hUE : UniqueEntry g (SccCl g eC) eC) (heCS : eC ∉ S)
    (hSC : ∀ x ∈ S, x ∈ SccCl g eC)
    (hrest_entries : ∀ e ∈ E, ∃ q, (q, e) ∈ g.edges ∧ q ∉ S)
    (heC_lt : eC < g.nextId) :
    ∀ x, x ∈ SccCl (duplicateNodes g R S E).1 eC ↔
      (x ∈ SccCl g eC ∨ ∃ u ∈ R, x = clFn g R u) := by
  intro x
  constructor
  · rintro ⟨h1, h2⟩
    by_cases hxo : x < g.nextId
    · refine Or.inl ?_
      have h1' := phi_reaches hWF hRb hER h1
      have h2' := phi_reaches hWF hRb hER h2
      rw [phiFn_orig heC_lt, phiFn_orig hxo] at h1'
      rw [phiFn_orig hxo, phiFn_orig heC_lt] at h2'
      exact ⟨h1', h2'⟩
    · refine Or.inr ?_
      have hx_ne : x ≠ eC := by omega
      rcases Relation.ReflTransGen.cases_tail h1 with h | ⟨c, _, hc⟩
      · exact absurd h hx_ne
      · have hWF' := @WFg_dup g R S E hWF hER
        have hx_nodes := (hWF'.1 _ hc).2
        have hx_lt := hWF'.2 _ hx_nodes
        have hx_lt' : x < g.nextId + R.length := by
          rw [duplicateNodes_eq] at hx_lt
          exact hx_lt
        obtain ⟨u, huR, hueq⟩ := exists_clFn_eq hRnd (by omega) hx_lt'
        exact ⟨u, huR, hueq.symm⟩
  · rintro (hx | ⟨u, huR, rfl⟩)
    · exact ⟨reaches_dup_orig hnd hS_todo hcls hRsub hclosed hER hhead hx.1,
        reaches_dup_orig hnd hS_todo hcls hRsub hclosed hER hhead hx.2⟩
    · exact caseB_clone_mutual hWF hnd hS_todo hcls hRsub hclosed hER hhead
        hSnd hEnd hEsub hRdef hUE heCS hSC hrest_entries huR

/-- Case B: the enclosing component keeps its single entry. -/
theorem caseB_unique {g : LGraph} {todo S E R : List Nat} {head eC : Nat}
    (hWF : WFg g) (hnd : todo.Nodup) (htodo_lt : ∀ x ∈ todo, x < g.nextId)
    (hS_todo : ∀ z ∈ S, z ∈ todo)
    (hcls : ∀ n ∈ S, ∀ z, z ∈ sccClassIn g todo n ↔ z ∈ S)
    (hRsub : ∀ v ∈ R, v ∈ S ∧ v ≠ head)
    (hclosed : ∀ u ∈ R, ∀ z, RegionStep g S head u z → z ∈ R)
    (hER : ∀ e ∈ E, e ∈ R) (hhead : head ∈ S)
    (hRb : ∀ u ∈ R, u < g.nextId) (hRnd : R.Nodup)
    (hSnd : S.Nodup) (hEnd : E.Nodup) (hEsub : ∀ e ∈ E, e ∈ S)
    (hRdef : R = regionOf g S head E)
    (hUE : UniqueEntry g (SccCl g eC) eC) (heCS : eC ∉ S)
    (hSC : ∀ x ∈ S, x ∈ SccCl g eC)
    (hrest_entries : ∀ e ∈ E, ∃ q, (q, e) ∈ g.edges ∧ q ∉ S)
    (heC_lt : eC < g.nextId) :
    UniqueEntry (duplicateNodes g R S E).1
      (SccCl (duplicateNodes g R S E).1 eC) eC := by
  have hB2 := caseB_class hWF hnd htodo_lt hS_todo hcls hRsub hclosed hER
    hhead hRb hRnd hSnd hEnd hEsub hRdef hUE heCS hSC hrest_entries heC_lt
  constructor
  · refine ⟨⟨.refl, .refl⟩, ?_⟩
    obtain ⟨_, qC, hq_edge, hq_nC⟩ := hUE.1
    refine ⟨qC, step_keep hq_edge ?_, ?_⟩
    · rintro ⟨heCE, _⟩
      exact heCS (hEsub eC heCE)
    · intro hq
      rcases (hB2 qC).mp hq with h | ⟨u, huR, hueq⟩
      · exact hq_nC h
      · have := @clFn_ge g R u huR
        have := (edge_orig hWF hq_edge).1
        omega
  · rintro e' ⟨he'c, p, hedge, hpc⟩
    rcases (hB2 e').mp he'c with he'C | ⟨u, huR, rfl⟩
    · rcases mem_sccCl_orig hWF he'C with rfl | he'lt
      · rfl
      · rcases dup_edge_orig_tgt hWF hER hedge he'lt with
          ⟨hpe, _⟩ | ⟨w, rfl, hwR, _, _⟩
        · have hpnC : p ∉ SccCl g eC := fun h => hpc ((hB2 p).mpr (Or.inl h))
          exact hUE.2 e' ⟨he'C, p, hpe, hpnC⟩
        · exact absurd ((hB2 _).mpr (Or.inr ⟨w, hwR, rfl⟩)) hpc
    · have hclge := @clFn_ge g R u huR
      rcases dup_edge_clone_tgt hWF hedge (by omega) with
        ⟨e, hpS, heE, _, hpedge, _⟩ | ⟨w, u', rfl, hwR, _, _, _⟩
      · have hpC : p ∈ SccCl g eC := outside_pred_in_C hUE heCS hSC hpedge
          (hEsub e heE) hpS
        exact absurd ((hB2 p).mpr (Or.inl hpC)) hpc
      · exact absurd ((hB2 _).mpr (Or.inr ⟨w, hwR, rfl⟩)) hpc

/-! ## Untouched components, and small helpers -/

theorem sccCl_eq_of_mem {g : LGraph} {a z : Nat} (hz : z ∈ SccCl g a) :
    ∀ x, x ∈ SccCl g z ↔ x ∈ SccCl g a := by
  obtain ⟨h1, h2⟩ := hz
  intro x
  constructor
  · rintro ⟨k1, k2⟩
    exact ⟨h1.trans k1, k2.trans h2⟩
  · rintro ⟨k1, k2⟩
    exact ⟨h2.trans k1, k2.trans h1⟩

theorem uniqueEntry_congr {g : LGraph} {C D : Set Nat} {e : Nat}
    (h : ∀ x, x ∈ C ↔ x ∈ D) (hu : UniqueEntry g D e) :
    UniqueEntry g C e := by
  obtain ⟨⟨he, q, hq, hqD⟩, huniq⟩ := hu
  refine ⟨⟨(h e).mpr he, q, hq, fun hc => hqD ((h q).mp hc)⟩, ?_⟩
  rintro x ⟨hx, p, hp, hpC⟩
  exact huniq x ⟨(h x).mp hx, p, hp, fun hc => hpC ((h p).mpr hc)⟩

theorem one_lt_length_of_two_mem {l : List Nat} {x y : Nat} (hx : x ∈ l)
    (hy : y ∈ l) (hne : x ≠ y) : 1 < l.length := by
  rcases l with _ | ⟨a, _ | ⟨b, tl⟩⟩
  · cases hx
  · rw [List.mem_singleton] at hx hy
    exact absurd (hx.trans hy.symm) hne
  · simp only [List.length_cons]
    omega

theorem exists_pair_of_one_lt {l : List Nat} (h : 1 < l.length)
    (hnd : l.Nodup) : ∃ x y, x ∈ l ∧ y ∈ l ∧ x ≠ y := by
  rcases l with _ | ⟨a, _ | ⟨b, tl⟩⟩
  · simp at h
  · simp at h
  · refine ⟨a, b, by simp, by simp, ?_⟩
    intro hab
    subst hab
    simp at hnd

/-- A component disjoint from the processed SCC is untouched as a set. -/
theorem untouched_class {g : LGraph} {todo S E R : List Nat} {head : Nat}
    (hWF : WFg g) (hnd : todo.Nodup) (hS_todo : ∀ z ∈ S, z ∈ todo)
    (hcls : ∀ n ∈ S, ∀ z, z ∈ sccClassIn g todo n ↔ z ∈ S)
    (hRsub : ∀ v ∈ R, v ∈ S ∧ v ≠ head)
    (hclosed : ∀ u ∈ R, ∀ z, RegionStep g S head u z → z ∈ R)
    (hER : ∀ e ∈ E, e ∈ R) (hhead : head ∈ S)
    (hRb : ∀ u ∈ R, u < g.nextId)
    {a : Nat} (ha : a < g.nextId)
    (hDdisj : ∀ x ∈ SccCl g a, x ∉ S) :
    ∀ z, z ∈ SccCl (duplicateNodes g R S E).1 a ↔ z ∈ SccCl g a := by
  intro z
  constructor
  · rintro ⟨h1, h2⟩
    by_cases hzo : z < g.nextId
    · exact (sccCl_dup_orig hWF hnd hS_todo hcls hRsub hclosed hER hhead
        hRb ha hzo).mp ⟨h1, h2⟩
    · exfalso
      obtain ⟨q, e, hq_lt, hqS, heE, hedge, hr1, hr2⟩ :=
        reach_clone_inversion hWF h1 (by omega) ha
      have hcl_mem : clFn g R e ∈ SccCl (duplicateNodes g R S E).1 a :=
        ⟨hr1.tail (step_redirect hedge heE hqS), hr2.trans h2⟩
      have he_mem : e ∈ SccCl g a := by
        have h1' := phi_reaches hWF hRb hER hcl_mem.1
        have h2' := phi_reaches hWF hRb hER hcl_mem.2
        rw [phiFn_orig ha, phiFn_clFn (hER e heE)] at h1'
        rw [phiFn_clFn (hER e heE), phiFn_orig ha] at h2'
        exact ⟨h1', h2'⟩
      exact hDdisj e he_mem (hRsub e (hER e heE)).1
  · intro hz
    exact (sccCl_dup_orig hWF hnd hS_todo hcls hRsub hclosed hER hhead
      hRb ha (by
        rcases mem_sccCl_orig hWF hz with rfl | h
        · exact ha
        · exact h)).mpr hz

/-- A unique entry of an untouched component stays unique: redirected
edges never targeted it and clone exits only feed existing entries. -/
theorem untouched_unique {g : LGraph} {todo S E R : List Nat} {head : Nat}
    (hWF : WFg g) (hnd : todo.Nodup) (hS_todo : ∀ z ∈ S, z ∈ todo)
    (hcls : ∀ n ∈ S, ∀ z, z ∈ sccClassIn g todo n ↔ z ∈ S)
    (hRsub : ∀ v ∈ R, v ∈ S ∧ v ≠ head)
    (hclosed : ∀ u ∈ R, ∀ z, RegionStep g S head u z → z ∈ R)
    (hER : ∀ e ∈ E, e ∈ R) (hhead : head ∈ S)
    (hRb : ∀ u ∈ R, u < g.nextId) (hEsub : ∀ e ∈ E, e ∈ S)
    {a e : Nat} (ha : a < g.nextId)
    (hDdisj : ∀ x ∈ SccCl g a, x ∉ S)
    (hUE : UniqueEntry g (SccCl g a) e) (heS : e ∉ S) :
    UniqueEntry (duplicateNodes g R S E).1
      (SccCl (duplicateNodes g R S E).1 a) e := by
  have hD1 := untouched_class hWF hnd hS_todo hcls hRsub hclosed hER hhead
    hRb ha hDdisj
  constructor
  · obtain ⟨⟨heC, q, hqe, hqC⟩, _⟩ := hUE
    refine ⟨(hD1 e).mpr heC, q, step_keep hqe ?_,
      fun h => hqC ((hD1 q).mp h)⟩
    rintro ⟨heE, _⟩
    exact heS (hEsub e heE)
  · rintro e' ⟨he'c, p, hedge, hpc⟩
    have he'C := (hD1 e').mp he'c
    have he'lt : e' < g.nextId := by
      rcases mem_sccCl_orig hWF he'C with rfl | h
      · exact ha
      · exact h
    rcases dup_edge_orig_tgt hWF hER hedge he'lt with
      ⟨hpe, _⟩ | ⟨w, rfl, hwR, _, hwe⟩
    · exact hUE.2 e' ⟨he'C, p, hpe, fun h => hpc ((hD1 p).mpr h)⟩
    · exact hUE.2 e' ⟨he'C, w, hwe,
        fun h => hDdisj w h (hRsub w hwR).1⟩

/-- Skipping a trivial SCC preserves the fold invariant. -/
theorem skip_MID {g : LGraph} {todo newAcc : List Nat} {S : List Nat}
    {rem : List (List Nat)}
    (hMID : MID g todo newAcc (S :: rem)) (hlen : S.length ≤ 1) :
    MID g todo newAcc rem := by
  obtain ⟨hWF, htodoN, htodoD, haccD, haccN, hrem, hpair, hmain⟩ := hMID
  refine ⟨hWF, htodoN, htodoD, haccD, haccN,
    fun T hT => hrem T (List.mem_cons_of_mem _ hT),
    (List.pairwise_cons.mp hpair).2, ?_⟩
  intro a hNT
  rcases hmain a hNT with ⟨e, hue, hea, herem⟩ | hB | ⟨T, hTm, hTeq⟩
  · exact Or.inl ⟨e, hue, hea,
      fun T hT => herem T (List.mem_cons_of_mem _ hT)⟩
  · exact Or.inr (Or.inl hB)
  · rcases List.mem_cons.mp hTm with rfl | hTm'
    · obtain ⟨x, hx, y, hy, hne⟩ := hNT
      exact absurd (one_lt_length_of_two_mem ((hTeq x).mp hx)
        ((hTeq y).mp hy) hne) (by omega)
    · exact Or.inr (Or.inr ⟨T, hTm', hTeq⟩)

theorem dup_nodes (g : LGraph) (R S E : List Nat) :
    (duplicateNodes g R S E).1.nodes =
      g.nodes ++ (List.range R.length).map (g.nextId + ·) := rfl

theorem dup_nextId (g : LGraph) (R S E : List Nat) :
    (duplicateNodes g R S E).1.nextId = g.nextId + R.length := rfl

theorem dup_snd (g : LGraph) (R S E : List Nat) :
    (duplicateNodes g R S E).2 =
      (List.range R.length).map (g.nextId + ·) := rfl

/-- Dispatching the invariant options for a component untouched by the
surgery. -/
theorem untouched_dispatch {g : LGraph} {todo S E R newAcc : List Nat}
    {head : Nat} {rem : List (List Nat)}
    (hWF : WFg g) (hnd : todo.Nodup) (hS_todo : ∀ z ∈ S, z ∈ todo)
    (hcls : ∀ n ∈ S, ∀ z, z ∈ sccClassIn g todo n ↔ z ∈ S)
    (hRsub : ∀ v ∈ R, v ∈ S ∧ v ≠ head)
    (hclosed : ∀ u ∈ R, ∀ z, RegionStep g S head u z → z ∈ R)
    (hER : ∀ e ∈ E, e ∈ R) (hhead : head ∈ S)
    (hRb : ∀ u ∈ R, u < g.nextId) (hEsub : ∀ e ∈ E, e ∈ S)
    {a : Nat} (ha : a < g.nextId)
    (hDdisj : ∀ x ∈ SccCl g a, x ∉ S)
    (hopt :
      (∃ e, UniqueEntry g (SccCl g a) e ∧ e ∉ newAcc ∧ e ∉ S ∧
        ∀ T ∈ rem, e ∉ T) ∨
      (∀ x ∈ SccCl g a, x ∈ newAcc) ∨
      (∃ T ∈ rem, ∀ x, x ∈ SccCl g a ↔ x ∈ T)) :
    (∃ e, UniqueEntry (duplicateNodes g R S E).1
        (SccCl (duplicateNodes g R S E).1 a) e ∧
      e ∉ newAcc ++ ((duplicateNodes g R S E).2 ++ S.erase head) ∧
      ∀ T ∈ rem, e ∉ T) ∨
    (∀ x ∈ SccCl (duplicateNodes g R S E).1 a,
      x ∈ newAcc ++ ((duplicateNodes g R S E).2 ++ S.erase head)) ∨
    (∃ T ∈ rem, ∀ x, x ∈ SccCl (duplicateNodes g R S E).1 a ↔ x ∈ T) := by
  have hD1 := untouched_class hWF hnd hS_todo hcls hRsub hclosed hER hhead
    hRb ha hDdisj
  rcases hopt with ⟨e, hue, heacc, heS, herem⟩ | hB | ⟨T, hTm, hTeq⟩
  · refine Or.inl ⟨e, untouched_unique hWF hnd hS_todo hcls hRsub hclosed
      hER hhead hRb hEsub ha hDdisj hue heS, ?_, herem⟩
    intro hmem
    rcases List.mem_append.mp hmem with h | h
    · exact heacc h
    · rcases List.mem_append.mp h with h | h
      · rw [dup_snd] at h
        have h1 := (mem_newNodes.mp h).1
        have h2 : e < g.nextId := by
          obtain ⟨⟨_, q, hq, _⟩, _⟩ := hue
          exact (edge_orig hWF hq).2
        omega
      · exact heS (List.erase_subset _ _ h)
  · exact Or.inr (Or.inl (fun x hx =>
      List.mem_append.mpr (Or.inl (hB x ((hD1 x).mp hx)))))
  · exact Or.inr (Or.inr ⟨T, hTm, fun x => (hD1 x).trans (hTeq x)⟩)

/-- Processing one nontrivial SCC preserves the fold invariant. -/
theorem processSCC_MID {g : LGraph} {todo newAcc S : List Nat}
    {rem : List (List Nat)}
    (hMID : MID g todo newAcc (S :: rem)) (hlen : 1 < S.length)
    {g' : LGraph} {add : List Nat} {head : Nat}
    (hps : processSCC g S = some (g', add, head)) :
    MID g' todo (newAcc ++ add) rem := by
  obtain ⟨hWF, htodoN, htodoD, haccD, haccN, hrem, hpair, hmain⟩ := hMID
  obtain ⟨hS_todo, hSnd, hSacc, hScls⟩ := hrem S (List.mem_cons_self _ _)
  have hrem' := fun T (hT : T ∈ rem) => hrem T (List.mem_cons_of_mem _ hT)
  have hSrem := (List.pairwise_cons.mp hpair).1
  have hpair' := (List.pairwise_cons.mp hpair).2
  have htodo_lt : ∀ x ∈ todo, x < g.nextId :=
    fun x hx => hWF.2 x (htodoN x hx)
  have hacc_lt : ∀ x ∈ newAcc, x < g.nextId :=
    fun x hx => hWF.2 x (haccN x hx)
  have hSsub_cl : ∀ n ∈ S, ∀ m ∈ S, m ∈ SccCl g n := by
    intro n hn m hm
    obtain ⟨_, h1, h2⟩ :=
      (mem_sccClassIn (hS_todo n hn) htodoD).mp ((hScls n hn m).mpr hm)
    exact ⟨h1.mono (fun a b h => h.1), h2.mono (fun a b h => h.1)⟩
  obtain ⟨n0, n1, hn0, hn1, hne01⟩ := exists_pair_of_one_lt hlen hSnd
  have hS_NT : (SccCl g n0).Nontrivial :=
    ⟨n0, hSsub_cl n0 hn0 n0 hn0, n1, hSsub_cl n0 hn0 n1 hn1, hne01⟩
  rcases hE : (entriesOf g S).getLast? with _ | hd
  · simp only [processSCC, hE] at hps
    exact Option.noConfusion hps
  · simp only [processSCC, hE] at hps
    by_cases hrest : (entriesOf g S).dropLast.isEmpty
    · rw [if_pos hrest] at hps
      simp only [Option.some.injEq, Prod.mk.injEq] at hps
      obtain ⟨rfl, rfl, rfl⟩ := hps
      have hent_single : entriesOf g S = [hd] :=
        eq_singleton_of_dropLast_empty hE hrest
      have hhd_S : hd ∈ S :=
        entriesOf_subset (hent_single ▸ List.mem_singleton.mpr rfl)
      refine ⟨hWF, htodoN, htodoD, ?_, ?_, ?_, hpair', ?_⟩
      · refine List.Nodup.append haccD (hSnd.erase _) ?_
        intro x hx hx'
        exact hSacc x hx (List.erase_subset _ _ hx')
      · intro x hx
        rcases List.mem_append.mp hx with h | h
        · exact haccN x h
        · exact htodoN x (hS_todo x (List.erase_subset _ _ h))
      · intro T hT
        obtain ⟨t1, t2, t3, t4⟩ := hrem' T hT
        refine ⟨t1, t2, ?_, t4⟩
        intro x hx
        rcases List.mem_append.mp hx with h | h
        · exact t3 x h
        · exact fun hxT => hSrem T hT x (List.erase_subset _ _ h) hxT
      · intro a hNT
        rcases hmain a hNT with ⟨e, hue, hea, herem⟩ | hB | ⟨T, hTm, hTeq⟩
        · refine Or.inl ⟨e, hue, ?_,
            fun T hT => herem T (List.mem_cons_of_mem _ hT)⟩
          have heS : e ∉ S := herem S (List.mem_cons_self _ _)
          intro h
          rcases List.mem_append.mp h with h | h
          · exact hea h
          · exact heS (List.erase_subset _ _ h)
        · exact Or.inr (Or.inl
            (fun x hx => List.mem_append.mpr (Or.inl (hB x hx))))
        · rcases List.mem_cons.mp hTm with heq | hTm'
          · subst T
            have hglob : ∀ y, IsEntry g (SccCl g a) y ↔
                y ∈ entriesOf g S := by
              intro y
              rw [mem_entriesOf]
              constructor
              · rintro ⟨hy, q, hq, hqc⟩
                exact ⟨(hTeq y).mp hy, q, hq, fun h => hqc ((hTeq q).mpr h)⟩
              · rintro ⟨hy, q, hq, hqc⟩
                exact ⟨(hTeq y).mpr hy, q, hq, fun h => hqc ((hTeq q).mp h)⟩
            refine Or.inl ⟨hd, ⟨?_, ?_⟩, ?_, ?_⟩
            · exact (hglob hd).mpr (hent_single ▸ List.mem_singleton.mpr rfl)
            · intro x hx
              have hx' := (hglob x).mp hx
              rw [hent_single, List.mem_singleton] at hx'
              exact hx'
            · intro h
              rcases List.mem_append.mp h with h | h
              · exact hSacc hd h hhd_S
              · exact ((List.Nodup.mem_erase_iff hSnd).mp h).1 rfl
            · exact fun T hT => hSrem T hT hd hhd_S
          · exact Or.inr (Or.inr ⟨T, hTm', hTeq⟩)
    · rw [if_neg hrest] at hps
      obtain ⟨E, hEdef⟩ : ∃ E, E = (entriesOf g S).dropLast := ⟨_, rfl⟩
      rw [← hEdef] at hps
      obtain ⟨R, hRdef⟩ : ∃ R, R = regionOf g S hd E := ⟨_, rfl⟩
      rw [← hRdef] at hps
      simp only [Option.some.injEq, Prod.mk.injEq] at hps
      obtain ⟨rfl, rfl, rfl⟩ := hps
      have hentnd : (entriesOf g S).Nodup := entriesOf_nodup hSnd
      have hhd_ent : hd ∈ entriesOf g S := getLast?_mem hE
      have hhd_S : hd ∈ S := entriesOf_subset hhd_ent
      have hhd_lt : hd < g.nextId := htodo_lt hd (hS_todo hd hhd_S)
      have hhd_E : hd ∉ E := by
        rw [hEdef]
        exact getLast_not_mem_dropLast hentnd hE
      have hEnd : E.Nodup := by
        rw [hEdef]
        exact List.Sublist.nodup (List.dropLast_sublist _) hentnd
      have hEent : ∀ e ∈ E, e ∈ entriesOf g S := by
        intro e he
        rw [hEdef] at he
        exact dropLast_subset' he
      have hEsub : ∀ e ∈ E, e ∈ S := fun e he => entriesOf_subset (hEent e he)
      have hEne : ∀ e ∈ E, e ≠ hd := fun e he heq => hhd_E (heq ▸ he)
      have hEnt : ∀ y, y ∈ entriesOf g S ↔ y ∈ E ∨ y = hd := by
        intro y
        rw [hEdef]
        exact mem_of_getLast? hE
      have hrest_entries : ∀ e ∈ E, ∃ q, (q, e) ∈ g.edges ∧ q ∉ S :=
        fun e he => (mem_entriesOf.mp (hEent e he)).2
      have hRsub : ∀ v ∈ R, v ∈ S ∧ v ≠ hd := by
        intro v hv
        rw [hRdef] at hv
        exact regionOf_subset (fun x hx => ⟨hEsub x hx, hEne x hx⟩) v hv
      have hclosed : ∀ u ∈ R, ∀ z, RegionStep g S hd u z → z ∈ R := by
        intro u hu z hstep
        rw [hRdef] at hu ⊢
        exact regionOf_closed hSnd hEsub hEnd hu hstep
      have hER : ∀ e ∈ E, e ∈ R := by
        intro e he
        rw [hRdef]
        exact subset_closureK _ _ _ he
      have hRnd : R.Nodup := by
        rw [hRdef]
        exact closureK_nodup _ hEnd
      have hRb : ∀ u ∈ R, u < g.nextId :=
        fun u hu => htodo_lt u (hS_todo u (hRsub u hu).1)
      have hq0 : ∃ q, (q, hd) ∈ g.edges ∧ q ∉ S :=
        (mem_entriesOf.mp hhd_ent).2
      refine ⟨@WFg_dup g R S E hWF hER, ?_, htodoD, ?_, ?_, ?_, hpair', ?_⟩
      · intro x hx
        rw [dup_nodes]
        exact List.mem_append.mpr (Or.inl (htodoN x hx))
      · rw [dup_snd]
        refine List.Nodup.append haccD
          (List.Nodup.append newNodes_nodup (hSnd.erase _) ?_) ?_
        · intro x hx hx'
          have h1 := (mem_newNodes.mp hx).1
          have h2 := htodo_lt x (hS_todo x (List.erase_subset _ _ hx'))
          omega
        · intro x hx hmem
          rcases List.mem_append.mp hmem with h | h
          · have h1 := (mem_newNodes.mp h).1
            have h2 := hacc_lt x hx
            omega
          · exact hSacc x hx (List.erase_subset _ _ h)
      · intro x hx
        rw [dup_nodes]
        rcases List.mem_append.mp hx with h | h
        · exact List.mem_append.mpr (Or.inl (haccN x h))
        · rcases List.mem_append.mp h with h | h
          · rw [dup_snd] at h
            exact List.mem_append.mpr (Or.inr h)
          · exact List.mem_append.mpr
              (Or.inl (htodoN x (hS_todo x (List.erase_subset _ _ h))))
      · intro T hT
        obtain ⟨t1, t2, t3, t4⟩ := hrem' T hT
        have hTS : ∀ x ∈ T, x ∉ S := fun x hxT hxS => hSrem T hT x hxS hxT
        refine ⟨t1, t2, ?_, ?_⟩
        · intro x hx
          rcases List.mem_append.mp hx with h | h
          · exact t3 x h
          · rcases List.mem_append.mp h with h | h
            · rw [dup_snd] at h
              intro hxT
              have h1 := (mem_newNodes.mp h).1
              have h2 := htodo_lt x (t1 x hxT)
              omega
            · exact fun hxT => hSrem T hT x (List.erase_subset _ _ h) hxT
        · intro n hn
          exact sccClassIn_dup_pending hWF htodo_lt htodoD hER
            (fun v hv => (hRsub v hv).1) hTS t1 t4 hn
      · -- the main dichotomy, split on the kind of the processed SCC
        rcases hmain n0 hS_NT with ⟨eC, hue0, hea0, herem0⟩ | hB0 |
          ⟨T, hTm, hTeq⟩
        · -- Case B: the SCC sits inside a bigger component
          have heCS : eC ∉ S := herem0 S (List.mem_cons_self _ _)
          have heC_cl : eC ∈ SccCl g n0 := hue0.1.1
          have hCeq : ∀ x, x ∈ SccCl g eC ↔ x ∈ SccCl g n0 :=
            sccCl_eq_of_mem heC_cl
          have hUE : UniqueEntry g (SccCl g eC) eC :=
            uniqueEntry_congr hCeq hue0
          have hSC : ∀ x ∈ S, x ∈ SccCl g eC :=
            fun x hx => (hCeq x).mpr (hSsub_cl n0 hn0 x hx)
          obtain ⟨qC0, hqC0e, _⟩ := hue0.1.2
          have heC_lt : eC < g.nextId := (edge_orig hWF hqC0e).2
          have hBU := caseB_unique hWF htodoD htodo_lt hS_todo hScls hRsub
            hclosed hER hhd_S hRb hRnd hSnd hEnd hEsub hRdef hUE heCS hSC
            hrest_entries heC_lt
          have hB2 := caseB_class hWF htodoD htodo_lt hS_todo hScls hRsub
            hclosed hER hhd_S hRb hRnd hSnd hEnd hEsub hRdef hUE heCS hSC
            hrest_entries heC_lt
          intro a hNT'
          by_cases haC' : a ∈ SccCl (duplicateNodes g R S E).1 eC
          · refine Or.inl ⟨eC,
              uniqueEntry_congr (sccCl_eq_of_mem haC') hBU, ?_,
              fun T hT => herem0 T (List.mem_cons_of_mem _ hT)⟩
            intro h
            rcases List.mem_append.mp h with h | h
            · exact hea0 h
            · rcases List.mem_append.mp h with h | h
              · rw [dup_snd] at h
                have := (mem_newNodes.mp h).1
                omega
              · exact heCS (List.erase_subset _ _ h)
          · have ha_lt : a < g.nextId := by
              by_contra hcon
              apply haC'
              obtain ⟨x0, hx0, y0, hy0, hne0⟩ := hNT'
              have hout : ∃ c, Step (duplicateNodes g R S E).1 a c := by
                by_cases hax : x0 = a
                · subst hax
                  rcases Relation.ReflTransGen.cases_head hy0.1 with
                    heq | ⟨c, hc, _⟩
                  · exact absurd heq hne0
                  · exact ⟨c, hc⟩
                · rcases Relation.ReflTransGen.cases_head hx0.1 with
                    heq | ⟨c, hc, _⟩
                  · exact absurd heq.symm hax
                  · exact ⟨c, hc⟩
              obtain ⟨c, hc⟩ := hout
              have ha_nodes := ((@WFg_dup g R S E hWF hER).1 _ hc).1
              rw [dup_nodes] at ha_nodes
              rcases List.mem_append.mp ha_nodes with h | h
              · exact absurd (hWF.2 a h) hcon
              · obtain ⟨h1, h2⟩ := mem_newNodes.mp h
                obtain ⟨u, huR, rfl⟩ := exists_clFn_eq hRnd h1 h2
                exact caseB_clone_mutual hWF htodoD hS_todo hScls hRsub
                  hclosed hER hhd_S hSnd hEnd hEsub hRdef hUE heCS hSC
                  hrest_entries huR
            have haC : a ∉ SccCl g eC :=
              fun h => haC' ((hB2 a).mpr (Or.inl h))
            have hDdisj : ∀ x ∈ SccCl g a, x ∉ S := by
              intro x hx hxS
              exact haC ((sccCl_eq_of_mem (hSC x hxS) a).mp
                ((sccCl_eq_of_mem hx a).mpr ⟨.refl, .refl⟩))
            have hD1 := untouched_class hWF htodoD hS_todo hScls hRsub
              hclosed hER hhd_S hRb ha_lt hDdisj
            have hNT : (SccCl g a).Nontrivial := by
              obtain ⟨x, hx, y, hy, hne⟩ := hNT'
              exact ⟨x, (hD1 x).mp hx, y, (hD1 y).mp hy, hne⟩
            refine untouched_dispatch hWF htodoD hS_todo hScls hRsub hclosed
              hER hhd_S hRb hEsub ha_lt hDdisj ?_
            rcases hmain a hNT with ⟨e, hue, hea, herem⟩ | hB |
              ⟨T', hTm2, hTeq2⟩
            · exact Or.inl ⟨e, hue, hea, herem S (List.mem_cons_self _ _),
                fun T hT => herem T (List.mem_cons_of_mem _ hT)⟩
            · exact Or.inr (Or.inl hB)
            · rcases List.mem_cons.mp hTm2 with heq | hTm2'
              · subst T'
                exact absurd (hSC a ((hTeq2 a).mp ⟨.refl, .refl⟩)) haC
              · exact Or.inr (Or.inr ⟨T', hTm2', hTeq2⟩)
        · exact absurd (hB0 n0 ⟨.refl, .refl⟩) (fun h => hSacc n0 h hn0)
        · rcases List.mem_cons.mp hTm with heq | hTm'
          · subst T
            -- Case A: the SCC is a whole component
            have hSglob : ∀ n ∈ S, ∀ x, x ∈ SccCl g n ↔ x ∈ S := by
              intro n hn x
              exact (sccCl_eq_of_mem (hSsub_cl n0 hn0 n hn) x).trans (hTeq x)
            intro a hNT'
            by_cases ha_lt : a < g.nextId
            · by_cases haS : a ∈ S
              · refine Or.inl ⟨hd, caseA_unique hWF htodoD htodo_lt hS_todo
                  hScls hRsub hclosed hER hhd_S hRb hSglob hEnt hq0 haS,
                  ?_, fun T hT => hSrem T hT hd hhd_S⟩
                intro h
                rcases List.mem_append.mp h with h | h
                · exact hSacc hd h hhd_S
                · rcases List.mem_append.mp h with h | h
                  · rw [dup_snd] at h
                    have := (mem_newNodes.mp h).1
                    omega
                  · exact ((List.Nodup.mem_erase_iff hSnd).mp h).1 rfl
              · have hDdisj : ∀ x ∈ SccCl g a, x ∉ S := by
                  intro x hx hxS
                  exact haS ((hSglob x hxS a).mp
                    ((sccCl_eq_of_mem hx a).mpr ⟨.refl, .refl⟩))
                have hD1 := untouched_class hWF htodoD hS_todo hScls hRsub
                  hclosed hER hhd_S hRb ha_lt hDdisj
                have hNT : (SccCl g a).Nontrivial := by
                  obtain ⟨x, hx, y, hy, hne⟩ := hNT'
                  exact ⟨x, (hD1 x).mp hx, y, (hD1 y).mp hy, hne⟩
                refine untouched_dispatch hWF htodoD hS_todo hScls hRsub
                  hclosed hER hhd_S hRb hEsub ha_lt hDdisj ?_
                rcases hmain a hNT with ⟨e, hue, hea, herem⟩ | hB |
                  ⟨T', hTm2, hTeq2⟩
                · exact Or.inl ⟨e, hue, hea,
                    herem S (List.mem_cons_self _ _),
                    fun T hT => herem T (List.mem_cons_of_mem _ hT)⟩
                · exact Or.inr (Or.inl hB)
                · rcases List.mem_cons.mp hTm2 with heq | hTm2'
                  · subst T'
                    exact absurd ((hTeq2 a).mp ⟨.refl, .refl⟩) haS
                  · exact Or.inr (Or.inr ⟨T', hTm2', hTeq2⟩)
            · -- a clone in case A: its component is all fresh clones
              refine Or.inr (Or.inl ?_)
              have hno_orig : ∀ z,
                  z ∈ SccCl (duplicateNodes g R S E).1 a →
                  ¬ z < g.nextId := by
                intro z hz hz_lt
                have haz : a ∈ SccCl (duplicateNodes g R S E).1 z :=
                  (sccCl_eq_of_mem hz a).mpr ⟨.refl, .refl⟩
                by_cases hzS : z ∈ S
                · have := (caseA_class hWF htodoD htodo_lt hS_todo hScls
                    hRsub hclosed hER hhd_S hRb hSglob hzS a).mp haz
                  exact ha_lt (htodo_lt a (hS_todo a this))
                · have hzdisj : ∀ x ∈ SccCl g z, x ∉ S := by
                    intro x hx hxS
                    exact hzS ((hSglob x hxS z).mp
                      ((sccCl_eq_of_mem hx z).mpr ⟨.refl, .refl⟩))
                  have haz' := (untouched_class hWF htodoD hS_todo hScls
                    hRsub hclosed hER hhd_S hRb hz_lt hzdisj a).mp haz
                  rcases mem_sccCl_orig hWF haz' with rfl | h
                  · exact ha_lt hz_lt
                  · exact ha_lt h
              obtain ⟨x0, hx0, y0, hy0, hne0⟩ := hNT'
              have hout : ∃ c, Step (duplicateNodes g R S E).1 a c := by
                by_cases hax : x0 = a
                · subst hax
                  rcases Relation.ReflTransGen.cases_head hy0.1 with
                    heq | ⟨c, hc, _⟩
                  · exact absurd heq hne0
                  · exact ⟨c, hc⟩
                · rcases Relation.ReflTransGen.cases_head hx0.1 with
                    heq | ⟨c, hc, _⟩
                  · exact absurd heq.symm hax
                  · exact ⟨c, hc⟩
              intro z hz
              have hz_ge := hno_orig z hz
              have hz_nodes : z ∈ (duplicateNodes g R S E).1.nodes := by
                by_cases hza : z = a
                · subst hza
                  obtain ⟨c, hc⟩ := hout
                  exact ((@WFg_dup g R S E hWF hER).1 _ hc).1
                · obtain ⟨h1, h2⟩ := hz
                  rcases Relation.ReflTransGen.cases_tail h1 with
                    heq | ⟨c, _, hc⟩
                  · exact absurd heq hza
                  · exact ((@WFg_dup g R S E hWF hER).1 _ hc).2
              rw [dup_nodes] at hz_nodes
              rcases List.mem_append.mp hz_nodes with h | h
              · exact absurd (hWF.2 z h) hz_ge
              · refine List.mem_append.mpr (Or.inr
                  (List.mem_append.mpr (Or.inl ?_)))
                rw [dup_snd]
                exact h
          · exact absurd ((hTeq n0).mp ⟨.refl, .refl⟩) (hSrem T hTm' n0 hn0)

/-! ## From the iteration invariant to the whole pass -/

theorem sccsOfAux_pairwise {g : LGraph} {todo : List Nat}
    (hnd : todo.Nodup) :
    ∀ {cand done : List Nat}, (∀ x ∈ cand, x ∈ todo) →
      (∀ x ∈ done, ∀ y, y ∈ sccClassIn g todo x → y ∈ done) →
      (∀ S ∈ sccsOfAux g todo cand done, ∀ x ∈ S, x ∉ done) ∧
      List.Pairwise (fun T U => ∀ x ∈ T, x ∉ U)
        (sccsOfAux g todo cand done) := by
  intro cand
  induction cand with
  | nil =>
    intro done _ _
    exact ⟨fun S hS => absurd hS (List.not_mem_nil S), List.Pairwise.nil⟩
  | cons n rest ih =>
    intro done hsub hclosed
    have hsub' : ∀ x ∈ rest, x ∈ todo := fun x hx => hsub x (by simp [hx])
    simp only [sccsOfAux]
    split
    · exact ih hsub' hclosed
    · next hdone =>
      have hntodo := hsub n (by simp)
      have hcls_closed : ∀ x ∈ done ++ sccClassIn g todo n, ∀ y,
          y ∈ sccClassIn g todo x → y ∈ done ++ sccClassIn g todo n := by
        intro x hx y hy
        rcases List.mem_append.mp hx with hx | hx
        · exact List.mem_append.mpr (Or.inl (hclosed x hx y hy))
        · exact List.mem_append.mpr
            (Or.inr ((sccClassIn_eq_of_mem hntodo hnd hx y).mp hy))
      obtain ⟨hdisj, hpw⟩ := ih hsub' hcls_closed
      constructor
      · intro S hS x hxS hxdone
        rcases List.mem_cons.mp hS with rfl | hS'
        · have hxtodo : x ∈ todo := sccClassIn_subset hxS
          have hnx : n ∈ sccClassIn g todo x := by
            obtain ⟨_, h1, h2⟩ := (mem_sccClassIn hntodo hnd).mp hxS
            exact (mem_sccClassIn hxtodo hnd).mpr ⟨hntodo, h2, h1⟩
          exact hdone (hclosed x hxdone n hnx)
        · exact hdisj S hS' x hxS (List.mem_append.mpr (Or.inl hxdone))
      · refine List.Pairwise.cons ?_ hpw
        intro U hU x hxS hxU
        exact hdisj U hU x hxU (List.mem_append.mpr (Or.inr hxS))

/-- A component entirely inside the work list coincides with the
work-list-restricted class of its base point. -/
theorem sccCl_eq_sccClassIn {g : LGraph} {todo : List Nat} {a : Nat}
    (hnd : todo.Nodup) (hsub : ∀ x ∈ SccCl g a, x ∈ todo) :
    ∀ x, x ∈ SccCl g a ↔ x ∈ sccClassIn g todo a := by
  intro x
  constructor
  · rintro ⟨h1, h2⟩
    have ha : a ∈ todo := hsub a ⟨.refl, .refl⟩
    have hx : x ∈ todo := hsub x ⟨h1, h2⟩
    refine (mem_sccClassIn ha hnd).mpr ⟨hx, ?_, ?_⟩
    · refine (rtg_stay_in_class h1 h2).mono ?_
      rintro c d ⟨hcd, ⟨hac, hca⟩, ⟨had, hda⟩⟩
      exact ⟨hcd, hsub c ⟨hac, hca⟩, hsub d ⟨had, hda⟩⟩
    · refine (rtg_stay_in_class h2 h1).mono ?_
      rintro c d ⟨hcd, ⟨hxc, hcx⟩, ⟨hxd, hdx⟩⟩
      have hc : c ∈ SccCl g a := (sccCl_eq_of_mem ⟨h1, h2⟩ c).mp ⟨hxc, hcx⟩
      have hd' : d ∈ SccCl g a := (sccCl_eq_of_mem ⟨h1, h2⟩ d).mp ⟨hxd, hdx⟩
      exact ⟨hcd, hsub c hc, hsub d hd'⟩
  · intro hx
    have ha : a ∈ todo := hsub a ⟨.refl, .refl⟩
    obtain ⟨_, h1, h2⟩ := (mem_sccClassIn ha hnd).mp hx
    exact ⟨h1.mono (fun c d h => h.1), h2.mono (fun c d h => h.1)⟩

/-- Invariant between iterations of the `while todo` loop. -/
def INV (g : LGraph) (todo : List Nat) : Prop :=
  WFg g ∧ (∀ x ∈ todo, x ∈ g.nodes) ∧ todo.Nodup ∧
  ∀ a, (SccCl g a).Nontrivial →
    (∃ e, UniqueEntry g (SccCl g a) e ∧ e ∉ todo) ∨
    (∀ x ∈ SccCl g a, x ∈ todo)

theorem INV_to_MID {g : LGraph} {todo : List Nat} (hINV : INV g todo) :
    MID g todo [] (sccsOf g todo) := by
  obtain ⟨hWF, htodoN, htodoD, hmain⟩ := hINV
  have hprops := @sccsOfAux_pairwise g todo htodoD todo [] (fun x hx => hx)
    (fun x hx y _ => absurd hx (List.not_mem_nil x))
  refine ⟨hWF, htodoN, htodoD, List.nodup_nil,
    fun x hx => absurd hx (List.not_mem_nil x), ?_, hprops.2, ?_⟩
  · intro T hT
    obtain ⟨m, hm_cand, hTdef⟩ := sccsOfAux_mem hT
    subst hTdef
    refine ⟨fun x hx => sccClassIn_subset hx, sccClassIn_nodup htodoD,
      fun x hx => absurd hx (List.not_mem_nil x), ?_⟩
    intro n hn x
    exact sccClassIn_eq_of_mem hm_cand htodoD hn x
  · intro a hNT
    rcases hmain a hNT with ⟨e, hue, hetodo⟩ | hB
    · refine Or.inl ⟨e, hue, fun h => absurd h (List.not_mem_nil e), ?_⟩
      intro T hT hmem
      obtain ⟨m, _, hTdef⟩ := sccsOfAux_mem hT
      exact hetodo (sccClassIn_subset (hTdef ▸ hmem))
    · refine Or.inr (Or.inr ?_)
      have ha_todo : a ∈ todo := hB a ⟨.refl, .refl⟩
      rcases sccsOfAux_covers htodoD (fun x hx => hx) ha_todo with
        hdone | ⟨T, hT, haT⟩
      · exact absurd hdone (List.not_mem_nil a)
      · refine ⟨T, hT, ?_⟩
        obtain ⟨m, hm, hTdef⟩ := sccsOfAux_mem hT
        subst hTdef
        intro x
        rw [sccCl_eq_sccClassIn htodoD hB x]
        exact sccClassIn_eq_of_mem hm htodoD haT x

theorem MID_to_INV {g : LGraph} {todo newtodo : List Nat}
    (h : MID g todo newtodo []) : INV g newtodo := by
  obtain ⟨hWF, _, _, hnd, hN, _, _, hmain⟩ := h
  refine ⟨hWF, hN, hnd, ?_⟩
  intro a hNT
  rcases hmain a hNT with ⟨e, hue, hea, _⟩ | hB | ⟨T, hT, _⟩
  · exact Or.inl ⟨e, hue, hea⟩
  · exact Or.inr hB
  · exact absurd hT (List.not_mem_nil T)

/-- The fold over all SCCs preserves the invariant. -/
theorem loopIter_MID {todo : List Nat} :
    ∀ {sccs : List (List Nat)} {g : LGraph} {newAcc heads : List Nat}
      {g2 : LGraph} {newtodo heads2 : List Nat},
      MID g todo newAcc sccs →
      loopIter g sccs newAcc heads = some (g2, newtodo, heads2) →
      MID g2 todo newtodo [] := by
  intro sccs
  induction sccs with
  | nil =>
    intro g newAcc heads g2 newtodo heads2 hMID hit
    simp only [loopIter, Option.some.injEq, Prod.mk.injEq] at hit
    obtain ⟨rfl, rfl, rfl⟩ := hit
    exact hMID
  | cons S rest ih =>
    intro g newAcc heads g2 newtodo heads2 hMID hit
    simp only [loopIter] at hit
    by_cases hlen : S.length ≤ 1
    · rw [if_pos hlen] at hit
      exact ih (skip_MID hMID hlen) hit
    · rw [if_neg hlen] at hit
      rcases hps : processSCC g S with _ | ⟨g', add, head⟩
      · rw [hps] at hit
        exact Option.noConfusion hit
      · rw [hps] at hit
        exact ih (processSCC_MID hMID (by omega) hps) hit

/-- Every nontrivial strongly connected component has a unique entry. -/
def SingleEntry (g : LGraph) : Prop :=
  ∀ a, (SccCl g a).Nontrivial → ∃ e, UniqueEntry g (SccCl g a) e

theorem INV_empty {g : LGraph} (h : INV g []) : SingleEntry g := by
  intro a hNT
  rcases h.2.2.2 a hNT with ⟨e, hue, _⟩ | hB
  · exact ⟨e, hue⟩
  · obtain ⟨x, hx, _, _, _⟩ := hNT
    exact absurd (hB x hx) (List.not_mem_nil x)

theorem structureLoopsF_single :
    ∀ (fuel : Nat) {g : LGraph} {todo heads : List Nat} {g2 : LGraph}
      {heads2 : List Nat}, INV g todo →
      structureLoopsF fuel g todo heads = some (g2, heads2) →
      SingleEntry g2 := by
  intro fuel
  induction fuel with
  | zero =>
    intro g todo heads g2 heads2 hINV h
    rcases todo with _ | ⟨t, ts⟩
    · simp only [structureLoopsF, Option.some.injEq, Prod.mk.injEq] at h
      obtain ⟨rfl, rfl⟩ := h
      exact INV_empty hINV
    · exact Option.noConfusion h
  | succ fuel ih =>
    intro g todo heads g2 heads2 hINV h
    rcases todo with _ | ⟨t, ts⟩
    · simp only [structureLoopsF, Option.some.injEq, Prod.mk.injEq] at h
      obtain ⟨rfl, rfl⟩ := h
      exact INV_empty hINV
    · simp only [structureLoopsF] at h
      rcases hit : loopIter g (sccsOf g (t :: ts)) [] heads with
        _ | ⟨g', newtodo, heads'⟩
      · rw [hit] at h
        exact Option.noConfusion h
      · rw [hit] at h
        exact ih (MID_to_INV (loopIter_MID (INV_to_MID hINV) hit)) h

theorem INV_init {g : LGraph} (hWF : WFg g) (hnd : g.nodes.Nodup) :
    INV g g.nodes := by
  refine ⟨hWF, fun x h => h, hnd, ?_⟩
  intro a hNT
  refine Or.inr ?_
  intro x hx
  obtain ⟨y, hy, z, hz, hyz⟩ := hNT
  have hxx : ∀ w, x ≠ w → Reaches g x w → x ∈ g.nodes := by
    intro w hne hr
    rcases Relation.ReflTransGen.cases_head hr with heq | ⟨c, hc, _⟩
    · exact absurd heq hne
    · exact (hWF.1 _ hc).1
  by_cases hxy : x = y
  · subst hxy
    exact hxx z hyz (hx.2.trans hz.1)
  · exact hxx y hxy (hx.2.trans hy.1)

-- multi-entry loop: 0 -> 1, 0 -> 2, 1 <-> 2 loop with two entries
def gTwoEntry : LGraph :=
  ⟨[0, 1, 2], [(0, 1), (0, 2), (1, 2), (2, 1)], 3⟩

/-- **C4.** After the loop-canonicalisation pass returns, every
strongly connected component of size at least 2 in the resulting graph
has exactly one entry node. -/
theorem claim_C4 (fuel : Nat) (g g2 : LGraph) (heads : List Nat)
    (hWF : WFg g) (hnd : g.nodes.Nodup)
    (h : structureLoops fuel g = some (g2, heads)) :
    ∀ a, (SccCl g2 a).Nontrivial →
      ∃ e, IsEntry g2 (SccCl g2 a) e ∧
        ∀ x, IsEntry g2 (SccCl g2 a) x → x = e := by
  intro a hNT
  obtain ⟨e, hue⟩ := structureLoopsF_single fuel (INV_init hWF hnd) h a hNT
  exact ⟨e, hue.1, hue.2⟩

def gTE2 : LGraph :=
  ⟨[0, 1, 2, 3], [(0, 3), (0, 2), (1, 2), (2, 1), (3, 2)], 4⟩

theorem claim_C4_witness :
    WFg gTwoEntry ∧ gTwoEntry.nodes.Nodup ∧
    structureLoops 10 gTwoEntry = some (gTE2, [2]) ∧
    (SccCl gTE2 1).Nontrivial ∧
    (∃ e, IsEntry gTE2 (SccCl gTE2 1) e ∧
      ∀ x, IsEntry gTE2 (SccCl gTE2 1) x → x = e) := by
  refine ⟨⟨by decide, by decide⟩, by decide, by decide, ?_, ?_⟩
  · exact ⟨1, ⟨.refl, .refl⟩, 2,
      ⟨.single (by decide : (1, 2) ∈ gTE2.edges),
       .single (by decide : (2, 1) ∈ gTE2.edges)⟩, by decide⟩
  · exact claim_C4 10 gTwoEntry gTE2 [2] ⟨by decide, by decide⟩ (by decide)
      (by decide) 1 ⟨1, ⟨.refl, .refl⟩, 2,
        ⟨.single (by decide : (1, 2) ∈ gTE2.edges),
         .single (by decide : (2, 1) ∈ gTE2.edges)⟩, by decide⟩

end Krakatau
